import Mathlib

/-!
# Web Mercator projection and tag filter of libosmium

A shallow embedding of `osmium/geom/mercator_projection.hpp` and
`osmium/tags/filter.hpp`.  The `double` arithmetic of the projection is read as
exact real arithmetic; the tag filter is embedded as a list of rules scanned
front to back.
-/

/-! ## Taylor polynomials used for numerical bounds -/

namespace Numeric

open Finset

/-- The partial sum of the cosine series with `n` terms. -/
noncomputable def cosTaylor (n : ℕ) (x : ℝ) : ℝ :=
  ∑ j in range n, (-1) ^ j * x ^ (2 * j) / ((2 * j).factorial : ℝ)

/-- The partial sum of the sine series with `n` terms. -/
noncomputable def sinTaylor (n : ℕ) (x : ℝ) : ℝ :=
  ∑ j in range n, (-1) ^ j * x ^ (2 * j + 1) / ((2 * j + 1).factorial : ℝ)

/-- The partial sum of the series of `exp (-x)` with `n` terms. -/
noncomputable def expNegTaylor (n : ℕ) (x : ℝ) : ℝ :=
  ∑ j in range n, (-1) ^ j * x ^ j / (j.factorial : ℝ)

end Numeric

/-! ## Integer polynomials and the certificates checked by evaluation -/

namespace IPoly

/-- The value at `x` of the polynomial with the integer coefficients `p`, lowest
degree first. -/
def eval {R : Type} [CommRing R] (p : List ℤ) (x : R) : R :=
  p.foldr (fun a acc => (a : R) + x * acc) 0

/-- The value at an integer of a polynomial, by Horner's rule. -/
def evalInt (p : List ℤ) (x : ℤ) : ℤ :=
  p.foldr (fun a acc => a + x * acc) 0

/-- Sum of two coefficient lists. -/
def add : List ℤ → List ℤ → List ℤ
  | [], q => q
  | a :: p, [] => a :: p
  | a :: p, b :: q => (a + b) :: add p q

/-- Multiple of a coefficient list. -/
def smul (c : ℤ) (p : List ℤ) : List ℤ := p.map (fun a => c * a)

/-- Product of two coefficient lists. -/
def mul : List ℤ → List ℤ → List ℤ
  | [], _ => []
  | a :: p, q => add (smul a q) (0 :: mul p q)

/-- The coefficients of the derivative. -/
def pderiv : List ℤ → List ℤ
  | [] => []
  | _ :: p => add p (0 :: pderiv p)

/-- The coefficients of `p (c + X)`. -/
def shift (c : ℤ) : List ℤ → List ℤ
  | [] => []
  | a :: p => add [a] (add (smul c (shift c p)) (0 :: shift c p))

/-- The value at `r` of the polynomial whose coefficients are the absolute
values of those of `p`. -/
def absEval (r : ℤ) : List ℤ → ℤ
  | [] => 0
  | a :: p => (a.natAbs : ℤ) + r * absEval r p

/-- A lower bound of `p` on `[-r, r]`: the constant coefficient minus the
absolute values of the other terms. -/
def lower (r : ℤ) : List ℤ → ℤ
  | [] => 0
  | a :: p => a - r * absEval r p

/-- Evaluate a natural number before it is passed on. -/
def forceNat {α : Type} (x : ℕ) (k : ℕ → α) : α :=
  match x with
  | 0 => k 0
  | n + 1 => k (n + 1)

/-- Evaluate an integer before it is passed on. -/
def forceInt {α : Type} (x : ℤ) (k : ℤ → α) : α :=
  match x with
  | Int.ofNat m => forceNat m (fun m => k (Int.ofNat m))
  | Int.negSucc m => forceNat m (fun m => k (Int.negSucc m))

/-- The first `n` digits of `X` in the balanced representation to the base `B`. -/
def digits (B : ℕ) : ℕ → ℤ → List ℤ
  | 0, _ => []
  | n + 1, X =>
    forceInt X (fun X => forceInt (Int.bmod X B) (fun d => d :: digits B n ((X - d) / B)))

/-- Check that the intervals `[c - r, c + r]` of a list cover `[lo, hi]` from left
to right and that each of them passes `ok`. -/
def checkCover (ok : ℤ → ℤ → Bool) : ℤ → ℤ → List (ℤ × ℤ) → Bool
  | lo, hi, [] => decide (hi ≤ lo)
  | lo, hi, (c, r) :: rest => decide (c - r ≤ lo) && ok c r && checkCover ok (c + r) hi rest

/-- Check that the lower bounds read off the digits of `X (B + c)` are positive
on the intervals `[c - r, c + r]` of a list that covers `[lo, hi]`. -/
def checkPos (X : ℤ → ℤ) (B n Cmax : ℕ) (lo hi : ℤ) (l : List (ℤ × ℤ)) : Bool :=
  checkCover (fun c r => decide (c.natAbs ≤ Cmax) &&
    decide (0 < lower r (digits B n (X (B + c))))) lo hi l

/-- The coefficients of `10^42 * lat_to_y_den`. -/
def denL : List ℤ :=
  [1000000000000000000000000000000000000000000,
   -543672036010859911080000000000000000000,
   -345546751987863378420000000000000000000,
   173019445085169740480000000000000000,
   43251609106864178231000000000000000,
   -19300094785736130185000000000000,
   -2329874343937754176800000000000,
   868760908701761721850000000,
   48141483273572351796000000,
   -12585140312446795560000,
   -197411360668142306370]

/-- The coefficients of `10^42 * lat_to_y_num`. -/
def numL : List ℤ :=
  [0,
   17453292518154191887000000000000000000000,
   -9488867147335776830100000000000000000,
   -5144832369722848874500000000000000000,
   2538013606980301651900000000000000,
   516175373655094532390000000000000,
   -220225881581151041820000000000,
   -19685447939983315591000000000,
   6490528201867267388400000,
   204658527439432680090000,
   -31112583378460085319]

/-- The coefficients of `numL' * denL - numL * denL'`, the numerator of the derivative of
the rational polynomial. -/
def slopeL : List ℤ := add (mul (pderiv numL) denL) (smul (-1) (mul numL (pderiv denL)))

/-- The value of `slopeL` at an integer, from the values of its factors. -/
def slopeVal (x : ℤ) : ℤ :=
  evalInt (pderiv numL) x * evalInt denL x - evalInt numL x * evalInt (pderiv denL) x

/-- The monomial `c * X ^ m`. -/
def monomial (m : ℕ) (c : ℤ) : List ℤ := List.replicate m 0 ++ [c]

/-- The coefficients of `(2 n)! * Δ ^ (2 n) * cosTaylor (n + 1) (K * X / Δ)`. -/
def cosL (K Δ : ℤ) : ℕ → List ℤ
  | 0 => [1]
  | n + 1 => add (smul ((2 * n + 1) * (2 * n + 2) * Δ ^ 2) (cosL K Δ n))
      (monomial (2 * n + 2) ((-1) ^ (n + 1) * K ^ (2 * n + 2)))

/-- The integer `(2 n)! * Δ ^ (2 n) * cosTaylor (n + 1) (X / Δ)`. -/
def cosV (X Δ : ℤ) : ℕ → ℤ
  | 0 => 1
  | n + 1 => (2 * n + 1) * (2 * n + 2) * Δ ^ 2 * cosV X Δ n + (-1) ^ (n + 1) * X ^ (2 * n + 2)

/-- Numerator of the lower bound `piLo / 10 ^ 14` of pi. -/
def piLo : ℤ := 314159265358979

/-- Numerator of the upper bound `piHi / 10 ^ 14` of pi. -/
def piHi : ℤ := 314159265358980

/-- Denominator of the bounds `piLo / degDen` and `piHi / degDen` of `pi / 180`. -/
def degDen : ℤ := 18000000000000000

/-- Denominator of the bounds on the slope error. -/
def errDen : ℤ := 1000000000000

/-- A positive multiple of `kLo * D^2 - (P - E * D^2) * cosTaylor 9 (kLo * X)`, where `D` is
the denominator, `P` the numerator of the derivative and `E = e / errDen`. -/
def upperL (e : ℤ) : List ℤ :=
  add (smul (piLo * (Nat.factorial 16 : ℤ) * degDen ^ 16 * errDen) (mul denL denL))
    (smul (-degDen) (mul (add (smul errDen slopeL) (smul (-e) (mul denL denL)))
      (cosL piLo degDen 8)))

/-- The value of `upperL e` at an integer. -/
def upperVal (e : ℤ) (x : ℤ) : ℤ :=
  forceInt (evalInt denL x) (fun d => forceInt (slopeVal x) (fun p =>
    piLo * (Nat.factorial 16 : ℤ) * degDen ^ 16 * errDen * (d * d) -
      degDen * ((errDen * p - e * (d * d)) * cosV (piLo * x) degDen 8)))

/-- A positive multiple of `(P + E * D^2) * cosTaylor 8 (kHi * X) - kHi * D^2`. -/
def lowerL (e : ℤ) : List ℤ :=
  add (smul degDen (mul (add (smul errDen slopeL) (smul e (mul denL denL)))
      (cosL piHi degDen 7)))
    (smul (-(piHi * (Nat.factorial 14 : ℤ) * degDen ^ 14 * errDen)) (mul denL denL))

/-- The value of `lowerL e` at an integer. -/
def lowerVal (e : ℤ) (x : ℤ) : ℤ :=
  forceInt (evalInt denL x) (fun d => forceInt (slopeVal x) (fun p =>
    degDen * ((errDen * p + e * (d * d)) * cosV (piHi * x) degDen 7) -
      piHi * (Nat.factorial 14 : ℤ) * degDen ^ 14 * errDen * (d * d)))

/-- The integer `(2 n + 1)! * Δ ^ (2 n + 1) * sinTaylor (n + 1) (X / Δ)`. -/
def sinV (X Δ : ℤ) : ℕ → ℤ
  | 0 => X
  | n + 1 => (2 * n + 2) * (2 * n + 3) * Δ ^ 2 * sinV X Δ n + (-1) ^ (n + 1) * X ^ (2 * n + 3)

/-- The integer `n ! * Δ ^ n * ∑ i < n + 1, (X / Δ) ^ i / i !`. -/
def expV (X Δ : ℤ) : ℕ → ℤ
  | 0 => 1
  | n + 1 => (n + 1) * Δ * expV X Δ n + X ^ (n + 1)

/-- The integer `S ^ p.length * eval p (x / S)`. -/
def homV (S x : ℤ) : List ℤ → ℤ
  | [] => 0
  | a :: p => a * S ^ (p.length + 1) + x * homV S x p

/-- Denominator of the angles `pi * (90 - m / 8) / 360` at the grid points. -/
def angDen : ℤ := 288000000000000000

/-- Denominator of the bounds on the exact formula at the grid points. -/
def valDen : ℤ := 10000000000000

/-- The checks at a grid point `m / 8 ≥ 0`: `qL / valDen` and `qU / valDen` enclose
the exact formula (divided by the earth radius) and are within `7 / 10^10` of
`hn / dH`. -/
def anchorCore (m dH hn qL qU : ℤ) : Bool :=
  forceInt (piLo * (720 - m)) (fun xl => forceInt (piHi * (720 - m)) (fun xh =>
    decide (0 ≤ m) && decide (m ≤ 624) && decide (0 < dH) && decide (0 ≤ qL) &&
    decide (0 ≤ qU) &&
    decide (qU * (dH * 10000000000) ≤ (hn * 10000000000 + 7 * dH) * valDen) &&
    decide ((hn * 10000000000 - 7 * dH) * valDen ≤ qL * (dH * 10000000000)) &&
    decide (0 < sinV xl angDen 5) &&
    decide (cosV xl angDen 6 * ((2 * 5 + 1).factorial * angDen ^ (2 * 5 + 1)) *
        ((21).factorial * valDen ^ 21)
      < expV qU valDen 21 * sinV xl angDen 5 * ((2 * 6).factorial * angDen ^ (2 * 6))) &&
    decide (0 ≤ expV (-qL) valDen 21) &&
    decide (sinV xh angDen 6 * ((2 * 5).factorial * angDen ^ (2 * 5)) *
        ((21).factorial * valDen ^ 21)
      < cosV xh angDen 5 * expV (-qL) valDen 21 *
        ((2 * 6 + 1).factorial * angDen ^ (2 * 6 + 1)))))

/-- The checks at the grid point `c / 8`, of either sign. -/
def anchorOK (c : ℤ) : Bool :=
  forceInt (homV 8 c denL) (fun dH =>
    forceInt (if 0 ≤ c then homV 8 c numL else -homV 8 c numL) (fun hn =>
      anchorCore (Int.ofNat c.natAbs) dH hn
        (-(((-hn * 10000000000 + 7 * dH) * valDen) / (dH * 10000000000)))
        (((hn * 10000000000 + 7 * dH) * valDen) / (dH * 10000000000))))

/-- Check a list of grid points `c / 8`, each with the radius `r / 8` it answers
for: the intervals cover `[lo, hi]`, the points lie in `[8 * loR, 8 * hiR]`, the
rational polynomial is within `7 / 10^10` earth radii of the exact formula at
each point, and the slope bound `e / errDen` keeps the error below `0.01` on
each interval. -/
def checkAnchors (e loR hiR : ℤ) (l : List (ℤ × ℤ)) : Bool :=
  checkCover (fun c r => decide (8 * loR ≤ c) && decide (c ≤ 8 * hiR) &&
    decide (6378137 * (5600 + r * e) < 80000000000) && anchorOK c) (8 * loR) (8 * hiR) l

end IPoly

/-! ## The certificate of the north/south symmetry defect -/

namespace IPoly

/-- The coefficients of `p (-X)`. -/
def reflect : List ℤ → List ℤ
  | [] => []
  | a :: p => a :: smul (-1) (reflect p)

/-- The coefficients of `S ^ (n - 1) * p (X / S)` for a list `p` of length `n`. -/
def scaleArg (S : ℤ) : List ℤ → List ℤ
  | [] => []
  | a :: p => (a * S ^ p.length) :: scaleArg S p

/-- The coefficients of `16 ^ 10 * denL (X / 16)`. -/
def symDen : List ℤ := scaleArg 16 denL

/-- The coefficients of `16 ^ 10 * numL (X / 16)`. -/
def symNum : List ℤ := scaleArg 16 numL

/-- The coefficients of `85 * D(X) * D(-X) + s * 10^5 * 6378137 * (N(X) * D(-X) + N(-X) * D(X))`
for `D = symDen` and `N = symNum`; it is positive for `s = -1` and for `s = 1`
where the sum of the rational polynomial at `X / 16` and at `-X / 16`, times
6378137, is below `0.00085` in absolute value. -/
def symL (s : ℤ) : List ℤ :=
  add (smul 85 (mul symDen (reflect symDen)))
    (smul (s * 637813700000) (add (mul symNum (reflect symDen)) (mul (reflect symNum) symDen)))

/-- The value of `symL s` at an integer, from the values of its factors. -/
def symVal (s x : ℤ) : ℤ :=
  85 * (evalInt symDen x * evalInt symDen (-x)) +
    s * 637813700000 *
      (evalInt symNum x * evalInt symDen (-x) + evalInt symNum (-x) * evalInt symDen x)

/-- The coefficients of `8 ^ 20 * (6378137 * slopeL - 510000 * denL ^ 2) (X / 8)`; where it
is positive the derivative of the rational polynomial, times 6378137, is above
510000 at `X / 8`. -/
def slopeMinL : List ℤ :=
  scaleArg 8 (add (smul 6378137 slopeL) (smul (-510000) (mul denL denL)))

end IPoly
namespace osmium

namespace geom

/-- Modelled from the spec: the constant `osmium::geom::PI` is declared in
`osmium/geom/util.hpp`, which is not among the sources; it is read as the real
number pi. -/
noncomputable def PI : ℝ := Real.pi

/-- Modelled from the spec: `deg_to_rad` is declared in `osmium/geom/util.hpp`,
which is not among the sources; degrees to radians, `d * pi / 180`. -/
noncomputable def deg_to_rad (degree : ℝ) : ℝ := degree * PI / 180

/-- Modelled from the spec: `rad_to_deg` is declared in `osmium/geom/util.hpp`,
which is not among the sources; radians to degrees, `r * 180 / pi`. -/
noncomputable def rad_to_deg (radians : ℝ) : ℝ := radians * 180 / PI

/-- Modelled from the spec: `osmium::geom::Coordinates` is declared in
`osmium/geom/coordinates.hpp`, which is not among the sources; a pair of
`double` values `x` and `y`. -/
structure Coordinates where
  x : ℝ
  y : ℝ

namespace detail

/-- The constant `earth_radius_for_epsg3857`. -/
def earth_radius_for_epsg3857 : ℝ := 6378137.0

/-- The constant `max_coordinate_epsg3857`. -/
def max_coordinate_epsg3857 : ℝ := 20037508.34

/-- The function `lon_to_x`. -/
noncomputable def lon_to_x (lon : ℝ) : ℝ :=
  earth_radius_for_epsg3857 * deg_to_rad lon

/-- The function `lat_to_y_with_tan`. -/
noncomputable def lat_to_y_with_tan (lat : ℝ) : ℝ :=
  earth_radius_for_epsg3857 * Real.log (Real.tan (PI / 4 + deg_to_rad lat / 2))

/-- The numerator of the rational polynomial returned by the second branch of
`lat_to_y`, nested exactly as in the source.  It is stated over any field so
that it can be evaluated over the rationals. -/
def lat_to_y_num {K : Type} [Field K] (lat : K) : K :=
  ((((((((((-3.1112583378460085319e-23  * lat +
             2.0465852743943268009e-19) * lat +
             6.4905282018672673884e-18) * lat +
            -1.9685447939983315591e-14) * lat +
            -2.2022588158115104182e-13) * lat +
             5.1617537365509453239e-10) * lat +
             2.5380136069803016519e-9)  * lat +
            -5.1448323697228488745e-6)  * lat +
            -9.4888671473357768301e-6)  * lat +
             1.7453292518154191887e-2)  * lat)

/-- The denominator of the rational polynomial returned by the second branch of
`lat_to_y`, nested exactly as in the source. -/
def lat_to_y_den {K : Type} [Field K] (lat : K) : K :=
  ((((((((((-1.9741136066814230637e-22  * lat +
            -1.258514031244679556e-20)  * lat +
             4.8141483273572351796e-17) * lat +
             8.6876090870176172185e-16) * lat +
            -2.3298743439377541768e-12) * lat +
            -1.9300094785736130185e-11) * lat +
             4.3251609106864178231e-8)  * lat +
             1.7301944508516974048e-7)  * lat +
            -3.4554675198786337842e-4)  * lat +
            -5.4367203601085991108e-4)  * lat + 1.0)

/-- The value returned by the second branch of `lat_to_y` (the fast path):
`earth_radius_for_epsg3857 * numerator / denominator`. -/
noncomputable def lat_to_y_fast (lat : ℝ) : ℝ :=
  earth_radius_for_epsg3857 * lat_to_y_num lat / lat_to_y_den lat

/-- The function `lat_to_y` of the default build
(`OSMIUM_USE_SLOW_MERCATOR_PROJECTION` not defined). -/
noncomputable def lat_to_y (lat : ℝ) : ℝ :=
  if lat < -78.0 ∨ lat > 78.0 then
    lat_to_y_with_tan lat
  else
    lat_to_y_fast lat

/-- The function `lat_to_y` of the build with
`OSMIUM_USE_SLOW_MERCATOR_PROJECTION` defined. -/
noncomputable def lat_to_y_slow (lat : ℝ) : ℝ :=
  lat_to_y_with_tan lat

/-- The function `x_to_lon`. -/
noncomputable def x_to_lon (x : ℝ) : ℝ :=
  rad_to_deg x / earth_radius_for_epsg3857

/-- The function `y_to_lat`. -/
noncomputable def y_to_lat (y : ℝ) : ℝ :=
  rad_to_deg (2 * Real.arctan (Real.exp (y / earth_radius_for_epsg3857)) - PI / 2)

end detail

/-- The constant `MERCATOR_MAX_LAT`. -/
def MERCATOR_MAX_LAT : ℝ := 85.0511288

/-- The function `lonlat_to_mercator` (default build). -/
noncomputable def lonlat_to_mercator (c : Coordinates) : Coordinates :=
  { x := detail.lon_to_x c.x, y := detail.lat_to_y c.y }

/-- The function `mercator_to_lonlat`. -/
noncomputable def mercator_to_lonlat (c : Coordinates) : Coordinates :=
  { x := detail.x_to_lon c.x, y := detail.y_to_lat c.y }

end geom

namespace tags

/-- Modelled from the spec: `osmium::Tag` is declared in `osmium/osm/tag.hpp`,
which is not among the sources; a tag has a key and a value, both C strings. -/
structure Tag where
  key : String
  value : String

/-- The comparator `match_value<void>`: accepts every value. -/
def match_value_void (_rule_value : Bool) (_tag_value : String) : Bool := true

/-- The struct `Filter::Rule`. -/
structure Rule (TKey TValue : Type) where
  key : TKey
  value : TValue
  ignore_value : Bool
  result : Bool

/-- The class template `Filter`: its rules in the order they were added, and
its default result.  The comparator types `TKeyComp` and `TValueComp` are
stateless, so they are embedded as functions. -/
structure Filter (TKey TValue : Type) (TKeyComp : TKey → String → Bool)
    (TValueComp : TValue → String → Bool) where
  m_rules : List (Rule TKey TValue)
  m_default_result : Bool

namespace Filter

variable {TKey TValue : Type} {TKeyComp : TKey → String → Bool}
  {TValueComp : TValue → String → Bool}

/-- The constructor `Filter(bool default_result = false)`. -/
def mk_default (TKeyComp : TKey → String → Bool) (TValueComp : TValue → String → Bool)
    (default_result : Bool) : Filter TKey TValue TKeyComp TValueComp :=
  { m_rules := [], m_default_result := default_result }

/-- The member `add(result, key, value)`: `emplace_back(result, false, key, value)`. -/
def add_value (f : Filter TKey TValue TKeyComp TValueComp) (result : Bool) (key : TKey)
    (value : TValue) : Filter TKey TValue TKeyComp TValueComp :=
  { f with m_rules := f.m_rules ++
      [{ key := key, value := value, ignore_value := false, result := result }] }

/-- The member `add(result, key)`: `emplace_back(result, true, key)`, the value
of the rule being value-initialised. -/
def add [Inhabited TValue] (f : Filter TKey TValue TKeyComp TValueComp) (result : Bool)
    (key : TKey) : Filter TKey TValue TKeyComp TValueComp :=
  { f with m_rules := f.m_rules ++
      [{ key := key, value := default, ignore_value := true, result := result }] }

/-- The loop of `operator()` over the rules that are still to be scanned. -/
def scan (TKeyComp : TKey → String → Bool) (TValueComp : TValue → String → Bool)
    (default_result : Bool) : List (Rule TKey TValue) → Tag → Bool
  | [], _ => default_result
  | rule :: rest, tag =>
    if TKeyComp rule.key tag.key && (rule.ignore_value || TValueComp rule.value tag.value) then
      rule.result
    else
      scan TKeyComp TValueComp default_result rest tag

/-- The member `operator()(const osmium::Tag&)`. -/
def call (f : Filter TKey TValue TKeyComp TValueComp) (tag : Tag) : Bool :=
  scan TKeyComp TValueComp f.m_default_result f.m_rules tag

/-- The member `count()`. -/
def count (f : Filter TKey TValue TKeyComp TValueComp) : Nat := f.m_rules.length

/-- The member `empty()`. -/
def empty (f : Filter TKey TValue TKeyComp TValueComp) : Bool := f.m_rules.isEmpty

/-- The condition under which `operator()` stops at a rule. -/
def rule_matches (TKeyComp : TKey → String → Bool) (TValueComp : TValue → String → Bool)
    (rule : Rule TKey TValue) (tag : Tag) : Bool :=
  TKeyComp rule.key tag.key && (rule.ignore_value || TValueComp rule.value tag.value)

/-- A filter on string keys and values with two rules, used to exercise C9. -/
def example_filter : Filter String String (fun a b => a == b) (fun a b => a == b) :=
  (((mk_default _ _ false).add_value false "highway" "footway").add true "highway")

end Filter

end tags

end osmium

/-! ## The projection functor, the descriptor and the prefix comparator -/

namespace osmium

namespace geom

/-- Modelled from the spec: `osmium::Location` is declared in
`osmium/osm/location.hpp`, which is not among the sources; only its accessors
`lon()` and `lat()` are used here, the geodetic coordinates in degrees. -/
structure Location where
  lon : ℝ
  lat : ℝ

/-- The class `MercatorProjection`; it has no data members. -/
structure MercatorProjection where

namespace MercatorProjection

/-- The member `operator()(osmium::Location)`. -/
noncomputable def call (_self : MercatorProjection) (location : Location) : Coordinates :=
  { x := detail.lon_to_x location.lon, y := detail.lat_to_y location.lat }

/-- The member `epsg()`. -/
def epsg (_self : MercatorProjection) : Int := 3857

/-- The member `proj_string()`. -/
def proj_string (_self : MercatorProjection) : String :=
  "+proj=merc +a=6378137 +b=6378137 +lat_ts=0.0 +lon_0=0.0 +x_0=0.0 +y_0=0 +k=1.0 +units=m +nadgrids=@null +wktext +no_defs"

end MercatorProjection

/-- The numerator polynomial in the words of the specification: the sum over
`k = 1..10` of `a_k * lat^k`, with the ten numerator constants of the code and
no constant term. -/
def spec_N (lat : ℝ) : ℝ :=
  1.7453292518154191887e-2 * lat ^ 1 +
  -9.4888671473357768301e-6 * lat ^ 2 +
  -5.1448323697228488745e-6 * lat ^ 3 +
  2.5380136069803016519e-9 * lat ^ 4 +
  5.1617537365509453239e-10 * lat ^ 5 +
  -2.2022588158115104182e-13 * lat ^ 6 +
  -1.9685447939983315591e-14 * lat ^ 7 +
  6.4905282018672673884e-18 * lat ^ 8 +
  2.0465852743943268009e-19 * lat ^ 9 +
  -3.1112583378460085319e-23 * lat ^ 10

/-- The denominator polynomial in the words of the specification: `1` plus the
sum over `k = 1..10` of `b_k * lat^k`, with the ten denominator constants of the
code. -/
def spec_D (lat : ℝ) : ℝ :=
  1 +
  (-5.4367203601085991108e-4 * lat ^ 1 +
  -3.4554675198786337842e-4 * lat ^ 2 +
  1.7301944508516974048e-7 * lat ^ 3 +
  4.3251609106864178231e-8 * lat ^ 4 +
  -1.9300094785736130185e-11 * lat ^ 5 +
  -2.3298743439377541768e-12 * lat ^ 6 +
  8.6876090870176172185e-16 * lat ^ 7 +
  4.8141483273572351796e-17 * lat ^ 8 +
  -1.258514031244679556e-20 * lat ^ 9 +
  -1.9741136066814230637e-22 * lat ^ 10)

end geom

namespace tags

/-- The value `std::string::npos`, the largest value of a 64-bit `size_t`. -/
def npos : Nat := 2 ^ 64 - 1

/-- The conversion of a C string (`const char*`) to a `std::string`: the
characters before the first NUL. -/
def c_str_to_string (s : String) : List Char :=
  s.data.takeWhile (fun c => c != Char.ofNat 0)

/-- The three-way comparison that `std::string::compare` performs on two
character ranges: the first differing character decides, and when one range is
a prefix of the other the shorter one is smaller. -/
def compare_ranges : List Char → List Char → Int
  | [], [] => 0
  | [], _ :: _ => -1
  | _ :: _, [] => 1
  | a :: as, b :: bs =>
    if a < b then -1 else if b < a then 1 else compare_ranges as bs

/-- The standard library member
`std::string::compare(pos1, count1, str, pos2, count2)`: the substring
`[pos1, pos1 + count1)` of the string is compared with the substring
`[pos2, pos2 + count2)` of `str`, each clipped to the end of its string. -/
def string_compare (s : List Char) (pos1 count1 : Nat) (str : List Char)
    (pos2 count2 : Nat) : Int :=
  compare_ranges ((s.drop pos1).take count1) ((str.drop pos2).take count2)

/-- The comparator `match_key_prefix`; the tag key is converted from a C string
to the `std::string` argument of `compare`. -/
def match_key_prefix (rule_key : String) (tag_key : String) : Bool :=
  string_compare rule_key.data 0 npos (c_str_to_string tag_key) 0 rule_key.data.length == 0

/-- The alias `KeyPrefixFilter`, which is `Filter<std::string, void, match_key_prefix>`;
the value type of a filter on `void` is `bool`. -/
abbrev KeyPrefixFilter : Type := Filter String Bool match_key_prefix match_value_void

end tags

end osmium
/-! ## The forward transform in binary64 arithmetic -/

namespace osmium

namespace geom

namespace binary64

/-- Rounding of a real number to the nearest integer, ties to the even one. -/
noncomputable def round_half_even (q : ℝ) : ℤ :=
  if q - ⌊q⌋ < 1 / 2 then ⌊q⌋
  else if 1 / 2 < q - ⌊q⌋ then ⌊q⌋ + 1
  else if Even ⌊q⌋ then ⌊q⌋ else ⌊q⌋ + 1

/-- The exponent of the unit in the last place of the binary64 format at `x`:
52 below the binary exponent of `x`, and `-1074` in the subnormal range. -/
noncomputable def ulp_exponent (x : ℝ) : ℤ := max (Int.log 2 |x|) (-1022) - 52

/-- Rounding of a real number to the nearest binary64 number, ties to even, as
every arithmetic operation on `double` values does; overflow to infinity is not
modelled. -/
noncomputable def rnd (x : ℝ) : ℝ :=
  (round_half_even (x / 2 ^ ulp_exponent x) : ℝ) * 2 ^ ulp_exponent x

/-- Modelled from the spec: the constant `osmium::geom::PI` of
`osmium/geom/util.hpp`, which is not among the sources, as a `double`: the
binary64 number nearest to pi, `884279719003555 / 2^48`. -/
noncomputable def PI : ℝ := 884279719003555 / 281474976710656

/-- Modelled from the spec: `deg_to_rad` of `osmium/geom/util.hpp` in binary64
arithmetic, each operation rounded. -/
noncomputable def deg_to_rad (degree : ℝ) : ℝ := rnd (rnd (degree * PI) / 180)

/-- The function `lon_to_x` in binary64 arithmetic. -/
noncomputable def lon_to_x (lon : ℝ) : ℝ :=
  rnd (detail.earth_radius_for_epsg3857 * deg_to_rad lon)

/-- The function `lat_to_y_with_tan` in binary64 arithmetic; `std::tan` and
`std::log` are read as returning the correctly rounded value. -/
noncomputable def lat_to_y_with_tan (lat : ℝ) : ℝ :=
  rnd (detail.earth_radius_for_epsg3857 *
    rnd (Real.log (rnd (Real.tan (rnd (rnd (PI / 4) + rnd (deg_to_rad lat / 2)))))))

/-- One step `acc * lat + c` of the nested expressions of `lat_to_y` in binary64
arithmetic: the product, the literal and the sum are rounded. -/
noncomputable def horner_step (lat acc c : ℝ) : ℝ := rnd (rnd (acc * lat) + rnd c)

/-- The numerator of the second branch of `lat_to_y` in binary64 arithmetic. -/
noncomputable def lat_to_y_num (lat : ℝ) : ℝ :=
  rnd (List.foldl (horner_step lat) (rnd (-3.1112583378460085319e-23))
    [2.0465852743943268009e-19,
     6.4905282018672673884e-18,
     -1.9685447939983315591e-14,
     -2.2022588158115104182e-13,
     5.1617537365509453239e-10,
     2.5380136069803016519e-9,
     -5.1448323697228488745e-6,
     -9.4888671473357768301e-6,
     1.7453292518154191887e-2] * lat)

/-- The denominator of the second branch of `lat_to_y` in binary64 arithmetic. -/
noncomputable def lat_to_y_den (lat : ℝ) : ℝ :=
  List.foldl (horner_step lat) (rnd (-1.9741136066814230637e-22))
    [-1.258514031244679556e-20,
     4.8141483273572351796e-17,
     8.6876090870176172185e-16,
     -2.3298743439377541768e-12,
     -1.9300094785736130185e-11,
     4.3251609106864178231e-8,
     1.7301944508516974048e-7,
     -3.4554675198786337842e-4,
     -5.4367203601085991108e-4,
     1.0]

/-- The function `lat_to_y` of the default build in binary64 arithmetic. -/
noncomputable def lat_to_y (lat : ℝ) : ℝ :=
  if lat < -78.0 ∨ lat > 78.0 then
    lat_to_y_with_tan lat
  else
    rnd (rnd (detail.earth_radius_for_epsg3857 * lat_to_y_num lat) / lat_to_y_den lat)

/-- The function `lonlat_to_mercator` of the default build in binary64
arithmetic. -/
noncomputable def lonlat_to_mercator (c : Coordinates) : Coordinates :=
  { x := lon_to_x c.x, y := lat_to_y c.y }

/-- The function `lonlat_to_mercator` of the build with
`OSMIUM_USE_SLOW_MERCATOR_PROJECTION` defined, where `lat_to_y` is
`lat_to_y_with_tan`, in binary64 arithmetic. -/
noncomputable def lonlat_to_mercator_slow (c : Coordinates) : Coordinates :=
  { x := lon_to_x c.x, y := lat_to_y_with_tan c.y }

end binary64

end geom

end osmium
/-! ## Theorems -/

namespace Numeric

open Finset

theorem nonneg_of_deriv_nonneg (f f' : ℝ → ℝ) (h0 : 0 ≤ f 0)
    (hd : ∀ x, HasDerivAt f (f' x) x) (hpos : ∀ x, 0 ≤ x → 0 ≤ f' x) :
    ∀ x, 0 ≤ x → 0 ≤ f x := by
  intro x hx
  have hmono : MonotoneOn f (Set.Ici 0) := by
    apply monotoneOn_of_deriv_nonneg (convex_Ici 0)
    · exact fun y _ => (hd y).continuousAt.continuousWithinAt
    · exact fun y _ => (hd y).differentiableAt.differentiableWithinAt
    · intro y hy
      rw [interior_Ici] at hy
      rw [(hd y).deriv]
      exact hpos y (le_of_lt hy)
  exact le_trans h0 (hmono (Set.mem_Ici.mpr le_rfl) (Set.mem_Ici.mpr hx) hx)

theorem hasDerivAt_taylor_term (c : ℝ) (k : ℕ) (x : ℝ) :
    HasDerivAt (fun y : ℝ => c * y ^ (k + 1) / ((k + 1).factorial : ℝ))
      (c * x ^ k / (k.factorial : ℝ)) x := by
  have hp : HasDerivAt (fun y : ℝ => y ^ (k + 1)) ((k + 1 : ℕ) * x ^ k) x := by
    simpa using hasDerivAt_pow (k + 1) x
  have := (hp.const_mul c).div_const ((k + 1).factorial : ℝ)
  convert this using 1
  rw [Nat.factorial_succ]
  have hf : (k.factorial : ℝ) ≠ 0 := by positivity
  have hn : ((k + 1 : ℕ) : ℝ) ≠ 0 := by positivity
  push_cast
  field_simp
  ring

/-- Alternating bounds of sine and cosine by their Taylor polynomials. -/
theorem trig_taylor_sign (n : ℕ) :
    ∀ x : ℝ, 0 ≤ x →
      0 ≤ (-1) ^ (n + 1) * (Real.cos x - cosTaylor (n + 1) x) ∧
      0 ≤ (-1) ^ (n + 1) * (Real.sin x - sinTaylor (n + 1) x) := by
  have hasDerivAt_cosTaylor_succ : ∀ (n : ℕ) (x : ℝ),
      HasDerivAt (cosTaylor (n + 1)) (-sinTaylor n x) x := by
    intro n x
    induction n with
    | zero =>
      have : cosTaylor 1 = fun _ => (1 : ℝ) := by
        funext y; simp [cosTaylor]
      rw [this]
      simpa [sinTaylor] using hasDerivAt_const x (1 : ℝ)
    | succ n ih =>
      have e : 2 * (n + 1) = 2 * n + 1 + 1 := by ring
      have h1 : cosTaylor (n + 1 + 1) = fun y => cosTaylor (n + 1) y +
          (-(-1) ^ n) * y ^ (2 * n + 1 + 1) / ((2 * n + 1 + 1).factorial : ℝ) := by
        funext y; simp only [cosTaylor, sum_range_succ, e, pow_succ]; ring
      have h2 : -sinTaylor (n + 1) x = -sinTaylor n x +
          (-(-1) ^ n) * x ^ (2 * n + 1) / ((2 * n + 1).factorial : ℝ) := by
        simp only [sinTaylor, sum_range_succ]; ring
      rw [h1, h2]
      exact ih.add (hasDerivAt_taylor_term _ _ x)
  have hasDerivAt_sinTaylor : ∀ (n : ℕ) (x : ℝ),
      HasDerivAt (sinTaylor n) (cosTaylor n x) x := by
    intro n x
    induction n with
    | zero =>
      simp only [sinTaylor, cosTaylor, range_zero, sum_empty]
      exact hasDerivAt_const x 0
    | succ n ih =>
      have h1 : sinTaylor (n + 1) = fun y => sinTaylor n y +
          (-1) ^ n * y ^ (2 * n + 1) / ((2 * n + 1).factorial : ℝ) := by
        funext y; simp only [sinTaylor, sum_range_succ]
      have h2 : cosTaylor (n + 1) x = cosTaylor n x +
          (-1) ^ n * x ^ (2 * n) / ((2 * n).factorial : ℝ) := by
        simp only [cosTaylor, sum_range_succ]
      rw [h1, h2]
      exact ih.add (hasDerivAt_taylor_term _ _ x)
  have step : ∀ m : ℕ,
      (∀ x : ℝ, 0 ≤ x → 0 ≤ (-1) ^ m * (Real.cos x - cosTaylor m x)) →
      (∀ x : ℝ, 0 ≤ x → 0 ≤ (-1) ^ m * (Real.sin x - sinTaylor m x)) := by
    intro m hc
    apply nonneg_of_deriv_nonneg _ (fun x => (-1) ^ m * (Real.cos x - cosTaylor m x))
    · have : sinTaylor m 0 = 0 := by
        simp [sinTaylor]
      simp [this]
    · intro x
      exact ((Real.hasDerivAt_sin x).sub (hasDerivAt_sinTaylor m x)).const_mul _
    · exact hc
  have step2 : ∀ m : ℕ,
      (∀ x : ℝ, 0 ≤ x → 0 ≤ (-1) ^ m * (Real.sin x - sinTaylor m x)) →
      (∀ x : ℝ, 0 ≤ x → 0 ≤ (-1) ^ (m + 1) * (Real.cos x - cosTaylor (m + 1) x)) := by
    intro m hs
    apply nonneg_of_deriv_nonneg _ (fun x => (-1) ^ m * (Real.sin x - sinTaylor m x))
    · have : cosTaylor (m + 1) 0 = 1 := by
        simp [cosTaylor, sum_range_succ', Finset.sum_eq_zero]
      simp [this]
    · intro x
      have := ((Real.hasDerivAt_cos x).sub (hasDerivAt_cosTaylor_succ m x)).const_mul
        ((-1 : ℝ) ^ (m + 1))
      convert this using 1
      rw [pow_succ]; ring
    · exact hs
  have base : ∀ x : ℝ, 0 ≤ x → 0 ≤ (-1) ^ 1 * (Real.cos x - cosTaylor 1 x) := by
    intro x _
    have : cosTaylor 1 x = 1 := by simp [cosTaylor]
    rw [this]
    have := Real.cos_le_one x
    linarith
  have hcos : ∀ m : ℕ, ∀ x : ℝ, 0 ≤ x →
      0 ≤ (-1) ^ (m + 1) * (Real.cos x - cosTaylor (m + 1) x) := by
    intro m
    induction m with
    | zero => exact base
    | succ m ih => exact step2 (m + 1) (step (m + 1) ih)
  exact fun x hx => ⟨hcos n x hx, step (n + 1) (hcos n) x hx⟩

theorem cos_le_cosTaylor (m : ℕ) (x : ℝ) (hx : 0 ≤ x) :
    Real.cos x ≤ cosTaylor (2 * m + 1) x := by
  have h := (trig_taylor_sign (2 * m) x hx).1
  rw [pow_succ, Even.neg_one_pow (even_two_mul m)] at h
  linarith

theorem cosTaylor_le_cos (m : ℕ) (x : ℝ) (hx : 0 ≤ x) :
    cosTaylor (2 * m + 2) x ≤ Real.cos x := by
  have h := (trig_taylor_sign (2 * m + 1) x hx).1
  rw [pow_succ, pow_succ, Even.neg_one_pow (even_two_mul m)] at h
  linarith

end Numeric

namespace IPoly

open Finset Numeric

variable {R : Type} [CommRing R]

theorem forceInt_eq {α : Type} (x : ℤ) (k : ℤ → α) : forceInt x k = k x := by
  cases x with
  | ofNat m => cases m <;> rfl
  | negSucc m => cases m <;> rfl

theorem eval_nil (x : R) : eval [] x = 0 := rfl

theorem eval_cons (a : ℤ) (p : List ℤ) (x : R) : eval (a :: p) x = (a : R) + x * eval p x := rfl

theorem eval_add (p q : List ℤ) (x : R) : eval (add p q) x = eval p x + eval q x := by
  induction p generalizing q with
  | nil => simp [add, eval_nil]
  | cons a p ih =>
    cases q with
    | nil => simp [add, eval_nil]
    | cons b q =>
      simp only [add, eval_cons, ih, Int.cast_add]
      ring

theorem eval_smul (c : ℤ) (p : List ℤ) (x : R) : eval (smul c p) x = (c : R) * eval p x := by
  induction p with
  | nil => simp [smul, eval_nil]
  | cons a p ih =>
    have : smul c (a :: p) = (c * a) :: smul c p := rfl
    rw [this, eval_cons, eval_cons, ih, Int.cast_mul]
    ring

theorem eval_mul (p q : List ℤ) (x : R) : eval (mul p q) x = eval p x * eval q x := by
  induction p with
  | nil => simp [mul, eval_nil]
  | cons a p ih =>
    simp only [mul, eval_add, eval_smul, eval_cons, ih, Int.cast_zero]
    ring

theorem eval_shift (c : ℤ) (p : List ℤ) (x : R) : eval (shift c p) x = eval p ((c : R) + x) := by
  induction p with
  | nil => rfl
  | cons a p ih =>
    simp only [shift, eval_add, eval_smul, eval_cons, eval_nil, ih, Int.cast_zero]
    ring

theorem evalInt_eq (p : List ℤ) (x : ℤ) : evalInt p x = eval p x := by
  induction p with
  | nil => rfl
  | cons a p ih =>
    have : evalInt (a :: p) x = a + x * evalInt p x := rfl
    rw [this, ih, eval_cons, Int.cast_id]

theorem length_add (p q : List ℤ) : (add p q).length = max p.length q.length := by
  induction p generalizing q with
  | nil => simp [add]
  | cons a p ih =>
    cases q with
    | nil => simp [add]
    | cons b q => simp [add, ih, Nat.succ_max_succ]

theorem length_shift (c : ℤ) (p : List ℤ) : (shift c p).length = p.length := by
  induction p with
  | nil => rfl
  | cons a p ih =>
    simp only [shift, length_add, smul, List.length_map, List.length_cons, List.length_nil, ih]
    omega

theorem absEval_nonneg (r : ℤ) (hr : 0 ≤ r) (p : List ℤ) : 0 ≤ absEval r p := by
  induction p with
  | nil => exact le_rfl
  | cons a p ih =>
    have : 0 ≤ r * absEval r p := mul_nonneg hr ih
    simp only [absEval]
    omega

theorem absEval_add (r : ℤ) (hr : 0 ≤ r) (p q : List ℤ) :
    absEval r (add p q) ≤ absEval r p + absEval r q := by
  induction p generalizing q with
  | nil => simp [add, absEval]
  | cons a p ih =>
    cases q with
    | nil =>
      simp only [add, absEval]; omega
    | cons b q =>
      simp only [add, absEval]
      have h1 := ih q
      have h2 : ((a + b).natAbs : ℤ) ≤ a.natAbs + b.natAbs := by
        exact_mod_cast Int.natAbs_add_le a b
      nlinarith

theorem absEval_smul (r c : ℤ) (p : List ℤ) :
    absEval r (smul c p) = (c.natAbs : ℤ) * absEval r p := by
  induction p with
  | nil => simp [smul, absEval]
  | cons a p ih =>
    have : smul c (a :: p) = (c * a) :: smul c p := rfl
    rw [this]
    simp only [absEval, ih, Int.natAbs_mul, Nat.cast_mul]
    ring

theorem absEval_shift (c : ℤ) (p : List ℤ) :
    absEval 1 (shift c p) ≤ absEval (1 + (c.natAbs : ℤ)) p := by
  induction p with
  | nil => exact le_rfl
  | cons a p ih =>
    have h1 := absEval_add 1 (by norm_num) [a]
      (add (smul c (shift c p)) (0 :: shift c p))
    have h2 := absEval_add 1 (by norm_num) (smul c (shift c p)) (0 :: shift c p)
    rw [absEval_smul] at h2
    have hc : (0 : ℤ) ≤ c.natAbs := Int.natCast_nonneg _
    have h3 : absEval 1 (0 :: shift c p) = absEval 1 (shift c p) := by simp [absEval]
    have h4 : absEval 1 [a] = a.natAbs := by simp [absEval]
    simp only [shift]
    show _ ≤ (a.natAbs : ℤ) + (1 + (c.natAbs : ℤ)) * absEval (1 + (c.natAbs : ℤ)) p
    nlinarith

theorem natAbs_le_absEval_one (p : List ℤ) (a : ℤ) (ha : a ∈ p) :
    (a.natAbs : ℤ) ≤ absEval 1 p := by
  induction p with
  | nil => exact absurd ha (List.not_mem_nil _)
  | cons b p ih =>
    have hp := absEval_nonneg 1 (by norm_num) p
    simp only [absEval]
    rcases List.mem_cons.mp ha with h | h
    · subst h; omega
    · have := ih h; omega

theorem bmod_eq_self (a : ℤ) (B : ℕ) (h : 2 * (a.natAbs : ℤ) < B) : Int.bmod a B = a := by
  have hB : 0 < B := by
    have : (0 : ℤ) ≤ a.natAbs := Int.natCast_nonneg _
    omega
  have h1 := @Int.le_bmod a B hB
  have h2 := @Int.bmod_lt a B hB
  have h3 := @Int.dvd_bmod_sub_self a B
  have h4 : Int.bmod a B - a = 0 := by
    apply Int.eq_zero_of_abs_lt_dvd h3
    rw [abs_lt]
    constructor <;> omega
  omega

theorem digits_eval (B : ℕ) (n : ℕ) (s : List ℤ) (hs : ∀ a ∈ s, 2 * (a.natAbs : ℤ) < B)
    (hB : 0 < B) (hn : s.length ≤ n) :
    digits B n (evalInt s B) = s ++ List.replicate (n - s.length) 0 := by
  induction n generalizing s with
  | zero =>
    have : s = [] := List.length_eq_zero.mp (Nat.le_zero.mp hn)
    subst this; rfl
  | succ n ih =>
    have hB' : (B : ℤ) ≠ 0 := by exact_mod_cast hB.ne'
    cases s with
    | nil =>
      have h0 := ih [] (by simp) (Nat.zero_le _)
      have e0 : evalInt [] (B : ℤ) = 0 := rfl
      rw [e0] at h0 ⊢
      simp only [digits, forceInt_eq, Int.bmod_zero, sub_zero, Int.zero_ediv, h0]
      simp [List.replicate_succ]
    | cons a s =>
      have e : evalInt (a :: s) (B : ℤ) = a + B * evalInt s B := rfl
      have hd : Int.bmod (a + B * evalInt s B) B = a := by
        rw [Int.bmod_add_mul_cancel]
        exact bmod_eq_self a B (hs a (List.mem_cons_self _ _))
      have hq : (a + B * evalInt s B - a) / (B : ℤ) = evalInt s B := by
        rw [add_sub_cancel_left, Int.mul_ediv_cancel_left _ hB']
      simp only [digits, forceInt_eq, e, hd, hq]
      rw [ih s (fun b hb => hs b (List.mem_cons_of_mem _ hb)) (Nat.le_of_succ_le_succ hn)]
      simp

theorem abs_eval_le (r : ℤ) (p : List ℤ) (t : ℝ) (ht : |t| ≤ r) :
    |eval p t| ≤ (absEval r p : ℝ) := by
  induction p with
  | nil => simp [eval_nil, absEval]
  | cons a p ih =>
    have hr : (0 : ℝ) ≤ r := le_trans (abs_nonneg t) ht
    rw [eval_cons]
    simp only [absEval, Int.cast_add, Int.cast_mul, Int.cast_natCast]
    have h1 : |(a : ℝ)| = (a.natAbs : ℝ) := by
      rw [← Int.cast_abs, Int.abs_eq_natAbs, Int.cast_natCast]
    calc |(a : ℝ) + t * eval p t| ≤ |(a : ℝ)| + |t * eval p t| := abs_add _ _
      _ = (a.natAbs : ℝ) + |t| * |eval p t| := by rw [h1, abs_mul]
      _ ≤ (a.natAbs : ℝ) + r * absEval r p := by
        have := mul_le_mul ht ih (abs_nonneg _) hr
        linarith

theorem absEval_append_zeros (r : ℤ) (p : List ℤ) (k : ℕ) :
    absEval r (p ++ List.replicate k 0) = absEval r p := by
  induction p with
  | nil =>
    induction k with
    | zero => rfl
    | succ k ih =>
      simp only [List.nil_append] at ih ⊢
      simp [List.replicate_succ, absEval, ih]
  | cons a p ih => simp [absEval, ih]

theorem lower_le_eval (r : ℤ) (p : List ℤ) (k : ℕ) (t : ℝ) (ht : |t| ≤ r) :
    (lower r (p ++ List.replicate k 0) : ℝ) ≤ eval p t := by
  have hr : (0 : ℝ) ≤ r := le_trans (abs_nonneg t) ht
  cases p with
  | nil =>
    cases k with
    | zero => simp [lower, eval_nil]
    | succ k =>
      have := absEval_append_zeros r [] k
      simp only [List.nil_append] at this
      have h0 : absEval r ([] : List ℤ) = 0 := rfl
      simp only [List.nil_append, List.replicate_succ, lower, this, h0, eval_nil]
      simp
  | cons a p =>
    have h := abs_eval_le r p t ht
    simp only [List.cons_append, lower, absEval_append_zeros, eval_cons, Int.cast_sub,
      Int.cast_mul]
    have h2 : |t * eval p t| ≤ r * absEval r p := by
      rw [abs_mul]
      exact mul_le_mul ht h (abs_nonneg _) hr
    have := neg_abs_le (t * eval p t)
    linarith

/-- The lower bound read off the balanced digits of `p (B + c)` holds for `p`
on `[c - r, c + r]`, when `B` exceeds twice the shifted coefficients. -/
theorem lower_digits_le (p : List ℤ) (c r : ℤ) (B n : ℕ) (hn : p.length ≤ n)
    (hB : 2 * absEval (1 + (c.natAbs : ℤ)) p < B) (t : ℝ) (ht : |t| ≤ r) :
    (lower r (digits B n (evalInt p (B + c))) : ℝ) ≤ eval p ((c : ℝ) + t) := by
  have hpos : 0 < B := by
    have := absEval_nonneg (1 + (c.natAbs : ℤ)) (by omega) p
    omega
  have hs : ∀ a ∈ shift c p, 2 * (a.natAbs : ℤ) < B := by
    intro a ha
    have h1 := natAbs_le_absEval_one _ a ha
    have h2 := absEval_shift c p
    omega
  have hX : evalInt p (B + c) = evalInt (shift c p) B := by
    rw [evalInt_eq, evalInt_eq, eval_shift, add_comm]
    simp
  rw [hX, digits_eval B n (shift c p) hs hpos (by rw [length_shift]; exact hn),
    ← eval_shift]
  exact lower_le_eval r _ _ t ht

/-- Every point of `[lo, hi]` lies in an interval of the list that passes `ok`. -/
theorem checkCover_sound (ok : ℤ → ℤ → Bool) (l : List (ℤ × ℤ)) (lo hi : ℤ)
    (h : checkCover ok lo hi l = true) (hl : l ≠ []) (u : ℝ) (hlo : (lo : ℝ) ≤ u)
    (hhi : u ≤ hi) : ∃ c r : ℤ, ok c r = true ∧ |u - c| ≤ (r : ℝ) := by
  have aux : ∀ (l : List (ℤ × ℤ)) (lo : ℤ), checkCover ok lo hi l = true →
      (lo : ℝ) ≤ u → ((lo : ℝ) < u ∨ l ≠ []) → ∃ c r : ℤ, ok c r = true ∧ |u - c| ≤ (r : ℝ) := by
    intro l
    induction l with
    | nil =>
      intro lo h hlo hne
      simp only [checkCover, decide_eq_true_eq] at h
      have h1 : (hi : ℝ) ≤ lo := by exact_mod_cast h
      rcases hne with hne | hne
      · linarith
      · exact absurd rfl hne
    | cons cr rest ih =>
      intro lo h hlo _
      obtain ⟨c, r⟩ := cr
      simp only [checkCover, Bool.and_eq_true, decide_eq_true_eq] at h
      obtain ⟨⟨h1, h2⟩, h3⟩ := h
      by_cases hu : u ≤ (c : ℝ) + r
      · have h1' : (c : ℝ) - r ≤ lo := by exact_mod_cast h1
        exact ⟨c, r, h2, by rw [abs_le]; constructor <;> linarith⟩
      · have hu' : ((c + r : ℤ) : ℝ) < u := by push_cast; linarith
        exact ih (c + r) h3 hu'.le (Or.inl hu')
  exact aux l lo h hlo (Or.inr hl)

theorem absEval_mono (r r' : ℤ) (hr : 0 ≤ r) (h : r ≤ r') (p : List ℤ) :
    absEval r p ≤ absEval r' p := by
  induction p with
  | nil => exact le_rfl
  | cons a p ih =>
    simp only [absEval]
    have h0 := absEval_nonneg r hr p
    have := mul_le_mul h ih h0 (le_trans hr h)
    omega

/-- A polynomial that passes `checkPos` is positive on `[lo, hi]`. -/
theorem checkPos_sound (p : List ℤ) (X : ℤ → ℤ) (hX : ∀ x, evalInt p x = X x) (B n Cmax : ℕ)
    (hn : p.length ≤ n) (hB : 2 * absEval (1 + (Cmax : ℤ)) p < B) (l : List (ℤ × ℤ))
    (lo hi : ℤ) (h : checkPos X B n Cmax lo hi l = true) (hl : l ≠ []) (u : ℝ)
    (hlo : (lo : ℝ) ≤ u) (hhi : u ≤ hi) : 0 < eval p u := by
  obtain ⟨c, r, hok, ht⟩ := checkCover_sound _ l lo hi h hl u hlo hhi
  simp only [Bool.and_eq_true, decide_eq_true_eq] at hok
  obtain ⟨h2, h3⟩ := hok
  have hB' : 2 * absEval (1 + (c.natAbs : ℤ)) p < B := by
    have hc : (c.natAbs : ℤ) ≤ Cmax := by exact_mod_cast h2
    have := absEval_mono (1 + (c.natAbs : ℤ)) (1 + (Cmax : ℤ)) (by omega) (by omega) p
    omega
  have := lower_digits_le p c r B n hn hB' (u - c) ht
  rw [hX] at this
  have h3' : (0 : ℝ) < (lower r (digits B n (X (B + c))) : ℤ) := by exact_mod_cast h3
  have e : (c : ℝ) + (u - c) = u := by ring
  rw [e] at this
  exact lt_of_lt_of_le h3' this

theorem denL_check : checkPos (evalInt denL) (2 ^ 200) 11 78 (-78) 78
    [(-70, 8), (-54, 8), (-38, 8), (-22, 8), (-6, 8), (10, 8), (26, 8), (42, 8), (58, 8),
     (70, 4), (76, 2)] = true := by
  decide!

theorem denL_pos (u : ℝ) (h1 : -78 ≤ u) (h2 : u ≤ 78) : 0 < eval denL u := by
  refine checkPos_sound denL (evalInt denL) (fun _ => rfl) (2 ^ 200) 11 78 (by decide) ?_ _
    (-78) 78 denL_check (by simp) u (by exact_mod_cast h1) (by exact_mod_cast h2)
  decide!

theorem hasDerivAt_eval (p : List ℤ) (x : ℝ) :
    HasDerivAt (fun y : ℝ => eval p y) (eval (pderiv p) x) x := by
  induction p with
  | nil => simpa [eval_nil, pderiv] using hasDerivAt_const x (0 : ℝ)
  | cons a p ih =>
    have h := ((hasDerivAt_id x).mul ih).const_add (a : ℝ)
    simp only [id, one_mul] at h
    have e : eval (pderiv (a :: p)) x = eval p x + x * eval (pderiv p) x := by
      simp only [pderiv, eval_add, eval_cons, Int.cast_zero, zero_add]
    rw [e]
    exact h

theorem slopeVal_eq (x : ℤ) : evalInt slopeL x = slopeVal x := by
  simp only [slopeL, slopeVal, evalInt_eq, eval_add, eval_mul, eval_smul]
  push_cast
  ring

theorem slopeL_check : checkPos slopeVal (2 ^ 500) 21 78 (-78) 78
    [(-74, 4), (-66, 4), (-54, 8), (-38, 8), (-22, 8), (-6, 8), (10, 8), (26, 8), (42, 8),
     (58, 8), (70, 4), (76, 2)] = true := by
  decide!

theorem slopeL_pos (u : ℝ) (h1 : -78 ≤ u) (h2 : u ≤ 78) : 0 < eval slopeL u := by
  refine checkPos_sound slopeL slopeVal slopeVal_eq (2 ^ 500) 21 78 (by decide) ?_ _
    (-78) 78 slopeL_check (by simp) u (by exact_mod_cast h1) (by exact_mod_cast h2)
  decide!

theorem eval_monomial {R : Type} [CommRing R] (m : ℕ) (c : ℤ) (x : R) :
    eval (monomial m c) x = (c : R) * x ^ m := by
  induction m with
  | zero => simp [monomial, eval_cons, eval_nil]
  | succ m ih =>
    have : monomial (m + 1) c = 0 :: monomial m c := by
      simp [monomial, List.replicate_succ]
    rw [this, eval_cons, ih]
    simp only [Int.cast_zero, zero_add]
    ring

theorem evalInt_cosL (K Δ : ℤ) (n : ℕ) (x : ℤ) : evalInt (cosL K Δ n) x = cosV (K * x) Δ n := by
  induction n with
  | zero => simp [cosL, cosV, evalInt]
  | succ n ih =>
    rw [evalInt_eq] at ih ⊢
    simp only [cosL, cosV, eval_add, eval_smul, eval_monomial, ih]
    push_cast
    ring

theorem cosTaylor_succ (n : ℕ) (x : ℝ) :
    cosTaylor (n + 1) x = cosTaylor n x + (-1) ^ n * x ^ (2 * n) / ((2 * n).factorial : ℝ) := by
  simp only [cosTaylor, sum_range_succ]

theorem cast_cosV (X Δ : ℤ) (hΔ : Δ ≠ 0) (n : ℕ) :
    ((cosV X Δ n : ℤ) : ℝ) =
      ((2 * n).factorial : ℝ) * (Δ : ℝ) ^ (2 * n) * cosTaylor (n + 1) ((X : ℝ) / Δ) := by
  have hΔ' : (Δ : ℝ) ≠ 0 := by exact_mod_cast hΔ
  induction n with
  | zero => simp [cosV, cosTaylor]
  | succ n ih =>
    rw [cosTaylor_succ (n + 1)]
    simp only [cosV]
    push_cast
    rw [ih]
    have e : 2 * (n + 1) = 2 * n + 1 + 1 := by ring
    rw [e, Nat.factorial_succ, Nat.factorial_succ]
    have hf : ((2 * n).factorial : ℝ) ≠ 0 := by positivity
    push_cast
    field_simp
    ring

theorem eval_cosL (K Δ : ℤ) (hΔ : Δ ≠ 0) (n : ℕ) (u : ℝ) :
    eval (cosL K Δ n) u =
      ((2 * n).factorial : ℝ) * (Δ : ℝ) ^ (2 * n) * cosTaylor (n + 1) ((K : ℝ) * u / Δ) := by
  have hΔ' : (Δ : ℝ) ≠ 0 := by exact_mod_cast hΔ
  induction n with
  | zero => simp [cosL, cosTaylor, eval_cons, eval_nil]
  | succ n ih =>
    rw [cosTaylor_succ (n + 1)]
    simp only [cosL, eval_add, eval_smul, eval_monomial, ih]
    have e : 2 * (n + 1) = 2 * n + 1 + 1 := by ring
    rw [e, Nat.factorial_succ, Nat.factorial_succ]
    have hf : ((2 * n).factorial : ℝ) ≠ 0 := by positivity
    push_cast
    field_simp
    ring

theorem upperVal_eq (e x : ℤ) : evalInt (upperL e) x = upperVal e x := by
  have h1 := evalInt_cosL piLo degDen 8 x
  have h2 := slopeVal_eq x
  rw [evalInt_eq] at h1 h2
  simp only [upperL, upperVal, forceInt_eq, evalInt_eq, eval_add, eval_mul, eval_smul, h1, ← h2]
  push_cast
  ring

theorem lowerVal_eq (e x : ℤ) : evalInt (lowerL e) x = lowerVal e x := by
  have h1 := evalInt_cosL piHi degDen 7 x
  have h2 := slopeVal_eq x
  rw [evalInt_eq] at h1 h2
  simp only [lowerL, lowerVal, forceInt_eq, evalInt_eq, eval_add, eval_mul, eval_smul, h1, ← h2]
  push_cast
  ring

theorem cosTaylor_abs (n : ℕ) (x : ℝ) : cosTaylor n |x| = cosTaylor n x := by
  simp only [cosTaylor]
  refine sum_congr rfl fun j _ => ?_
  rw [pow_mul, pow_mul, sq_abs]

theorem cast_sinV (X Δ : ℤ) (hΔ : Δ ≠ 0) (n : ℕ) :
    ((sinV X Δ n : ℤ) : ℝ) =
      ((2 * n + 1).factorial : ℝ) * (Δ : ℝ) ^ (2 * n + 1) * sinTaylor (n + 1) ((X : ℝ) / Δ) := by
  have hΔ' : (Δ : ℝ) ≠ 0 := by exact_mod_cast hΔ
  have hs : ∀ k : ℕ, ∀ x : ℝ, sinTaylor (k + 1) x =
      sinTaylor k x + (-1) ^ k * x ^ (2 * k + 1) / ((2 * k + 1).factorial : ℝ) := by
    intro k x; simp only [sinTaylor, sum_range_succ]
  induction n with
  | zero =>
    simp only [sinV, sinTaylor, sum_range_succ, sum_range_zero]
    field_simp
  | succ n ih =>
    rw [hs (n + 1)]
    simp only [sinV]
    push_cast
    rw [ih]
    have e : 2 * (n + 1) + 1 = 2 * n + 1 + 1 + 1 := by ring
    rw [e, Nat.factorial_succ (2 * n + 1 + 1), Nat.factorial_succ (2 * n + 1)]
    have hf : ((2 * n + 1).factorial : ℝ) ≠ 0 := by positivity
    push_cast
    field_simp
    ring

theorem cast_expV (X Δ : ℤ) (hΔ : Δ ≠ 0) (n : ℕ) :
    ((expV X Δ n : ℤ) : ℝ) =
      (n.factorial : ℝ) * (Δ : ℝ) ^ n * ∑ i in range (n + 1), ((X : ℝ) / Δ) ^ i / (i.factorial : ℝ) := by
  have hΔ' : (Δ : ℝ) ≠ 0 := by exact_mod_cast hΔ
  induction n with
  | zero => simp [expV]
  | succ n ih =>
    rw [sum_range_succ _ (n + 1)]
    simp only [expV]
    push_cast
    rw [ih, Nat.factorial_succ]
    have hf : (n.factorial : ℝ) ≠ 0 := by positivity
    push_cast
    field_simp
    ring

theorem cast_homV (S x : ℤ) (hS : S ≠ 0) (p : List ℤ) :
    ((homV S x p : ℤ) : ℝ) = (S : ℝ) ^ p.length * eval p ((x : ℝ) / S) := by
  have hS' : (S : ℝ) ≠ 0 := by exact_mod_cast hS
  induction p with
  | nil => simp [homV, eval_nil]
  | cons a p ih =>
    simp only [homV, eval_cons, List.length_cons]
    push_cast
    rw [ih]
    field_simp
    ring

theorem expNegTaylor_eq (n : ℕ) (x : ℝ) :
    expNegTaylor n x = ∑ i in range n, (-x) ^ i / (i.factorial : ℝ) := by
  simp only [expNegTaylor]
  refine sum_congr rfl fun j _ => ?_
  rw [neg_pow x]

/-- The integer inequality behind an upper bound of the exact formula. -/
theorem taylor_upper_of_int (X Δ Q Qd : ℤ) (hΔ : 0 < Δ) (hQd : 0 < Qd) (nc ns ne : ℕ)
    (h : cosV X Δ nc * ((2 * ns + 1).factorial * Δ ^ (2 * ns + 1)) * (ne.factorial * Qd ^ ne)
      < expV Q Qd ne * sinV X Δ ns * ((2 * nc).factorial * Δ ^ (2 * nc))) :
    cosTaylor (nc + 1) ((X : ℝ) / Δ) <
      (∑ i in range (ne + 1), ((Q : ℝ) / Qd) ^ i / (i.factorial : ℝ)) *
        sinTaylor (ns + 1) ((X : ℝ) / Δ) := by
  have hΔ' : (0 : ℝ) < Δ := by exact_mod_cast hΔ
  have hQd' : (0 : ℝ) < Qd := by exact_mod_cast hQd
  have h' : ((cosV X Δ nc * ((2 * ns + 1).factorial * Δ ^ (2 * ns + 1)) *
      (ne.factorial * Qd ^ ne) : ℤ) : ℝ) <
      ((expV Q Qd ne * sinV X Δ ns * ((2 * nc).factorial * Δ ^ (2 * nc)) : ℤ) : ℝ) :=
    Int.cast_lt.mpr h
  push_cast at h'
  rw [cast_cosV X Δ hΔ.ne' nc, cast_sinV X Δ hΔ.ne' ns, cast_expV Q Qd hQd.ne' ne] at h'
  have hpos : (0 : ℝ) < ((2 * nc).factorial : ℝ) * (Δ : ℝ) ^ (2 * nc) *
      (((2 * ns + 1).factorial : ℝ) * (Δ : ℝ) ^ (2 * ns + 1)) *
      ((ne.factorial : ℝ) * (Qd : ℝ) ^ ne) := by positivity
  rw [← mul_lt_mul_left hpos]
  linarith

/-- The integer inequality behind a lower bound of the exact formula. -/
theorem taylor_lower_of_int (X Δ Q Qd : ℤ) (hΔ : 0 < Δ) (hQd : 0 < Qd) (nc ns ne : ℕ)
    (h : sinV X Δ ns * ((2 * nc).factorial * Δ ^ (2 * nc)) * (ne.factorial * Qd ^ ne)
      < cosV X Δ nc * expV (-Q) Qd ne * ((2 * ns + 1).factorial * Δ ^ (2 * ns + 1))) :
    sinTaylor (ns + 1) ((X : ℝ) / Δ) <
      cosTaylor (nc + 1) ((X : ℝ) / Δ) * expNegTaylor (ne + 1) ((Q : ℝ) / Qd) := by
  have hΔ' : (0 : ℝ) < Δ := by exact_mod_cast hΔ
  have hQd' : (0 : ℝ) < Qd := by exact_mod_cast hQd
  have h' : ((sinV X Δ ns * ((2 * nc).factorial * Δ ^ (2 * nc)) * (ne.factorial * Qd ^ ne) : ℤ)
      : ℝ) < ((cosV X Δ nc * expV (-Q) Qd ne * ((2 * ns + 1).factorial * Δ ^ (2 * ns + 1)) : ℤ)
      : ℝ) := Int.cast_lt.mpr h
  push_cast at h'
  rw [cast_cosV X Δ hΔ.ne' nc, cast_sinV X Δ hΔ.ne' ns, cast_expV (-Q) Qd hQd.ne' ne] at h'
  rw [expNegTaylor_eq]
  have e : ((-Q : ℤ) : ℝ) / Qd = -((Q : ℝ) / Qd) := by push_cast; ring
  rw [e] at h'
  have hpos : (0 : ℝ) < ((2 * nc).factorial : ℝ) * (Δ : ℝ) ^ (2 * nc) *
      (((2 * ns + 1).factorial : ℝ) * (Δ : ℝ) ^ (2 * ns + 1)) *
      ((ne.factorial : ℝ) * (Qd : ℝ) ^ ne) := by positivity
  rw [← mul_lt_mul_left hpos]
  linarith

end IPoly

namespace osmium

namespace geom

open detail Finset Numeric

theorem PI_ne_zero : PI ≠ 0 := Real.pi_ne_zero

theorem earth_radius_pos : 0 < earth_radius_for_epsg3857 := by
  unfold earth_radius_for_epsg3857
  norm_num

theorem earth_radius_ne_zero : earth_radius_for_epsg3857 ≠ 0 :=
  ne_of_gt earth_radius_pos

/-- The guard of `lat_to_y` sends every latitude outside `[-78, 78]` to the
exact formula. -/
theorem lat_to_y_of_outside (lat : ℝ) (h : lat < -78 ∨ lat > 78) :
    lat_to_y lat = lat_to_y_with_tan lat := by
  have h' : lat < -78.0 ∨ lat > 78.0 := by
    rcases h with h | h
    · left; norm_num; exact h
    · right; norm_num; exact h
  unfold lat_to_y
  rw [if_pos h']

/-- The guard of `lat_to_y` sends every latitude of `[-78, 78]` to the rational
polynomial. -/
theorem lat_to_y_of_inside (lat : ℝ) (h1 : -78 ≤ lat) (h2 : lat ≤ 78) :
    lat_to_y lat = lat_to_y_fast lat := by
  have h' : ¬ (lat < -78.0 ∨ lat > 78.0) := by
    rintro (h | h)
    · norm_num at h; linarith
    · norm_num at h; linarith
  unfold lat_to_y
  rw [if_neg h']

/-- For latitudes strictly between -90 and 90 the exact formula is the logarithm
of the cotangent of the co-angle `pi * (90 - lat) / 360`. -/
theorem lat_to_y_with_tan_eq_log_cot (lat : ℝ) :
    lat_to_y_with_tan lat = earth_radius_for_epsg3857 *
      Real.log (Real.cos (Real.pi * (90 - lat) / 360) / Real.sin (Real.pi * (90 - lat) / 360)) := by
  have e : PI / 4 + deg_to_rad lat / 2 = Real.pi / 2 - Real.pi * (90 - lat) / 360 := by
    unfold deg_to_rad PI; ring
  unfold lat_to_y_with_tan
  rw [e, Real.tan_pi_div_two_sub, Real.tan_eq_sin_div_cos, inv_div]

/-- Upper bound of the exact formula from rational data. -/
theorem lat_to_y_with_tan_lt (lat q x : ℝ) (m n k : ℕ) (hlat : 0 ≤ lat)
    (hx0 : 0 ≤ x) (hx : x ≤ Real.pi * (90 - lat) / 360) (hq : 0 ≤ q)
    (hs : 0 < sinTaylor (2 * n + 2) x)
    (h : cosTaylor (2 * m + 1) x < (∑ i in range k, q ^ i / (i.factorial : ℝ)) * sinTaylor (2 * n + 2) x) :
    lat_to_y_with_tan lat < earth_radius_for_epsg3857 * q := by
  have sinTaylor_le_sin : ∀ (m : ℕ) (x : ℝ) (hx : 0 ≤ x),
      sinTaylor (2 * m + 2) x ≤ Real.sin x := by
    intro m x hx
    have h := (trig_taylor_sign (2 * m + 1) x hx).2
    rw [pow_succ, pow_succ, Even.neg_one_pow (even_two_mul m)] at h
    linarith
  have hpi := Real.pi_pos
  set y := Real.pi * (90 - lat) / 360 with hy
  have hy2 : y ≤ Real.pi / 2 := by rw [hy]; nlinarith
  have hsin : sinTaylor (2 * n + 2) x ≤ Real.sin y :=
    le_trans (sinTaylor_le_sin n x hx0)
      (Real.sin_le_sin_of_le_of_le_pi_div_two (by linarith) hy2 hx)
  have hcos : Real.cos y ≤ cosTaylor (2 * m + 1) x :=
    le_trans (Real.cos_le_cos_of_nonneg_of_le_pi hx0 (by linarith) hx) (cos_le_cosTaylor m x hx0)
  have hexp : (∑ i in range k, q ^ i / (i.factorial : ℝ)) ≤ Real.exp q :=
    Real.sum_le_exp_of_nonneg hq k
  have hsy : 0 < Real.sin y := lt_of_lt_of_le hs hsin
  have hlt : Real.cos y < Real.exp q * Real.sin y := by
    calc Real.cos y ≤ cosTaylor (2 * m + 1) x := hcos
      _ < (∑ i in range k, q ^ i / (i.factorial : ℝ)) * sinTaylor (2 * n + 2) x := h
      _ ≤ Real.exp q * sinTaylor (2 * n + 2) x := mul_le_mul_of_nonneg_right hexp hs.le
      _ ≤ Real.exp q * Real.sin y := mul_le_mul_of_nonneg_left hsin (Real.exp_pos q).le
  rw [lat_to_y_with_tan_eq_log_cot]
  apply mul_lt_mul_of_pos_left _ earth_radius_pos
  have hdiv : Real.cos y / Real.sin y < Real.exp q := by
    rw [div_lt_iff₀ hsy]; exact hlt
  have hc : 0 < Real.cos y :=
    Real.cos_pos_of_mem_Ioo ⟨by linarith, by rw [hy]; nlinarith⟩
  exact (Real.log_lt_iff_lt_exp (div_pos hc hsy)).mpr hdiv

/-- Lower bound of the exact formula from rational data. -/
theorem lt_lat_to_y_with_tan (lat q x : ℝ) (m n k : ℕ) (hlat' : lat < 90)
    (hx : Real.pi * (90 - lat) / 360 ≤ x) (hx2 : x ≤ 3 / 2) (hq : 0 ≤ q)
    (he : 0 ≤ expNegTaylor (2 * k) q)
    (h : sinTaylor (2 * n + 1) x < cosTaylor (2 * m + 2) x * expNegTaylor (2 * k) q) :
    earth_radius_for_epsg3857 * q < lat_to_y_with_tan lat := by
  have expNegTaylor_le_exp : ∀ (k : ℕ) (x : ℝ) (hx : 0 ≤ x),
      expNegTaylor (2 * k) x ≤ Real.exp (-x) := by
    intro k x hx
    -- Alternating bounds of `exp (-x)` by its Taylor polynomials.
    have expNeg_taylor_sign : ∀ (n : ℕ),
        ∀ x : ℝ, 0 ≤ x → 0 ≤ (-1) ^ n * (Real.exp (-x) - expNegTaylor n x) := by
      intro n
      have hasDerivAt_expNegTaylor_succ : ∀ (n : ℕ) (x : ℝ),
          HasDerivAt (expNegTaylor (n + 1)) (-expNegTaylor n x) x := by
        intro n x
        induction n with
        | zero =>
          have : expNegTaylor 1 = fun _ => (1 : ℝ) := by
            funext y; simp [expNegTaylor]
          rw [this]
          simpa [expNegTaylor] using hasDerivAt_const x (1 : ℝ)
        | succ n ih =>
          have h1 : expNegTaylor (n + 1 + 1) = fun y => expNegTaylor (n + 1) y +
              (-(-1) ^ n) * y ^ (n + 1) / ((n + 1).factorial : ℝ) := by
            funext y; simp only [expNegTaylor, sum_range_succ, pow_succ]; ring
          have h2 : -expNegTaylor (n + 1) x = -expNegTaylor n x +
              (-(-1) ^ n) * x ^ n / (n.factorial : ℝ) := by
            simp only [expNegTaylor, sum_range_succ]; ring
          rw [h1, h2]
          exact ih.add (hasDerivAt_taylor_term _ _ x)
      induction n with
      | zero =>
        intro x _
        simp [expNegTaylor, Real.exp_nonneg]
      | succ n ih =>
        apply nonneg_of_deriv_nonneg _ (fun x => (-1) ^ n * (Real.exp (-x) - expNegTaylor n x))
        · have : expNegTaylor (n + 1) 0 = 1 := by
            simp [expNegTaylor, sum_range_succ', Finset.sum_eq_zero]
          simp [this]
        · intro x
          have hexp : HasDerivAt (fun y : ℝ => Real.exp (-y)) (-Real.exp (-x)) x := by
            simpa using (Real.hasDerivAt_exp (-x)).comp x (hasDerivAt_neg x)
          have := (hexp.sub (hasDerivAt_expNegTaylor_succ n x)).const_mul ((-1 : ℝ) ^ (n + 1))
          convert this using 1
          rw [pow_succ]; ring
        · exact ih
    have h := expNeg_taylor_sign (2 * k) x hx
    rw [Even.neg_one_pow (even_two_mul k)] at h
    linarith
  have sin_le_sinTaylor : ∀ (m : ℕ) (x : ℝ) (hx : 0 ≤ x),
      Real.sin x ≤ sinTaylor (2 * m + 1) x := by
    intro m x hx
    have h := (trig_taylor_sign (2 * m) x hx).2
    rw [pow_succ, Even.neg_one_pow (even_two_mul m)] at h
    linarith
  have hpi := Real.pi_pos
  have hpi3 := Real.pi_gt_three
  set y := Real.pi * (90 - lat) / 360 with hy
  have hy0 : 0 < y := by rw [hy]; apply div_pos _ (by norm_num); nlinarith
  have hy2 : y < Real.pi / 2 := by rw [hy]; nlinarith
  have hx0 : 0 ≤ x := by linarith
  have hsin : Real.sin y ≤ sinTaylor (2 * n + 1) x :=
    le_trans (Real.sin_le_sin_of_le_of_le_pi_div_two (by linarith) (by linarith) hx)
      (sin_le_sinTaylor n x hx0)
  have hcos : cosTaylor (2 * m + 2) x ≤ Real.cos y :=
    le_trans (cosTaylor_le_cos m x hx0)
      (Real.cos_le_cos_of_nonneg_of_le_pi hy0.le (by linarith) hx)
  have hexp : expNegTaylor (2 * k) q ≤ Real.exp (-q) := expNegTaylor_le_exp k q hq
  have hsy : 0 < Real.sin y := Real.sin_pos_of_pos_of_lt_pi hy0 (by linarith)
  have hcy : 0 < Real.cos y := Real.cos_pos_of_mem_Ioo ⟨by linarith, hy2⟩
  have hlt : Real.sin y < Real.cos y * Real.exp (-q) := by
    calc Real.sin y ≤ sinTaylor (2 * n + 1) x := hsin
      _ < cosTaylor (2 * m + 2) x * expNegTaylor (2 * k) q := h
      _ ≤ Real.cos y * expNegTaylor (2 * k) q := mul_le_mul_of_nonneg_right hcos he
      _ ≤ Real.cos y * Real.exp (-q) := mul_le_mul_of_nonneg_left hexp hcy.le
  rw [lat_to_y_with_tan_eq_log_cot]
  apply mul_lt_mul_of_pos_left _ earth_radius_pos
  rw [Real.lt_log_iff_exp_lt (div_pos hcy hsy), lt_div_iff₀ hsy]
  have : Real.exp q * (Real.cos y * Real.exp (-q)) = Real.cos y := by
    rw [mul_left_comm, ← Real.exp_add, add_neg_cancel, Real.exp_zero, mul_one]
  calc Real.exp q * Real.sin y < Real.exp q * (Real.cos y * Real.exp (-q)) :=
        mul_lt_mul_of_pos_left hlt (Real.exp_pos q)
    _ = Real.cos y := this


theorem with_tan_near_78_lt_fast_78 :
    lat_to_y_with_tan (78 + 1e-12) < lat_to_y_fast 78 := by
  have fast_78_gt :
      earth_radius_for_epsg3857 * 2.2528027044285411 ≤ lat_to_y_fast 78 := by
    unfold lat_to_y_fast lat_to_y_num lat_to_y_den earth_radius_for_epsg3857
    norm_num
  refine lt_of_lt_of_le ?_ fast_78_gt
  apply lat_to_y_with_tan_lt (78 + 1e-12) 2.2528027044285411
    (1884955592153718863443320510338077/18000000000000000000000000000000000) 2 2 20
  · norm_num
  · norm_num
  · have := Real.pi_gt_d20
    norm_num at this ⊢
    linarith
  · norm_num
  · norm_num [sinTaylor, sum_range_succ, Nat.factorial]
  · norm_num [sinTaylor, cosTaylor, sum_range_succ, Nat.factorial]


theorem with_tan_near_73_lt_fast_73 :
    lat_to_y_with_tan (73 + 1e-9) < lat_to_y_fast 73 - 0.001 := by
  have fast_73_gt :
      earth_radius_for_epsg3857 * 1.90078669015 ≤ lat_to_y_fast 73 - 0.001 := by
    unfold lat_to_y_fast lat_to_y_num lat_to_y_den earth_radius_for_epsg3857
    norm_num
  refine lt_of_lt_of_le ?_ fast_73_gt
  apply lat_to_y_with_tan_lt (73 + 1e-9) 1.90078669015
    0.148352986410791367778 2 2 17
  · norm_num
  · norm_num
  · have := Real.pi_gt_d20
    norm_num at this ⊢
    linarith
  · norm_num
  · norm_num [sinTaylor, sum_range_succ, Nat.factorial]
  · norm_num [sinTaylor, cosTaylor, sum_range_succ, Nat.factorial]

theorem fast_neg_78_ge : -lat_to_y_fast (-78) ≤ earth_radius_for_epsg3857 * 2.25280270442375 := by
  unfold lat_to_y_fast lat_to_y_num lat_to_y_den earth_radius_for_epsg3857
  norm_num

/-- The exact formula is an odd function of the latitude. -/
theorem lat_to_y_with_tan_neg (lat : ℝ) :
    lat_to_y_with_tan (-lat) = -lat_to_y_with_tan lat := by
  have e : PI / 4 + deg_to_rad (-lat) / 2 = Real.pi / 2 - (PI / 4 + deg_to_rad lat / 2) := by
    unfold deg_to_rad PI; ring
  unfold lat_to_y_with_tan
  rw [e, Real.tan_pi_div_two_sub, Real.log_inv]
  ring

/-- The exact formula is strictly increasing between the poles. -/
theorem lat_to_y_with_tan_strictMonoOn :
    StrictMonoOn lat_to_y_with_tan (Set.Ioo (-90) 90) := by
  intro a ha b hb hab
  have hpi := Real.pi_pos
  have angle : ∀ l : ℝ, l ∈ Set.Ioo (-90 : ℝ) 90 →
      0 < PI / 4 + deg_to_rad l / 2 ∧ PI / 4 + deg_to_rad l / 2 < Real.pi / 2 := by
    intro l hl
    unfold deg_to_rad PI
    constructor <;> nlinarith [hl.1, hl.2]
  obtain ⟨ha0, ha1⟩ := angle a ha
  obtain ⟨hb0, hb1⟩ := angle b hb
  have hlt : PI / 4 + deg_to_rad a / 2 < PI / 4 + deg_to_rad b / 2 := by
    unfold deg_to_rad PI; nlinarith
  have htan : Real.tan (PI / 4 + deg_to_rad a / 2) < Real.tan (PI / 4 + deg_to_rad b / 2) :=
    Real.tan_lt_tan_of_lt_of_lt_pi_div_two (by linarith) hb1 hlt
  have hpos : 0 < Real.tan (PI / 4 + deg_to_rad a / 2) :=
    Real.tan_pos_of_pos_of_lt_pi_div_two ha0 ha1
  unfold lat_to_y_with_tan
  exact mul_lt_mul_of_pos_left (Real.log_lt_log hpos htan) earth_radius_pos

theorem y_to_lat_lat_to_y_with_tan (lat : ℝ) (h1 : -90 < lat) (h2 : lat < 90) :
    y_to_lat (lat_to_y_with_tan lat) = lat := by
  have hpi : 0 < Real.pi := Real.pi_pos
  have hlo : 0 < Real.pi / 4 + lat * Real.pi / 180 / 2 := by nlinarith
  have hhi : Real.pi / 4 + lat * Real.pi / 180 / 2 < Real.pi / 2 := by nlinarith
  have htan : 0 < Real.tan (Real.pi / 4 + lat * Real.pi / 180 / 2) :=
    Real.tan_pos_of_pos_of_lt_pi_div_two hlo hhi
  unfold y_to_lat lat_to_y_with_tan rad_to_deg deg_to_rad PI
  rw [mul_div_assoc, mul_div_cancel_left₀ _ earth_radius_ne_zero, Real.exp_log htan,
    Real.arctan_tan (by linarith) hhi]
  field_simp
  ring

theorem lat_to_y_with_tan_y_to_lat (y : ℝ) :
    lat_to_y_with_tan (y_to_lat y) = y := by
  have hpi : Real.pi ≠ 0 := Real.pi_ne_zero
  unfold y_to_lat lat_to_y_with_tan rad_to_deg deg_to_rad PI
  have : Real.pi / 4 + (2 * Real.arctan (Real.exp (y / earth_radius_for_epsg3857)) - Real.pi / 2)
      * 180 / Real.pi * Real.pi / 180 / 2 = Real.arctan (Real.exp (y / earth_radius_for_epsg3857)) := by
    field_simp
    ring
  rw [this, Real.tan_arctan, Real.log_exp, mul_div_cancel₀ _ earth_radius_ne_zero]

theorem x_to_lon_lon_to_x (lon : ℝ) : x_to_lon (lon_to_x lon) = lon := by
  have hpi : PI ≠ 0 := PI_ne_zero
  unfold x_to_lon lon_to_x rad_to_deg deg_to_rad earth_radius_for_epsg3857
  field_simp
  ring

theorem lon_to_x_x_to_lon (x : ℝ) : lon_to_x (x_to_lon x) = x := by
  have hpi : PI ≠ 0 := PI_ne_zero
  unfold x_to_lon lon_to_x rad_to_deg deg_to_rad earth_radius_for_epsg3857
  field_simp
  ring

theorem with_tan_73_lt_fast_73 : lat_to_y_with_tan 73 < lat_to_y_fast 73 - 0.001 :=
  lt_trans (lat_to_y_with_tan_strictMonoOn (by norm_num) (by norm_num) (by norm_num))
    with_tan_near_73_lt_fast_73

theorem lat_to_y_with_tan_zero : lat_to_y_with_tan 0 = 0 := by
  unfold lat_to_y_with_tan deg_to_rad PI
  simp

end geom

end osmium
namespace osmium

namespace geom

open detail IPoly Finset Numeric

theorem eval_numL (lat : ℝ) : eval numL lat = 10 ^ 42 * lat_to_y_num lat := by
  unfold lat_to_y_num
  simp only [numL, eval_cons, eval_nil]
  norm_num
  ring

theorem eval_denL (lat : ℝ) : eval denL lat = 10 ^ 42 * lat_to_y_den lat := by
  unfold lat_to_y_den
  simp only [denL, eval_cons, eval_nil]
  norm_num
  ring

theorem lat_to_y_den_pos (lat : ℝ) (h1 : -78 ≤ lat) (h2 : lat ≤ 78) : 0 < lat_to_y_den lat := by
  have h := denL_pos lat h1 h2
  rw [eval_denL] at h
  have : (0 : ℝ) < 10 ^ 42 := by positivity
  exact (mul_pos_iff_of_pos_left this).1 h

theorem lat_to_y_fast_eq (lat : ℝ) :
    lat_to_y_fast lat = earth_radius_for_epsg3857 * (eval numL lat / eval denL lat) := by
  unfold lat_to_y_fast
  rw [eval_numL, eval_denL, mul_div_mul_left _ _ (by positivity), mul_div_assoc]

/-- The derivative of the rational polynomial. -/
theorem hasDerivAt_lat_to_y_fast (lat : ℝ) (h1 : -78 ≤ lat) (h2 : lat ≤ 78) :
    HasDerivAt lat_to_y_fast
      (earth_radius_for_epsg3857 * (eval slopeL lat / eval denL lat ^ 2)) lat := by
  have hD : eval denL lat ≠ 0 := (denL_pos lat h1 h2).ne'
  have h := ((hasDerivAt_eval numL lat).div (hasDerivAt_eval denL lat) hD).const_mul
    earth_radius_for_epsg3857
  have e : eval slopeL lat = eval (pderiv numL) lat * eval denL lat - eval numL lat * eval (pderiv denL) lat := by
    simp only [slopeL, eval_add, eval_mul, eval_smul]
    push_cast
    ring
  rw [e]
  refine h.congr_of_eventuallyEq (Filter.Eventually.of_forall fun y => ?_)
  exact lat_to_y_fast_eq y

/-- The rational polynomial is strictly increasing on `[-78, 78]`. -/
theorem lat_to_y_fast_strictMonoOn : StrictMonoOn lat_to_y_fast (Set.Icc (-78) 78) := by
  apply strictMonoOn_of_deriv_pos (convex_Icc _ _)
  · intro x hx
    exact (hasDerivAt_lat_to_y_fast x hx.1 hx.2).continuousAt.continuousWithinAt
  · intro x hx
    rw [interior_Icc] at hx
    rw [(hasDerivAt_lat_to_y_fast x hx.1.le hx.2.le).deriv]
    have hP := slopeL_pos x hx.1.le hx.2.le
    have hD := denL_pos x hx.1.le hx.2.le
    have := earth_radius_pos
    positivity

/-- The derivative of the exact formula. -/
theorem hasDerivAt_lat_to_y_with_tan (lat : ℝ) (h1 : -90 < lat) (h2 : lat < 90) :
    HasDerivAt lat_to_y_with_tan
      (earth_radius_for_epsg3857 * (Real.pi / 180 / Real.cos (lat * Real.pi / 180))) lat := by
  have hpi := Real.pi_pos
  obtain ⟨θ, hθ⟩ : ∃ θ : ℝ, θ = Real.pi / 4 + lat * Real.pi / 180 / 2 := ⟨_, rfl⟩
  have hθ0 : 0 < θ := by rw [hθ]; nlinarith
  have hθ1 : θ < Real.pi / 2 := by rw [hθ]; nlinarith
  have hc : 0 < Real.cos θ := Real.cos_pos_of_mem_Ioo ⟨by linarith, hθ1⟩
  have hs : 0 < Real.sin θ := Real.sin_pos_of_pos_of_lt_pi hθ0 (by linarith)
  have ht : 0 < Real.tan θ := Real.tan_pos_of_pos_of_lt_pi_div_two hθ0 hθ1
  have hin : HasDerivAt (fun l : ℝ => Real.pi / 4 + l * Real.pi / 180 / 2) (Real.pi / 360) lat := by
    have := ((((hasDerivAt_id lat).mul_const Real.pi).div_const 180).div_const 2).const_add
      (Real.pi / 4)
    convert this using 1
    ring
  have hc' : Real.cos (Real.pi / 4 + lat * Real.pi / 180 / 2) ≠ 0 := by rw [← hθ]; exact hc.ne'
  have ht' : Real.tan (Real.pi / 4 + lat * Real.pi / 180 / 2) ≠ 0 := by rw [← hθ]; exact ht.ne'
  have htan := (Real.hasDerivAt_tan hc').comp lat hin
  have hlog := (htan.log ht').const_mul earth_radius_for_epsg3857
  have hcos : Real.cos (lat * Real.pi / 180) = 2 * Real.sin θ * Real.cos θ := by
    rw [← Real.sin_two_mul, hθ]
    have : 2 * (Real.pi / 4 + lat * Real.pi / 180 / 2) = lat * Real.pi / 180 + Real.pi / 2 := by
      ring
    rw [this, Real.sin_add_pi_div_two]
  have hfun : lat_to_y_with_tan = fun l : ℝ => earth_radius_for_epsg3857 *
      Real.log ((Real.tan ∘ fun l : ℝ => Real.pi / 4 + l * Real.pi / 180 / 2) l) := by
    funext l
    unfold lat_to_y_with_tan deg_to_rad PI
    simp only [Function.comp]
  rw [hfun]
  convert hlog using 1
  simp only [Function.comp]
  rw [hcos, ← hθ, Real.tan_eq_sin_div_cos]
  field_simp
  ring

set_option maxHeartbeats 4000000 in
set_option maxRecDepth 100000 in
/-- On the whole fast path the rational polynomial is within one centimetre of
the exact formula. -/
theorem lat_to_y_fast_error (lat : ℝ) (h1 : -78 ≤ lat) (h2 : lat ≤ 78) :
    |lat_to_y_fast lat - lat_to_y_with_tan lat| < 0.01 := by
  -- Where `upperL e` and `lowerL e` are positive, the slope of the rational
  -- polynomial is within `e / errDen` of the slope of the exact formula (both
  -- divided by the earth radius).
  have slope_error_le : ∀ (e : ℤ) (he : 0 ≤ e) (lat : ℝ) (h1 : -78 ≤ lat) (h2 : lat ≤ 78)
      (hU : 0 < eval (upperL e) lat) (hL : 0 < eval (lowerL e) lat),
      |eval slopeL lat / eval denL lat ^ 2 - Real.pi / 180 / Real.cos (lat * Real.pi / 180)|
      ≤ (e : ℝ) / 10 ^ 12 := by
    intro e he lat h1 h2 hU hL
    have hpi := Real.pi_pos
    have hpl := Real.pi_gt_d20
    have hph := Real.pi_lt_d20
    have hD := denL_pos lat h1 h2
    have hP := slopeL_pos lat h1 h2
    obtain ⟨E, hE⟩ : ∃ E : ℝ, E = (e : ℝ) / 10 ^ 12 := ⟨_, rfl⟩
    have hE0 : 0 ≤ E := by
      rw [hE]; exact div_nonneg (by exact_mod_cast he) (by positivity)
    obtain ⟨D, hDdef⟩ : ∃ D : ℝ, D = eval denL lat := ⟨_, rfl⟩
    obtain ⟨P, hPdef⟩ : ∃ P : ℝ, P = eval slopeL lat := ⟨_, rfl⟩
    obtain ⟨x, hx⟩ : ∃ x : ℝ, x = |lat| := ⟨_, rfl⟩
    have hx0 : 0 ≤ x := by rw [hx]; exact abs_nonneg _
    have hx78 : x ≤ 78 := by rw [hx]; exact abs_le.mpr ⟨h1, h2⟩
    obtain ⟨kl, hkl⟩ : ∃ kl : ℝ, kl = (piLo : ℝ) / degDen := ⟨_, rfl⟩
    obtain ⟨kh, hkh⟩ : ∃ kh : ℝ, kh = (piHi : ℝ) / degDen := ⟨_, rfl⟩
    obtain ⟨k, hk⟩ : ∃ k : ℝ, k = Real.pi / 180 := ⟨_, rfl⟩
    have hkl0 : 0 ≤ kl := by rw [hkl]; norm_num [piLo, degDen]
    have hklk : kl ≤ k := by
      rw [hkl, hk]; norm_num [piLo, degDen]; norm_num at hpl; linarith
    have hkkh : k ≤ kh := by
      rw [hkh, hk]; norm_num [piHi, degDen]; norm_num at hph; linarith
    have hkh2 : kh * x ≤ 3 / 2 := by
      have : kh ≤ 0.0175 := by rw [hkh]; norm_num [piHi, degDen]
      nlinarith
    obtain ⟨c, hc⟩ : ∃ c : ℝ, c = Real.cos (lat * Real.pi / 180) := ⟨_, rfl⟩
    have hc' : c = Real.cos (k * x) := by
      rw [hc, hk, hx, ← Real.cos_abs (lat * Real.pi / 180)]
      congr 1
      rw [mul_div_assoc, abs_mul, abs_of_pos (by positivity : (0 : ℝ) < Real.pi / 180)]
      ring
    have hkx0 : 0 ≤ k * x := mul_nonneg (le_trans hkl0 hklk) hx0
    have hkx : k * x ≤ 3 / 2 := le_trans (mul_le_mul_of_nonneg_right hkkh hx0) hkh2
    have hc0 : 0 < c := by
      rw [hc']
      exact Real.cos_pos_of_mem_Ioo ⟨by linarith, by linarith⟩
    -- the Taylor polynomials enclose the cosine
    obtain ⟨cU, hcU⟩ : ∃ cU : ℝ, cU = cosTaylor 9 (kl * lat) := ⟨_, rfl⟩
    obtain ⟨cL, hcL⟩ : ∃ cL : ℝ, cL = cosTaylor 8 (kh * lat) := ⟨_, rfl⟩
    have hcU' : c ≤ cU := by
      have e1 : cU = cosTaylor 9 (kl * x) := by
        rw [hcU, hx, ← cosTaylor_abs 9 (kl * lat), abs_mul, abs_of_nonneg hkl0]
      rw [e1, hc']
      exact le_trans (Real.cos_le_cos_of_nonneg_of_le_pi (mul_nonneg hkl0 hx0) (by linarith)
        (mul_le_mul_of_nonneg_right hklk hx0)) (cos_le_cosTaylor 4 _ (mul_nonneg hkl0 hx0))
    have hcL' : cL ≤ c := by
      have hkh0 : 0 ≤ kh := le_trans (le_trans hkl0 hklk) hkkh
      have e1 : cL = cosTaylor 8 (kh * x) := by
        rw [hcL, hx, ← cosTaylor_abs 8 (kh * lat), abs_mul, abs_of_nonneg hkh0]
      rw [e1, hc']
      exact le_trans (cosTaylor_le_cos 3 _ (mul_nonneg hkh0 hx0))
        (Real.cos_le_cos_of_nonneg_of_le_pi hkx0 (by linarith)
          (mul_le_mul_of_nonneg_right hkkh hx0))
    -- the two polynomial inequalities
    have hU' : (P - E * D ^ 2) * cU < kl * D ^ 2 := by
      have e1 : eval (upperL e) lat = (Nat.factorial 16 : ℝ) * (degDen : ℝ) ^ 17 * 10 ^ 12 *
          (kl * D ^ 2 - (P - E * D ^ 2) * cU) := by
        simp only [upperL, eval_add, eval_smul, eval_mul, eval_cosL piLo degDen (by decide) 8]
        rw [hcU, hkl, hE, hDdef, hPdef]
        push_cast
        have : ((degDen : ℤ) : ℝ) ≠ 0 := by norm_num [degDen]
        simp only [errDen, Int.cast_ofNat]
        field_simp
        ring
      rw [e1] at hU
      have hpos : (0 : ℝ) < (Nat.factorial 16 : ℝ) * (degDen : ℝ) ^ 17 * 10 ^ 12 := by
        have : (0 : ℝ) < (degDen : ℝ) := by norm_num [degDen]
        positivity
      have := (mul_pos_iff_of_pos_left hpos).1 hU
      linarith
    have hL' : kh * D ^ 2 < (P + E * D ^ 2) * cL := by
      have e1 : eval (lowerL e) lat = (Nat.factorial 14 : ℝ) * (degDen : ℝ) ^ 15 * 10 ^ 12 *
          ((P + E * D ^ 2) * cL - kh * D ^ 2) := by
        simp only [lowerL, eval_add, eval_smul, eval_mul, eval_cosL piHi degDen (by decide) 7]
        rw [hcL, hkh, hE, hDdef, hPdef]
        push_cast
        have : ((degDen : ℤ) : ℝ) ≠ 0 := by norm_num [degDen]
        simp only [errDen, Int.cast_ofNat]
        field_simp
        ring
      rw [e1] at hL
      have hpos : (0 : ℝ) < (Nat.factorial 14 : ℝ) * (degDen : ℝ) ^ 15 * 10 ^ 12 := by
        have : (0 : ℝ) < (degDen : ℝ) := by norm_num [degDen]
        positivity
      have := (mul_pos_iff_of_pos_left hpos).1 hL
      linarith
    rw [← hDdef] at hD
    rw [← hPdef] at hP
    rw [← hDdef, ← hPdef, ← hc, ← hk, ← hE]
    have hD2 : 0 < D ^ 2 := by positivity
    have hkD : kl * D ^ 2 ≤ k * D ^ 2 := mul_le_mul_of_nonneg_right hklk hD2.le
    have hkD' : k * D ^ 2 ≤ kh * D ^ 2 := mul_le_mul_of_nonneg_right hkkh hD2.le
    have hk0 : 0 ≤ k := le_trans hkl0 hklk
    have hsub : P / D ^ 2 - k / c = (P * c - k * D ^ 2) / (D ^ 2 * c) := by
      field_simp
      ring
    rw [hsub, abs_le, le_div_iff₀ (by positivity), div_le_iff₀ (by positivity)]
    constructor
    · -- k D² ≤ (P + E D²) c
      have hPE : 0 ≤ P + E * D ^ 2 := by positivity
      have h3 := mul_le_mul_of_nonneg_left hcL' hPE
      linarith
    · -- (P - E D²) c ≤ k D²
      by_cases hs : P - E * D ^ 2 ≤ 0
      · have h3 : 0 ≤ -(P - E * D ^ 2) * c := mul_nonneg (neg_nonneg.mpr hs) hc0.le
        have h4 : 0 ≤ k * D ^ 2 := mul_nonneg hk0 hD2.le
        linarith
      · have h3 := mul_le_mul_of_nonneg_left hcU' (not_le.mp hs).le
        linarith
  -- The slope error bound on an interval covered by two lists of intervals that
  -- pass the checks for `upperL e` and `lowerL e`.
  have slope_error_on : ∀ (e : ℤ) (he : 0 ≤ e) (lo hi : ℤ) (hlo : -78 ≤ lo) (hhi : hi ≤ 78)
      (lU lL : List (ℤ × ℤ)) (hU : checkPos (upperVal e) (2 ^ 1300) 37 78 lo hi lU = true)
      (hL : checkPos (lowerVal e) (2 ^ 1300) 37 78 lo hi lL = true) (hne : lU ≠ [] ∧ lL ≠ [])
      (hlen : (upperL e).length ≤ 37 ∧ (lowerL e).length ≤ 37)
      (hB : 2 * absEval (1 + ((78 : ℕ) : ℤ)) (upperL e) < ((2 ^ 1300 : ℕ) : ℤ) ∧
        2 * absEval (1 + ((78 : ℕ) : ℤ)) (lowerL e) < ((2 ^ 1300 : ℕ) : ℤ))
      (lat : ℝ) (h1 : (lo : ℝ) ≤ lat) (h2 : lat ≤ hi),
      |eval slopeL lat / eval denL lat ^ 2 - Real.pi / 180 / Real.cos (lat * Real.pi / 180)|
      ≤ (e : ℝ) / 10 ^ 12 := by
    intro e he lo hi hlo hhi lU lL hU hL hne hlen hB lat h1 h2
    have hlo' : (-78 : ℝ) ≤ lo := by exact_mod_cast hlo
    have hhi' : (hi : ℝ) ≤ 78 := by exact_mod_cast hhi
    exact slope_error_le e he lat (by linarith) (by linarith)
      (checkPos_sound _ _ (upperVal_eq e) _ _ _ hlen.1 hB.1 lU lo hi hU hne.1 lat h1 h2)
      (checkPos_sound _ _ (lowerVal_eq e) _ _ _ hlen.2 hB.2 lL lo hi hL hne.2 lat h1 h2)
  have anchorCore_sound : ∀ (m dH hn qL qU : ℤ) (h : anchorCore m dH hn qL qU = true),
      |earth_radius_for_epsg3857 * ((hn : ℝ) / dH) - lat_to_y_with_tan ((m : ℝ) / 8)|
      ≤ earth_radius_for_epsg3857 * (7 / 10 ^ 10) := by
    intro m dH hn qL qU h
    simp only [anchorCore, forceInt_eq, Bool.and_eq_true, decide_eq_true_eq] at h
    obtain ⟨⟨⟨⟨⟨⟨⟨⟨⟨⟨hm0, hm⟩, hd⟩, hqL⟩, hqU⟩, hU1⟩, hL1⟩, hs⟩, hU⟩, he⟩, hL⟩ := h
    have hpl := Real.pi_gt_d20
    have hph := Real.pi_lt_d20
    have hR := earth_radius_pos
    have hm0' : (0 : ℝ) ≤ m := by exact_mod_cast hm0
    have hm' : (m : ℝ) ≤ 624 := by exact_mod_cast hm
    have hd' : (0 : ℝ) < dH := by exact_mod_cast hd
    have hqL' : (0 : ℝ) ≤ (qL : ℝ) / valDen := by
      apply div_nonneg (by exact_mod_cast hqL); norm_num [valDen]
    have hqU' : (0 : ℝ) ≤ (qU : ℝ) / valDen := by
      apply div_nonneg (by exact_mod_cast hqU); norm_num [valDen]
    have hang : (0 : ℤ) < angDen := by decide
    have hval : (0 : ℤ) < valDen := by decide
    -- upper bound of the exact formula
    have hup : lat_to_y_with_tan ((m : ℝ) / 8) < earth_radius_for_epsg3857 * ((qU : ℝ) / valDen) := by
      have hx : ((piLo * (720 - m) : ℤ) : ℝ) / angDen ≤ Real.pi * (90 - (m : ℝ) / 8) / 360 := by
        push_cast
        norm_num [piLo, angDen]
        norm_num at hpl
        nlinarith
      refine lat_to_y_with_tan_lt ((m : ℝ) / 8) ((qU : ℝ) / valDen)
        (((piLo * (720 - m) : ℤ) : ℝ) / angDen) 3 2 22 (by positivity) ?_ hx hqU' ?_ ?_
      · apply div_nonneg _ (by norm_num [angDen])
        push_cast
        norm_num [piLo]
        linarith
      · have := cast_sinV (piLo * (720 - m)) angDen hang.ne' 5
        have h5 : (0 : ℝ) < ((sinV (piLo * (720 - m)) angDen 5 : ℤ) : ℝ) := by exact_mod_cast hs
        rw [this] at h5
        have hpos : (0 : ℝ) < ((2 * 5 + 1).factorial : ℝ) * (angDen : ℝ) ^ (2 * 5 + 1) := by
          have : (0 : ℝ) < (angDen : ℝ) := by exact_mod_cast hang
          positivity
        exact (mul_pos_iff_of_pos_left hpos).1 h5
      · exact taylor_upper_of_int _ _ _ _ hang hval 6 5 21 hU
    -- lower bound of the exact formula
    have hlow : earth_radius_for_epsg3857 * ((qL : ℝ) / valDen) < lat_to_y_with_tan ((m : ℝ) / 8) := by
      have hx : Real.pi * (90 - (m : ℝ) / 8) / 360 ≤ ((piHi * (720 - m) : ℤ) : ℝ) / angDen := by
        push_cast
        norm_num [piHi, angDen]
        norm_num at hph
        nlinarith
      refine lt_lat_to_y_with_tan ((m : ℝ) / 8) ((qL : ℝ) / valDen)
        (((piHi * (720 - m) : ℤ) : ℝ) / angDen) 2 3 11 (by linarith) hx ?_ hqL' ?_ ?_
      · push_cast
        norm_num [piHi, angDen]
        linarith
      · have := cast_expV (-qL) valDen hval.ne' 21
        have h5 : (0 : ℝ) ≤ ((expV (-qL) valDen 21 : ℤ) : ℝ) := by exact_mod_cast he
        rw [this] at h5
        have hpos : (0 : ℝ) < ((21).factorial : ℝ) * (valDen : ℝ) ^ 21 := by
          have : (0 : ℝ) < (valDen : ℝ) := by exact_mod_cast hval
          positivity
        rw [expNegTaylor_eq]
        have e : ((-qL : ℤ) : ℝ) / valDen = -((qL : ℝ) / valDen) := by push_cast; ring
        rw [e] at h5
        exact (mul_nonneg_iff_of_pos_left hpos).1 h5
      · exact taylor_lower_of_int _ _ _ _ hang hval 5 6 21 hL
    -- the enclosure is within 7e-10 of hn / dH
    have hU1' : (qU : ℝ) / valDen ≤ (hn : ℝ) / dH + 7 / 10 ^ 10 := by
      have : ((qU * (dH * 10000000000) : ℤ) : ℝ) ≤ (((hn * 10000000000 + 7 * dH) * valDen : ℤ) : ℝ) :=
        Int.cast_le.mpr hU1
      push_cast at this
      have hv : (0 : ℝ) < (valDen : ℝ) := by exact_mod_cast hval
      rw [div_le_iff₀ hv, div_add' _ _ _ hd'.ne', div_mul_eq_mul_div, le_div_iff₀ hd']
      nlinarith
    have hL1' : (hn : ℝ) / dH - 7 / 10 ^ 10 ≤ (qL : ℝ) / valDen := by
      have : (((hn * 10000000000 - 7 * dH) * valDen : ℤ) : ℝ) ≤ ((qL * (dH * 10000000000) : ℤ) : ℝ) :=
        Int.cast_le.mpr hL1
      push_cast at this
      have hv : (0 : ℝ) < (valDen : ℝ) := by exact_mod_cast hval
      rw [le_div_iff₀ hv, div_sub' _ _ _ hd'.ne', div_mul_eq_mul_div, div_le_iff₀ hd']
      nlinarith
    rw [abs_le]
    constructor
    · have := mul_le_mul_of_nonneg_left hU1' hR.le
      nlinarith
    · have := mul_le_mul_of_nonneg_left hL1' hR.le
      nlinarith
  have anchorOK_sound : ∀ (c : ℤ) (h : anchorOK c = true),
      |lat_to_y_fast ((c : ℝ) / 8) - lat_to_y_with_tan ((c : ℝ) / 8)|
      ≤ earth_radius_for_epsg3857 * (7 / 10 ^ 10) := by
    intro c h
    simp only [anchorOK, forceInt_eq] at h
    have h8 : (8 : ℤ) ≠ 0 := by decide
    have hn := cast_homV 8 c h8 numL
    have hd := cast_homV 8 c h8 denL
    have hlen : numL.length = denL.length := rfl
    have hfast : lat_to_y_fast ((c : ℝ) / 8) = earth_radius_for_epsg3857 *
        ((homV 8 c numL : ℝ) / (homV 8 c denL : ℝ)) := by
      rw [lat_to_y_fast_eq, hn, hd, hlen]
      push_cast
      rw [mul_div_mul_left _ _ (by positivity)]
    by_cases hc : 0 ≤ c
    · rw [if_pos hc] at h
      have := anchorCore_sound _ _ _ _ _ h
      have e1 : ((Int.ofNat c.natAbs : ℤ) : ℝ) = c := by
        have : (Int.ofNat c.natAbs : ℤ) = c := Int.natAbs_of_nonneg hc
        rw [this]
      rw [e1] at this
      rw [hfast]
      exact this
    · rw [if_neg hc] at h
      have := anchorCore_sound _ _ _ _ _ h
      have e1 : ((Int.ofNat c.natAbs : ℤ) : ℝ) = -(c : ℝ) := by
        have : (Int.ofNat c.natAbs : ℤ) = -c := by
          have := Int.ofNat_natAbs_of_nonpos (le_of_lt (not_le.mp hc))
          simpa using this
        rw [this]; push_cast; ring
      rw [e1, neg_div, lat_to_y_with_tan_neg] at this
      rw [hfast, ← abs_neg]
      convert this using 2
      push_cast
      ring
  -- The error bound on an interval `[loR, hiR]` on which the slope error is at
  -- most `e / 10^12` and whose grid points pass `checkAnchors`.
  have error_on : ∀ (e loR hiR : ℤ) (hlo : -78 ≤ loR) (hhi : hiR ≤ 78)
      (hslope : ∀ lat : ℝ, (loR : ℝ) ≤ lat → lat ≤ hiR → |eval slopeL lat / eval denL lat ^ 2 - Real.pi / 180 / Real.cos (lat * Real.pi / 180)| ≤ (e : ℝ) / 10 ^ 12)
      (l : List (ℤ × ℤ)) (hl : l ≠ []) (h : checkAnchors e loR hiR l = true) (lat : ℝ)
      (h1 : (loR : ℝ) ≤ lat) (h2 : lat ≤ hiR),
      |lat_to_y_fast lat - lat_to_y_with_tan lat| < 0.01 := by
    intro e loR hiR hlo hhi hslope l hl h lat h1 h2
    have hlo' : (-78 : ℝ) ≤ loR := by exact_mod_cast hlo
    have hhi' : (hiR : ℝ) ≤ 78 := by exact_mod_cast hhi
    have hR := earth_radius_pos
    obtain ⟨c, r, hok, hcr⟩ := checkCover_sound _ l (8 * loR) (8 * hiR) h hl (8 * lat)
      (by push_cast; linarith) (by push_cast; linarith)
    simp only [Bool.and_eq_true, decide_eq_true_eq] at hok
    obtain ⟨⟨⟨hc1, hc2⟩, hbud⟩, hanch⟩ := hok
    have ha := anchorOK_sound c hanch
    have hc1' : (loR : ℝ) ≤ (c : ℝ) / 8 := by
      have : ((8 * loR : ℤ) : ℝ) ≤ c := Int.cast_le.mpr hc1
      push_cast at this; linarith
    have hc2' : (c : ℝ) / 8 ≤ hiR := by
      have : (c : ℝ) ≤ ((8 * hiR : ℤ) : ℝ) := Int.cast_le.mpr hc2
      push_cast at this; linarith
    -- the mean value inequality between the grid point and `lat`
    have hderiv : ∀ t ∈ Set.Icc (loR : ℝ) hiR, HasDerivWithinAt
        (fun t => lat_to_y_fast t - lat_to_y_with_tan t)
        (earth_radius_for_epsg3857 * (eval slopeL t / eval denL t ^ 2 -
          Real.pi / 180 / Real.cos (t * Real.pi / 180))) (Set.Icc (loR : ℝ) hiR) t := by
      intro t ht
      have hf := hasDerivAt_lat_to_y_fast t (by linarith [ht.1]) (by linarith [ht.2])
      have hg := hasDerivAt_lat_to_y_with_tan t (by linarith [ht.1]) (by linarith [ht.2])
      have := (hf.sub hg).hasDerivWithinAt (s := Set.Icc (loR : ℝ) hiR)
      convert this using 1
      ring
    have hbound : ∀ t ∈ Set.Icc (loR : ℝ) hiR,
        ‖earth_radius_for_epsg3857 * (eval slopeL t / eval denL t ^ 2 -
          Real.pi / 180 / Real.cos (t * Real.pi / 180))‖
          ≤ earth_radius_for_epsg3857 * ((e : ℝ) / 10 ^ 12) := by
      intro t ht
      rw [Real.norm_eq_abs, abs_mul, abs_of_pos hR]
      exact mul_le_mul_of_nonneg_left (hslope t ht.1 ht.2) hR.le
    have hmv := Convex.norm_image_sub_le_of_norm_hasDerivWithin_le hderiv hbound
      (convex_Icc _ _) ⟨hc1', hc2'⟩ ⟨h1, h2⟩
    rw [Real.norm_eq_abs, Real.norm_eq_abs] at hmv
    have hdist : |lat - (c : ℝ) / 8| ≤ (r : ℝ) / 8 := by
      rw [abs_le] at hcr ⊢
      constructor <;> linarith [hcr.1, hcr.2]
    have hr0 : (0 : ℝ) ≤ r := by
      have := abs_nonneg (8 * lat - (c : ℝ)); linarith
    have he0 : (0 : ℝ) ≤ (e : ℝ) / 10 ^ 12 := le_trans (abs_nonneg _) (hslope lat h1 h2)
    have hbud' : (6378137 : ℝ) * (5600 + r * e) < 80000000000 := by exact_mod_cast hbud
    have hstep : earth_radius_for_epsg3857 * ((e : ℝ) / 10 ^ 12) * |lat - (c : ℝ) / 8|
        ≤ earth_radius_for_epsg3857 * ((e : ℝ) / 10 ^ 12) * ((r : ℝ) / 8) :=
      mul_le_mul_of_nonneg_left hdist (mul_nonneg hR.le he0)
    have htri : |lat_to_y_fast lat - lat_to_y_with_tan lat| ≤
        |lat_to_y_fast ((c : ℝ) / 8) - lat_to_y_with_tan ((c : ℝ) / 8)| +
        |lat_to_y_fast lat - lat_to_y_with_tan lat -
          (lat_to_y_fast ((c : ℝ) / 8) - lat_to_y_with_tan ((c : ℝ) / 8))| := by
      have := abs_add (lat_to_y_fast ((c : ℝ) / 8) - lat_to_y_with_tan ((c : ℝ) / 8))
        (lat_to_y_fast lat - lat_to_y_with_tan lat -
          (lat_to_y_fast ((c : ℝ) / 8) - lat_to_y_with_tan ((c : ℝ) / 8)))
      simpa using this
    have hRv : earth_radius_for_epsg3857 = 6378137 := by
      unfold earth_radius_for_epsg3857; norm_num
    rw [hRv] at ha hstep hmv
    have : (6378137 : ℝ) * (7 / 10 ^ 10) + 6378137 * ((e : ℝ) / 10 ^ 12) * ((r : ℝ) / 8)
        < 0.01 := by
      have e1 : (6378137 : ℝ) * (7 / 10 ^ 10) + 6378137 * ((e : ℝ) / 10 ^ 12) * ((r : ℝ) / 8)
          = 6378137 * (5600 + r * e) / 8000000000000 := by ring
      rw [e1, div_lt_iff₀ (by norm_num)]
      norm_num
      linarith
    linarith
  have hA : ∀ t : ℝ, ((0 : ℤ) : ℝ) ≤ t → t ≤ ((64 : ℤ) : ℝ) →
      |lat_to_y_fast t - lat_to_y_with_tan t| < 0.01 :=
    error_on 200 (0) (64) (by decide) (by decide)
      (slope_error_on 200 (by decide) (0) (64) (by decide) (by decide)
        [(8, 8), (24, 8), (40, 8), (52, 4), (60, 4)]
        [(8, 8), (24, 8), (40, 8), (52, 4), (60, 4)]
        (by decide!) (by decide!) (by simp) (by decide!) (by decide!))
      [(32, 32), (96, 32), (160, 32), (224, 32), (288, 32), (352, 32), (416, 32), (480, 32)]
      (by simp) (by decide!)
  have hAn : ∀ t : ℝ, ((-64 : ℤ) : ℝ) ≤ t → t ≤ ((0 : ℤ) : ℝ) →
      |lat_to_y_fast t - lat_to_y_with_tan t| < 0.01 :=
    error_on 200 (-64) (0) (by decide) (by decide)
      (slope_error_on 200 (by decide) (-64) (0) (by decide) (by decide)
        [(-60, 4), (-52, 4), (-40, 8), (-24, 8), (-8, 8)]
        [(-62, 2), (-56, 4), (-48, 4), (-36, 8), (-20, 8), (-8, 4), (-2, 2)]
        (by decide!) (by decide!) (by simp) (by decide!) (by decide!))
      [(-480, 32), (-416, 32), (-352, 32), (-288, 32), (-224, 32), (-160, 32), (-96, 32), (-32, 32)]
      (by simp) (by decide!)
  have hB : ∀ t : ℝ, ((64 : ℤ) : ℝ) ≤ t → t ≤ ((74 : ℤ) : ℝ) →
      |lat_to_y_fast t - lat_to_y_with_tan t| < 0.01 :=
    error_on 1000 (64) (74) (by decide) (by decide)
      (slope_error_on 1000 (by decide) (64) (74) (by decide) (by decide)
        [(66, 2), (70, 2), (73, 1)]
        [(66, 2), (70, 2), (73, 1)]
        (by decide!) (by decide!) (by simp) (by decide!) (by decide!))
      [(516, 4), (524, 4), (532, 4), (540, 4), (548, 4), (556, 4), (564, 4), (572, 4), (580, 4), (588, 4)]
      (by simp) (by decide!)
  have hBn : ∀ t : ℝ, ((-74 : ℤ) : ℝ) ≤ t → t ≤ ((-64 : ℤ) : ℝ) →
      |lat_to_y_fast t - lat_to_y_with_tan t| < 0.01 :=
    error_on 1000 (-74) (-64) (by decide) (by decide)
      (slope_error_on 1000 (by decide) (-74) (-64) (by decide) (by decide)
        [(-72, 2), (-68, 2), (-65, 1)]
        [(-72, 2), (-68, 2), (-65, 1)]
        (by decide!) (by decide!) (by simp) (by decide!) (by decide!))
      [(-588, 4), (-580, 4), (-572, 4), (-564, 4), (-556, 4), (-548, 4), (-540, 4), (-532, 4), (-524, 4), (-516, 4)]
      (by simp) (by decide!)
  have hC : ∀ t : ℝ, ((74 : ℤ) : ℝ) ≤ t → t ≤ ((78 : ℤ) : ℝ) →
      |lat_to_y_fast t - lat_to_y_with_tan t| < 0.01 :=
    error_on 6000 (74) (78) (by decide) (by decide)
      (slope_error_on 6000 (by decide) (74) (78) (by decide) (by decide)
        [(75, 1), (77, 1)]
        [(75, 1), (77, 1)]
        (by decide!) (by decide!) (by simp) (by decide!) (by decide!))
      [(593, 1), (595, 1), (597, 1), (599, 1), (601, 1), (603, 1), (605, 1), (607, 1), (609, 1), (611, 1), (613, 1), (615, 1), (617, 1), (619, 1), (621, 1), (623, 1)]
      (by simp) (by decide!)
  have hCn : ∀ t : ℝ, ((-78 : ℤ) : ℝ) ≤ t → t ≤ ((-74 : ℤ) : ℝ) →
      |lat_to_y_fast t - lat_to_y_with_tan t| < 0.01 :=
    error_on 6000 (-78) (-74) (by decide) (by decide)
      (slope_error_on 6000 (by decide) (-78) (-74) (by decide) (by decide)
        [(-77, 1), (-75, 1)]
        [(-77, 1), (-75, 1)]
        (by decide!) (by decide!) (by simp) (by decide!) (by decide!))
      [(-623, 1), (-621, 1), (-619, 1), (-617, 1), (-615, 1), (-613, 1), (-611, 1), (-609, 1), (-607, 1), (-605, 1), (-603, 1), (-601, 1), (-599, 1), (-597, 1), (-595, 1), (-593, 1)]
      (by simp) (by decide!)
  push_cast at hA hAn hB hBn hC hCn
  rcases le_total lat 0 with h0 | h0
  · rcases le_total lat (-64) with h3 | h3
    · rcases le_total lat (-74) with h4 | h4
      · exact hCn lat h1 h4
      · exact hBn lat h4 h3
    · exact hAn lat h3 h0
  · rcases le_total lat 64 with h3 | h3
    · exact hA lat h0 h3
    · rcases le_total lat 74 with h4 | h4
      · exact hB lat h3 h4
      · exact hC lat h4 h2

/-- The default `lat_to_y` is within one centimetre of the exact formula. -/
theorem lat_to_y_error (lat : ℝ) : |lat_to_y lat - lat_to_y_with_tan lat| < 0.01 := by
  by_cases h : lat < -78 ∨ lat > 78
  · rw [lat_to_y_of_outside lat h]; norm_num
  · push_neg at h
    rw [lat_to_y_of_inside lat h.1 h.2]
    exact lat_to_y_fast_error lat h.1 h.2

theorem with_tan_neg_78_lt_fast_neg_78 : lat_to_y_with_tan (-78) < lat_to_y_fast (-78) := by
  have neg_fast_neg_78_lt_with_tan_78 :
      -lat_to_y_fast (-78) < lat_to_y_with_tan 78 := by
    refine lt_of_le_of_lt fast_neg_78_ge ?_
    apply lt_lat_to_y_with_tan 78 2.25280270442375
      0.1047197551196597746157 2 2 11
    · norm_num
    · have := Real.pi_lt_d20
      norm_num at this ⊢
      linarith
    · norm_num
    · norm_num
    · norm_num [expNegTaylor, sum_range_succ, Nat.factorial]
    · norm_num [sinTaylor, cosTaylor, expNegTaylor, sum_range_succ, Nat.factorial]
  have := neg_fast_neg_78_lt_with_tan_78
  rw [lat_to_y_with_tan_neg]
  linarith

/-- `lat_to_y` is strictly increasing on `(-90, 78]` and on `(78, 90)`. -/
theorem lat_to_y_lt (lat1 lat2 : ℝ) (h1 : -90 < lat1) (h2 : lat2 < 90) (h12 : lat1 < lat2)
    (h : lat2 ≤ 78 ∨ 78 < lat1) : lat_to_y lat1 < lat_to_y lat2 := by
  rcases h with h | h
  · by_cases ha : lat1 < -78
    · rw [lat_to_y_of_outside lat1 (Or.inl ha)]
      by_cases hb : lat2 < -78
      · rw [lat_to_y_of_outside lat2 (Or.inl hb)]
        exact lat_to_y_with_tan_strictMonoOn ⟨h1, by linarith⟩ ⟨by linarith, h2⟩ h12
      · push_neg at hb
        rw [lat_to_y_of_inside lat2 hb h]
        have s1 : lat_to_y_with_tan lat1 < lat_to_y_with_tan (-78) :=
          lat_to_y_with_tan_strictMonoOn ⟨h1, by linarith⟩ ⟨by norm_num, by norm_num⟩ ha
        have s2 : lat_to_y_fast (-78) ≤ lat_to_y_fast lat2 :=
          lat_to_y_fast_strictMonoOn.monotoneOn ⟨le_rfl, by norm_num⟩ ⟨hb, h⟩ hb
        linarith [with_tan_neg_78_lt_fast_neg_78]
    · push_neg at ha
      rw [lat_to_y_of_inside lat1 ha (by linarith), lat_to_y_of_inside lat2 (by linarith) h]
      exact lat_to_y_fast_strictMonoOn ⟨ha, by linarith⟩ ⟨by linarith, h⟩ h12
  · rw [lat_to_y_of_outside lat1 (Or.inr h), lat_to_y_of_outside lat2 (Or.inr (by linarith))]
    exact lat_to_y_with_tan_strictMonoOn ⟨h1, by linarith⟩ ⟨by linarith, h2⟩ h12

end geom

end osmium

namespace osmium

namespace geom

open detail Finset Numeric

/-- The nested numerator of the source is the polynomial `spec_N`. -/
theorem lat_to_y_num_eq_spec_N (lat : ℝ) : lat_to_y_num lat = spec_N lat := by
  unfold lat_to_y_num spec_N
  ring

/-- The nested denominator of the source is the polynomial `spec_D`. -/
theorem lat_to_y_den_eq_spec_D (lat : ℝ) : lat_to_y_den lat = spec_D lat := by
  unfold lat_to_y_den spec_D
  ring

/-- The exact formula at `MERCATOR_MAX_LAT` lies strictly between
`6378137 * 3.141592657` and `6378137 * 3.1415926578`. -/
theorem with_tan_max_lat_bounds :
    earth_radius_for_epsg3857 * 3.141592657 < lat_to_y_with_tan MERCATOR_MAX_LAT ∧
    lat_to_y_with_tan MERCATOR_MAX_LAT < earth_radius_for_epsg3857 * 3.1415926578 := by
  unfold MERCATOR_MAX_LAT
  constructor
  · apply lt_lat_to_y_with_tan 85.0511288 3.141592657 0.0431870483486 1 1 12
    · norm_num
    · have := Real.pi_lt_d20
      norm_num at this ⊢
      linarith
    · norm_num
    · norm_num
    · norm_num [expNegTaylor, sum_range_succ, Nat.factorial]
    · norm_num [sinTaylor, cosTaylor, expNegTaylor, sum_range_succ, Nat.factorial]
  · apply lat_to_y_with_tan_lt 85.0511288 3.1415926578 0.0431870483485 1 1 22
    · norm_num
    · norm_num
    · have := Real.pi_gt_d20
      norm_num at this ⊢
      linarith
    · norm_num
    · norm_num [sinTaylor, sum_range_succ, Nat.factorial]
    · norm_num [sinTaylor, cosTaylor, sum_range_succ, Nat.factorial]

/-- On the fast path the value of `lat_to_y` stays between those at -78 and 78,
which are below `6378137 * 2.26` in absolute value. -/
theorem abs_lat_to_y_fast_lt (lat : ℝ) (h1 : -78 ≤ lat) (h2 : lat ≤ 78) :
    |lat_to_y_fast lat| < earth_radius_for_epsg3857 * 2.26 := by
  have hlo : lat_to_y_fast (-78) ≤ lat_to_y_fast lat :=
    lat_to_y_fast_strictMonoOn.monotoneOn ⟨le_rfl, by norm_num⟩ ⟨h1, h2⟩ h1
  have hhi : lat_to_y_fast lat ≤ lat_to_y_fast 78 :=
    lat_to_y_fast_strictMonoOn.monotoneOn ⟨h1, h2⟩ ⟨by norm_num, le_rfl⟩ h2
  have h78 : lat_to_y_fast 78 < earth_radius_for_epsg3857 * 2.26 := by
    unfold lat_to_y_fast lat_to_y_num lat_to_y_den earth_radius_for_epsg3857
    norm_num
  have hn78 : -(earth_radius_for_epsg3857 * 2.26) < lat_to_y_fast (-78) := by
    have := fast_neg_78_ge
    have hR := earth_radius_pos
    nlinarith
  rw [abs_lt]
  constructor <;> linarith

end geom

end osmium
namespace osmium

namespace geom

namespace binary64

theorem round_half_even_eq (q : ℝ) (n : ℤ) (h : |q - n| < 1 / 2) : round_half_even q = n := by
  rw [abs_lt] at h
  unfold round_half_even
  by_cases hq : (n : ℝ) ≤ q
  · have hf : ⌊q⌋ = n := Int.floor_eq_iff.mpr ⟨hq, by linarith⟩
    rw [hf, if_pos (by linarith)]
  · push_neg at hq
    have hf : ⌊q⌋ = n - 1 := Int.floor_eq_iff.mpr ⟨by push_cast; linarith, by push_cast; linarith⟩
    rw [hf, if_neg (by push_cast; linarith), if_pos (by push_cast; linarith)]
    ring

/-- Evaluation of the rounding: a real number in the binade `[2^e, 2^(e+1))` of
the normal range that lies within half a unit in the last place of `n * 2^(e-52)`
is rounded to it. -/
theorem rnd_eq (x : ℝ) (e n : ℤ) (he : -1022 ≤ e) (h1 : (2 : ℝ) ^ e ≤ |x|)
    (h2 : |x| < (2 : ℝ) ^ (e + 1)) (hn : |x / 2 ^ (e - 52) - n| < 1 / 2) :
    rnd x = n * 2 ^ (e - 52) := by
  have hpos : 0 < |x| := lt_of_lt_of_le (by positivity) h1
  have hlog : Int.log 2 |x| = e := by
    have a1 : e ≤ Int.log 2 |x| :=
      (Int.zpow_le_iff_le_log (by norm_num) hpos).mp (by exact_mod_cast h1)
    have a2 : Int.log 2 |x| < e + 1 :=
      (Int.lt_zpow_iff_log_lt (by norm_num) hpos).mp (by exact_mod_cast h2)
    omega
  have hu : ulp_exponent x = e - 52 := by
    unfold ulp_exponent
    rw [hlog, max_eq_left he]
  unfold rnd
  rw [hu, round_half_even_eq _ n hn]

theorem rnd_zero : rnd 0 = 0 := by
  unfold rnd
  rw [zero_div, round_half_even_eq 0 0 (by norm_num)]
  simp

theorem deg_to_rad_origin : deg_to_rad 0 = 0 := by
  unfold deg_to_rad
  rw [zero_mul, rnd_zero, zero_div, rnd_zero]

theorem lon_to_x_origin : lon_to_x 0 = 0 := by
  unfold lon_to_x
  rw [deg_to_rad_origin, mul_zero, rnd_zero]

/-- In binary64 arithmetic the exact formula at latitude 0 is
`-6378137 * 2^(-53)`, about `-7.08e-10`, not 0. -/
theorem lat_to_y_with_tan_origin : lat_to_y_with_tan 0 = -(6378137 / 2 ^ 53) := by
  -- In binary64 arithmetic `tan(PI / 4)` is rounded to `1 - 2^(-53)`, because
  -- `PI / 4` lies below a quarter of pi.
  have rnd_tan_quarter_PI :
      rnd (Real.tan (PI / 4)) = 1 - 1 / 2 ^ 53 := by
    have hlo := Real.pi_gt_d20
    have hhi := Real.pi_lt_d20
    obtain ⟨ε, hε⟩ : ∃ ε : ℝ, ε = Real.pi / 4 - PI / 4 := ⟨_, rfl⟩
    have hε1 : (30615 : ℝ) / 10 ^ 21 < ε := by
      rw [hε]; unfold PI; norm_num at hlo ⊢; linarith
    have hε2 : ε < 30619 / 10 ^ 21 := by
      rw [hε]; unfold PI; norm_num at hhi ⊢; linarith
    have hε0 : 0 < ε := lt_trans (by norm_num) hε1
    have hs1 : ε - ε ^ 3 / 4 < Real.sin ε := Real.sin_gt_sub_cube hε0 (by linarith)
    have hs2 : Real.sin ε < ε := Real.sin_lt hε0
    have hc1 : 1 - ε ^ 2 / 2 ≤ Real.cos ε := Real.one_sub_sq_div_two_le_cos
    have hc2 : Real.cos ε ≤ 1 := Real.cos_le_one ε
    have hε3 : ε ^ 3 / 4 < 1 / 10 ^ 40 := by
      have : ε ^ 3 < (30619 / 10 ^ 21) ^ 3 := pow_lt_pow_left₀ hε2 hε0.le (by norm_num)
      norm_num at this ⊢
      linarith
    have hε4 : ε ^ 2 / 2 < 1 / 10 ^ 30 := by
      have : ε ^ 2 < (30619 / 10 ^ 21) ^ 2 := pow_lt_pow_left₀ hε2 hε0.le (by norm_num)
      norm_num at this ⊢
      linarith
    have hx : PI / 4 = Real.pi / 4 - ε := by rw [hε]; ring
    have hsum : 0 < Real.cos ε + Real.sin ε := by linarith
    have htan : Real.tan (PI / 4) = (Real.cos ε - Real.sin ε) / (Real.cos ε + Real.sin ε) := by
      rw [hx, Real.tan_eq_sin_div_cos, Real.sin_sub, Real.cos_sub, Real.sin_pi_div_four,
        Real.cos_pi_div_four]
      have h2 : (0 : ℝ) < √2 / 2 := by positivity
      rw [div_eq_div_iff (by nlinarith) hsum.ne']
      ring
    have hU : Real.tan (PI / 4) < 1 - 1 / 2 ^ 54 := by
      rw [htan, div_lt_iff₀ hsum]
      norm_num at hε1 hε3 ⊢
      nlinarith
    have hL : 1 - 3 / 2 ^ 54 < Real.tan (PI / 4) := by
      rw [htan, lt_div_iff₀ hsum]
      norm_num at hε2 hε4 ⊢
      nlinarith
    have hpos : 0 < Real.tan (PI / 4) := lt_trans (by norm_num) hL
    rw [rnd_eq (Real.tan (PI / 4)) (-1) (2 ^ 53 - 1) (by norm_num)
      (by rw [abs_of_pos hpos]; norm_num at hL ⊢; linarith)
      (by rw [abs_of_pos hpos]; norm_num at hU ⊢; linarith)
      (by
        rw [abs_lt]
        norm_num at hL hU ⊢
        constructor <;> linarith)]
    norm_num
  -- In binary64 arithmetic `log(1 - 2^(-53))` is rounded to `-2^(-53)`.
  have rnd_log_pred_one :
      rnd (Real.log (1 - 1 / 2 ^ 53)) = -(1 / 2 ^ 53) := by
    have hU : Real.log (1 - 1 / 2 ^ 53) < -(1 / 2 ^ 53) := by
      have := Real.log_lt_sub_one_of_pos (x := 1 - 1 / 2 ^ 53) (by norm_num) (by norm_num)
      linarith
    have hL : -(1 / 2 ^ 53) - 1 / 2 ^ 106 < Real.log (1 - 1 / 2 ^ 53) := by
      have h := Real.abs_log_sub_add_sum_range_le (x := 1 / 2 ^ 53)
        (by rw [abs_of_pos (by positivity)]; norm_num) 2
      rw [abs_of_pos (by positivity : (0 : ℝ) < 1 / 2 ^ 53), abs_le] at h
      have h1 := h.1
      norm_num [Finset.sum_range_succ] at h1 ⊢
      linarith
    have hneg : Real.log (1 - 1 / 2 ^ 53) < 0 := lt_trans hU (by norm_num)
    rw [rnd_eq (Real.log (1 - 1 / 2 ^ 53)) (-53) (-2 ^ 52) (by norm_num)
      (by rw [abs_of_neg hneg]; norm_num at hU ⊢; linarith)
      (by rw [abs_of_neg hneg]; norm_num at hL ⊢; linarith)
      (by
        rw [abs_lt]
        norm_num at hL hU ⊢
        constructor <;> linarith)]
    norm_num
  have hq : rnd (PI / 4) = PI / 4 := by
    rw [rnd_eq (PI / 4) (-1) 7074237752028440 (by norm_num)
      (by unfold PI; rw [abs_of_pos (by norm_num)]; norm_num)
      (by unfold PI; rw [abs_of_pos (by norm_num)]; norm_num)
      (by unfold PI; norm_num)]
    unfold PI
    norm_num
  unfold lat_to_y_with_tan
  rw [deg_to_rad_origin, zero_div, rnd_zero, hq, add_zero, hq, rnd_tan_quarter_PI,
    rnd_log_pred_one]
  unfold detail.earth_radius_for_epsg3857
  rw [rnd_eq (6378137.0 * -(1 / 2 ^ 53)) (-31) (-(6378137 * 2 ^ 30)) (by norm_num)
    (by rw [abs_of_neg (by norm_num)]; norm_num)
    (by rw [abs_of_neg (by norm_num)]; norm_num)
    (by norm_num)]
  norm_num

/-- In binary64 arithmetic the default `lat_to_y` is exactly 0 at latitude 0. -/
theorem lat_to_y_origin : lat_to_y 0 = 0 := by
  have rnd_one :
      rnd 1 = 1 := by
    rw [rnd_eq 1 0 (2 ^ 52) (by norm_num) (by norm_num) (by norm_num) (by norm_num)]
    norm_num
  have hden : lat_to_y_den 0 = 1 := by
    unfold lat_to_y_den
    simp only [List.foldl, horner_step, mul_zero, rnd_zero, zero_add]
    norm_num [rnd_one]
  have hnum : lat_to_y_num 0 = 0 := by
    unfold lat_to_y_num
    rw [mul_zero, rnd_zero]
  unfold lat_to_y
  rw [if_neg (by norm_num), hnum, hden, mul_zero, rnd_zero, zero_div, rnd_zero]

end binary64

end geom

end osmium
namespace IPoly

open Finset Numeric

theorem eval_reflect {R : Type} [CommRing R] (p : List ℤ) (x : R) :
    eval (reflect p) x = eval p (-x) := by
  induction p with
  | nil => rfl
  | cons a p ih =>
    have e : reflect (a :: p) = a :: smul (-1) (reflect p) := rfl
    rw [e, eval_cons, eval_cons, eval_smul, ih]
    push_cast
    ring

theorem eval_scaleArg {R : Type} [CommRing R] (S : ℤ) (p : List ℤ) (x : R) :
    eval (scaleArg S p) ((S : R) * x) * S = (S : R) ^ p.length * eval p x := by
  induction p with
  | nil =>
    have e : scaleArg S [] = [] := rfl
    rw [e, eval_nil, eval_nil, zero_mul, mul_zero]
  | cons a p ih =>
    have e : scaleArg S (a :: p) = (a * S ^ p.length) :: scaleArg S p := rfl
    rw [e, eval_cons, eval_cons, List.length_cons, pow_succ]
    have h : ((S : R) * x * eval (scaleArg S p) ((S : R) * x)) * S =
        (S : R) * x * ((S : R) ^ p.length * eval p x) := by
      rw [← ih]; ring
    push_cast
    rw [add_mul, h]
    ring

theorem symVal_eq (s x : ℤ) : evalInt (symL s) x = symVal s x := by
  have h : ((evalInt (symL s) x : ℤ) : ℤ) = symVal s x := by
    unfold symL symVal
    simp only [evalInt_eq, eval_add, eval_mul, eval_smul, eval_reflect]
    push_cast
    ring
  exact h

end IPoly

namespace osmium

namespace geom

open detail IPoly

set_option maxHeartbeats 4000000 in
set_option maxRecDepth 100000 in
/-- On the fast path the values of the rational polynomial at `lat` and at `-lat`
add up to less than 0.00085 in absolute value. -/
theorem abs_fast_add_fast_neg_lt (lat : ℝ) (h1 : -78 ≤ lat) (h2 : lat ≤ 78) :
    |lat_to_y_fast (-lat) + lat_to_y_fast lat| < 0.00085 := by
  -- The value of `symL s` in terms of the numerator and the denominator of the
  -- rational polynomial.
  have eval_symL : ∀ (s : ℤ) (lat : ℝ),
      eval (symL s) (16 * lat) = (16 ^ 10 * 10 ^ 42) ^ 2 *
      (85 * (lat_to_y_den lat * lat_to_y_den (-lat)) + (s : ℝ) * 637813700000 *
      (lat_to_y_num lat * lat_to_y_den (-lat) + lat_to_y_num (-lat) * lat_to_y_den lat)) := by
    intro s lat
    have hd : ∀ x : ℝ, eval symDen (16 * x) = 16 ^ 10 * (10 ^ 42 * lat_to_y_den x) := by
      intro x
      have h := eval_scaleArg (R := ℝ) 16 denL x
      have hl : denL.length = 11 := rfl
      rw [hl, eval_denL] at h
      have e : symDen = scaleArg 16 denL := rfl
      rw [e]
      push_cast at h
      linarith
    have hn : ∀ x : ℝ, eval symNum (16 * x) = 16 ^ 10 * (10 ^ 42 * lat_to_y_num x) := by
      intro x
      have h := eval_scaleArg (R := ℝ) 16 numL x
      have hl : numL.length = 11 := rfl
      rw [hl, eval_numL] at h
      have e : symNum = scaleArg 16 numL := rfl
      rw [e]
      push_cast at h
      linarith
    have hneg : -(16 * lat) = 16 * -lat := by ring
    unfold symL
    simp only [eval_add, eval_mul, eval_smul, eval_reflect]
    rw [hneg, hd lat, hd (-lat), hn lat, hn (-lat)]
    push_cast
    ring
  -- On `[0, 78]` the rational polynomial at `lat` and at `-lat` add up to less
  -- than `0.00085 / 6378137` in absolute value.
  have symL_pos : ∀ (s : ℤ) (hs : s = -1 ∨ s = 1) (u : ℝ) (h1 : 0 ≤ u) (h2 : u ≤ 1248),
      0 < eval (symL s) u := by
    intro s hs u h1 h2
    rcases hs with rfl | rfl
    · refine checkPos_sound (symL (-1)) (symVal (-1)) (symVal_eq (-1)) (2 ^ 400) 21 1248
        (by decide!) (by decide!) [(218, 218), (594, 158), (840, 88), (986, 58), (1071, 27),
          (1138, 40), (1190, 12), (1206, 4), (1212, 2), (1216, 2), (1220, 2), (1228, 6),
          (1242, 8)] 0 1248 (by decide!) (by simp) u (by exact_mod_cast h1) (by exact_mod_cast h2)
    · refine checkPos_sound (symL 1) (symVal 1) (symVal_eq 1) (2 ^ 400) 21 1248
        (by decide!) (by decide!) [(232, 232), (585, 121), (811, 105), (972, 56), (1076, 48),
          (1137, 13), (1160, 10), (1186, 16), (1218, 16), (1238, 4), (1245, 3)] 0 1248
        (by decide!) (by simp) u (by exact_mod_cast h1) (by exact_mod_cast h2)
  have key : ∀ l : ℝ, 0 ≤ l → l ≤ 78 → |lat_to_y_fast (-l) + lat_to_y_fast l| < 0.00085 := by
    intro l h0 h78
    have hD := lat_to_y_den_pos l (by linarith) h78
    have hD' := lat_to_y_den_pos (-l) (by linarith) (by linarith)
    have hU := symL_pos (-1) (Or.inl rfl) (16 * l) (by linarith) (by linarith)
    have hL := symL_pos 1 (Or.inr rfl) (16 * l) (by linarith) (by linarith)
    rw [eval_symL] at hU hL
    have hc : (0 : ℝ) < (16 ^ 10 * 10 ^ 42) ^ 2 := by positivity
    have hU2 := (mul_pos_iff_of_pos_left hc).1 hU
    have hL2 := (mul_pos_iff_of_pos_left hc).1 hL
    have e : lat_to_y_fast (-l) + lat_to_y_fast l =
        6378137 * (lat_to_y_num l * lat_to_y_den (-l) + lat_to_y_num (-l) * lat_to_y_den l) /
          (lat_to_y_den l * lat_to_y_den (-l)) := by
      unfold lat_to_y_fast earth_radius_for_epsg3857
      field_simp
      ring
    rw [e, abs_lt]
    have hDD : 0 < lat_to_y_den l * lat_to_y_den (-l) := mul_pos hD hD'
    constructor
    · rw [lt_div_iff₀ hDD]
      push_cast at hL2
      norm_num at hL2 ⊢
      linarith
    · rw [div_lt_iff₀ hDD]
      push_cast at hU2
      norm_num at hU2 ⊢
      linarith
  by_cases h0 : 0 ≤ lat
  · exact key lat h0 h2
  · push_neg at h0
    have := key (-lat) (by linarith) (by linarith)
    rw [neg_neg] at this
    rw [add_comm]
    exact this

set_option maxHeartbeats 4000000 in
set_option maxRecDepth 100000 in
/-- The default `lat_to_y` is strictly increasing over every pair of latitudes on
opposite sides of the switch point 78 that are at least `6e-11` degrees apart. -/
theorem lat_to_y_lt_gap (lat1 lat2 : ℝ) (h1 : -90 < lat1) (h2 : lat2 < 90)
    (ha : lat1 ≤ 78) (hb : 78 < lat2) (hgap : lat1 + 6e-11 ≤ lat2) :
    lat_to_y lat1 < lat_to_y lat2 := by
  -- Between 77.5 and 78 the rational polynomial rises by at least 510000 per
  -- degree.
  have fast_slope_ge : ∀ (lat : ℝ) (h1 : 77.5 ≤ lat) (h2 : lat ≤ 78),
      510000 ≤ earth_radius_for_epsg3857 * (eval slopeL lat / eval denL lat ^ 2) := by
    intro lat h1 h2
    have hp : 0 < eval slopeMinL (8 * lat) :=
      checkPos_sound slopeMinL (evalInt slopeMinL) (fun _ => rfl) (2 ^ 400) 21 624
        (by decide!) (by decide!) [(624, 4)] 620 624 (by decide!) (by simp) (8 * lat)
        (by norm_num at h1 ⊢; linarith) (by norm_num; linarith)
    have hs := eval_scaleArg (R := ℝ) 8
      (add (smul 6378137 slopeL) (smul (-510000) (mul denL denL))) lat
    have hl : (add (smul 6378137 slopeL) (smul (-510000) (mul denL denL))).length = 21 := by
      decide!
    have e : slopeMinL = scaleArg 8 (add (smul 6378137 slopeL) (smul (-510000) (mul denL denL))) :=
      rfl
    rw [hl, ← e] at hs
    simp only [eval_add, eval_smul, eval_mul] at hs
    push_cast at hs
    have hD := denL_pos lat (by linarith) h2
    have hT : 0 < 6378137 * eval slopeL lat - 510000 * (eval denL lat * eval denL lat) := by
      have h8 : (0 : ℝ) < 8 ^ 21 := by positivity
      have : 0 < (8 : ℝ) ^ 21 * (6378137 * eval slopeL lat + -510000 * (eval denL lat * eval denL lat)) := by
        rw [← hs]; positivity
      have := (mul_pos_iff_of_pos_left h8).1 this
      linarith
    unfold earth_radius_for_epsg3857
    rw [← mul_div_assoc, le_div_iff₀ (by positivity)]
    norm_num
    nlinarith
  have hpi := Real.pi_pos
  have hpilo := Real.pi_gt_d20
  have hpihi := Real.pi_lt_d20
  have hR := earth_radius_pos
  -- the values at 78
  have hf : lat_to_y_fast 78 ≤ earth_radius_for_epsg3857 * 2.252802704430874 := by
    unfold lat_to_y_fast lat_to_y_num lat_to_y_den earth_radius_for_epsg3857
    norm_num
  have he : earth_radius_for_epsg3857 * 2.25280270442608 < lat_to_y_with_tan 78 := by
    apply lt_lat_to_y_with_tan 78 2.25280270442608 0.10471975511965978 2 2 12
    · norm_num
    · norm_num at hpihi ⊢
      linarith
    · norm_num
    · norm_num
    · norm_num [Numeric.expNegTaylor, Finset.sum_range_succ, Nat.factorial]
    · norm_num [Numeric.sinTaylor, Numeric.cosTaylor, Numeric.expNegTaylor,
        Finset.sum_range_succ, Nat.factorial]
  have h78 : lat_to_y_fast 78 - 3.06e-5 < lat_to_y_with_tan 78 := by
    unfold earth_radius_for_epsg3857 at hf he
    norm_num at hf he ⊢
    linarith
  -- the exact formula rises by at least 510000 per degree above 78
  have hcos78 : Real.cos (78 * Real.pi / 180) ≤ 0.208 := by
    have hx : (1.36135 : ℝ) ≤ 78 * Real.pi / 180 := by norm_num at hpilo ⊢; linarith
    have hc1 : Real.cos (78 * Real.pi / 180) ≤ Real.cos 1.36135 :=
      Real.cos_le_cos_of_nonneg_of_le_pi (by norm_num) (by linarith) hx
    have hc2 := Numeric.cos_le_cosTaylor 2 1.36135 (by norm_num)
    have hc3 : Numeric.cosTaylor (2 * 2 + 1) 1.36135 ≤ 0.208 := by
      norm_num [Numeric.cosTaylor, Finset.sum_range_succ, Nat.factorial]
    linarith
  have hexact : 510000 * (lat2 - 78) ≤ lat_to_y_with_tan lat2 - lat_to_y_with_tan 78 := by
    have hd : ∀ x ∈ Set.Icc (78 : ℝ) lat2, HasDerivAt lat_to_y_with_tan
        (earth_radius_for_epsg3857 * (Real.pi / 180 / Real.cos (x * Real.pi / 180))) x :=
      fun x hx => hasDerivAt_lat_to_y_with_tan x (by linarith [hx.1]) (by linarith [hx.2])
    refine Convex.mul_sub_le_image_sub_of_le_deriv (convex_Icc 78 lat2)
      (fun x hx => (hd x hx).continuousAt.continuousWithinAt)
      (fun x hx => (hd x (interior_subset hx)).differentiableAt.differentiableWithinAt)
      ?_ 78 ⟨le_rfl, hb.le⟩ lat2 ⟨hb.le, le_rfl⟩ hb.le
    intro x hx
    have hx' := interior_subset hx
    rw [(hd x hx').deriv]
    have hcx : Real.cos (x * Real.pi / 180) ≤ Real.cos (78 * Real.pi / 180) :=
      Real.cos_le_cos_of_nonneg_of_le_pi (by positivity) (by nlinarith [hx'.2])
        (by nlinarith [hx'.1])
    have hcpos : 0 < Real.cos (x * Real.pi / 180) :=
      Real.cos_pos_of_mem_Ioo ⟨by nlinarith [hx'.1], by nlinarith [hx'.2]⟩
    unfold earth_radius_for_epsg3857
    rw [← mul_div_assoc, le_div_iff₀ hcpos]
    norm_num at hpilo ⊢
    nlinarith
  rw [lat_to_y_of_outside lat2 (Or.inr hb)]
  by_cases hc : 77.5 ≤ lat1
  · -- the rational polynomial rises by at least 510000 per degree below 78
    have hfast : 510000 * (78 - lat1) ≤ lat_to_y_fast 78 - lat_to_y_fast lat1 := by
      have hd : ∀ x ∈ Set.Icc lat1 (78 : ℝ), HasDerivAt lat_to_y_fast
          (earth_radius_for_epsg3857 * (eval slopeL x / eval denL x ^ 2)) x :=
        fun x hx => hasDerivAt_lat_to_y_fast x (by linarith [hx.1]) hx.2
      refine Convex.mul_sub_le_image_sub_of_le_deriv (convex_Icc lat1 78)
        (fun x hx => (hd x hx).continuousAt.continuousWithinAt)
        (fun x hx => (hd x (interior_subset hx)).differentiableAt.differentiableWithinAt)
        ?_ lat1 ⟨le_rfl, ha⟩ 78 ⟨ha, le_rfl⟩ ha
      intro x hx
      have hx' := interior_subset hx
      rw [(hd x hx').deriv]
      exact fast_slope_ge x (by linarith [hx'.1]) hx'.2
    rw [lat_to_y_of_inside lat1 (by linarith) ha]
    norm_num at hgap h78 ⊢
    linarith
  · push_neg at hc
    have hlt := lat_to_y_lt lat1 77.5 h1 (by norm_num) hc (Or.inl (by norm_num))
    rw [lat_to_y_of_inside 77.5 (by norm_num) (by norm_num)] at hlt
    have h775 : lat_to_y_fast 77.5 ≤ earth_radius_for_epsg3857 * 2.22 := by
      unfold lat_to_y_fast lat_to_y_num lat_to_y_den earth_radius_for_epsg3857
      norm_num
    have hmono : lat_to_y_with_tan 78 < lat_to_y_with_tan lat2 :=
      lat_to_y_with_tan_strictMonoOn ⟨by norm_num, by norm_num⟩ ⟨by linarith, h2⟩ hb
    nlinarith

end geom

end osmium
/-! ## The claims about the projection -/

namespace osmium

namespace geom

open detail

/-- C1 (counterexample): at the boundary latitude 78 the guard of `lat_to_y`
selects the rational polynomial, and its value differs from the exact formula. -/
theorem C1_boundary_counterexample :
    lat_to_y 78 = lat_to_y_fast 78 ∧ ¬ (lat_to_y 78 = lat_to_y_with_tan 78) := by
  have with_tan_78_lt_fast_78 :
      lat_to_y_with_tan 78 < lat_to_y_fast 78 := by
    exact lt_trans (lat_to_y_with_tan_strictMonoOn (by norm_num) (by norm_num) (by norm_num))
        with_tan_near_78_lt_fast_78
  have h := lat_to_y_of_inside 78 (by norm_num) (by norm_num)
  refine ⟨h, ?_⟩
  rw [h]
  exact ne_of_gt with_tan_78_lt_fast_78

/-- C1 (amended): the guard of `lat_to_y` is strict on the exact side, so the
rational polynomial is taken exactly on the closed interval `[-78, 78]`, the
boundary latitudes -78 and 78 included, and the exact formula is taken exactly
for `lat < -78` or `lat > 78`. -/
theorem C1_boundary_routing (lat : ℝ) :
    (-78 ≤ lat ∧ lat ≤ 78 → lat_to_y lat = lat_to_y_fast lat) ∧
    (lat < -78 ∨ lat > 78 → lat_to_y lat = lat_to_y_with_tan lat) ∧
    lat_to_y 78 = lat_to_y_fast 78 ∧ lat_to_y (-78) = lat_to_y_fast (-78) :=
  ⟨fun h => lat_to_y_of_inside lat h.1 h.2, lat_to_y_of_outside lat,
    lat_to_y_of_inside 78 (by norm_num) (by norm_num),
    lat_to_y_of_inside (-78) (by norm_num) (by norm_num)⟩

theorem C1_boundary_routing_witness :
    ((-78 : ℝ) ≤ 78 ∧ (78 : ℝ) ≤ 78) ∧ lat_to_y 78 = lat_to_y_fast 78 :=
  ⟨⟨by norm_num, by norm_num⟩, (C1_boundary_routing 78).1 ⟨by norm_num, by norm_num⟩⟩

/-- C2: for every latitude below -78 or above 78, `lat_to_y` is the exact
formula `6378137 * ln(tan(pi/4 + lat_radians/2))` with `lat_radians = lat*pi/180`,
which is `lat_to_y_with_tan`. -/
theorem C2_lat_to_y_exact_outside (lat : ℝ) (h : lat < -78 ∨ lat > 78) :
    lat_to_y lat = lat_to_y_with_tan lat ∧
    lat_to_y lat = 6378137 * Real.log (Real.tan (Real.pi / 4 + (lat * Real.pi / 180) / 2)) := by
  refine ⟨lat_to_y_of_outside lat h, ?_⟩
  rw [lat_to_y_of_outside lat h]
  unfold lat_to_y_with_tan earth_radius_for_epsg3857 deg_to_rad PI
  norm_num

theorem C2_lat_to_y_exact_outside_witness :
    ((80 : ℝ) < -78 ∨ (80 : ℝ) > 78) ∧
    (lat_to_y 80 = lat_to_y_with_tan 80 ∧
    lat_to_y 80 = 6378137 * Real.log (Real.tan (Real.pi / 4 + (80 * Real.pi / 180) / 2))) :=
  ⟨Or.inr (by norm_num), C2_lat_to_y_exact_outside 80 (Or.inr (by norm_num))⟩

/-- C3 (counterexample): at latitude 73, inside `(-78, 78)`, the rational
polynomial is more than 0.001 metres away from the exact formula. -/
theorem C3_accuracy_counterexample :
    ((-78 : ℝ) < 73 ∧ (73 : ℝ) < 78) ∧
    ¬ (|lat_to_y 73 - lat_to_y_with_tan 73| < 0.001) := by
  refine ⟨⟨by norm_num, by norm_num⟩, ?_⟩
  rw [lat_to_y_of_inside 73 (by norm_num) (by norm_num), not_lt]
  have h := with_tan_73_lt_fast_73
  exact le_trans (by linarith) (le_abs_self _)

/-- C3 (amended): for every latitude in `(-78, 78)` the value of the rational
polynomial, which is what `lat_to_y` returns there, differs from the exact
formula by less than 0.01 metres. -/
theorem C3_fast_path_accuracy (lat : ℝ) (h1 : -78 < lat) (h2 : lat < 78) :
    lat_to_y lat = lat_to_y_fast lat ∧ |lat_to_y lat - lat_to_y_with_tan lat| < 0.01 :=
  ⟨lat_to_y_of_inside lat h1.le h2.le, lat_to_y_error lat⟩

theorem C3_fast_path_accuracy_witness :
    ((-78 : ℝ) < 73 ∧ (73 : ℝ) < 78) ∧
    (lat_to_y 73 = lat_to_y_fast 73 ∧ |lat_to_y 73 - lat_to_y_with_tan 73| < 0.01) :=
  ⟨⟨by norm_num, by norm_num⟩, C3_fast_path_accuracy 73 (by norm_num) (by norm_num)⟩

/-- C4 (counterexample): the coordinate `(0, 73)` is within the precondition
bounds, and the latitude that comes back from the round trip is more than
`1e-9` degrees away from 73. -/
theorem C4_roundtrip_counterexample :
    ((-180 : ℝ) ≤ 0 ∧ (0 : ℝ) ≤ 180 ∧ -MERCATOR_MAX_LAT ≤ 73 ∧ 73 ≤ MERCATOR_MAX_LAT) ∧
    ¬ (|(mercator_to_lonlat (lonlat_to_mercator { x := 0, y := 73 })).y - 73| ≤ 1e-9) := by
  -- The inverse latitude step is strictly increasing.
  have y_to_lat_strictMono :
      StrictMono y_to_lat := by
    have PI_pos :
        0 < PI := by
      exact Real.pi_pos
    intro a b hab
    have hpi := PI_pos
    unfold y_to_lat rad_to_deg
    have h1 : a / earth_radius_for_epsg3857 < b / earth_radius_for_epsg3857 :=
      div_lt_div_of_pos_right hab earth_radius_pos
    have h2 := Real.arctan_strictMono (Real.exp_lt_exp.mpr h1)
    apply div_lt_div_of_pos_right _ hpi
    linarith
  refine ⟨⟨by norm_num, by norm_num, by unfold MERCATOR_MAX_LAT; norm_num,
    by unfold MERCATOR_MAX_LAT; norm_num⟩, ?_⟩
  unfold mercator_to_lonlat lonlat_to_mercator
  dsimp only
  rw [lat_to_y_of_inside 73 (by norm_num) (by norm_num), not_le]
  have h1 : lat_to_y_with_tan (73 + 1e-9) < lat_to_y_fast 73 := by
    have := with_tan_near_73_lt_fast_73
    linarith
  have h2 := y_to_lat_strictMono h1
  rw [y_to_lat_lat_to_y_with_tan _ (by norm_num) (by norm_num)] at h2
  exact lt_of_lt_of_le (by linarith) (le_abs_self _)

/-- C4 (amended): for every coordinate whose latitude is within
`[-MERCATOR_MAX_LAT, MERCATOR_MAX_LAT]`, the round trip through
`lonlat_to_mercator` and `mercator_to_lonlat` reproduces the longitude exactly
and the latitude within `1e-7` degrees, and exactly when the latitude is below
-78 or above 78. -/
theorem C4_roundtrip_geodetic (lon lat : ℝ) (h1 : -MERCATOR_MAX_LAT ≤ lat)
    (h2 : lat ≤ MERCATOR_MAX_LAT) :
    (mercator_to_lonlat (lonlat_to_mercator { x := lon, y := lat })).x = lon ∧
    |(mercator_to_lonlat (lonlat_to_mercator { x := lon, y := lat })).y - lat| < 1e-7 ∧
    (lat < -78 ∨ lat > 78 →
      (mercator_to_lonlat (lonlat_to_mercator { x := lon, y := lat })).y = lat) := by
  -- The inverse latitude step changes by at most `180 / (pi * R)` degrees per metre.
  have y_to_lat_lipschitz : ∀ (a b : ℝ),
      |y_to_lat a - y_to_lat b| ≤ 180 / (Real.pi * earth_radius_for_epsg3857) * |a - b| := by
    intro a b
    have hpi := Real.pi_pos
    have hR := earth_radius_pos
    have hderiv : ∀ y : ℝ, HasDerivAt y_to_lat
        (2 * (1 / (1 + Real.exp (y / earth_radius_for_epsg3857) ^ 2) *
          (Real.exp (y / earth_radius_for_epsg3857) * (1 / earth_radius_for_epsg3857))) * 180
          / Real.pi) y := by
      intro y
      have h1 : HasDerivAt (fun y : ℝ => y / earth_radius_for_epsg3857)
          (1 / earth_radius_for_epsg3857) y := (hasDerivAt_id y).div_const _
      have h2 := (Real.hasDerivAt_exp _).comp y h1
      have h3 := (Real.hasDerivAt_arctan _).comp y h2
      have h4 := (((h3.const_mul 2).sub_const (PI / 2)).mul_const 180).div_const PI
      exact h4
    have hbound : ∀ y : ℝ, ‖2 * (1 / (1 + Real.exp (y / earth_radius_for_epsg3857) ^ 2) *
          (Real.exp (y / earth_radius_for_epsg3857) * (1 / earth_radius_for_epsg3857))) * 180
          / Real.pi‖ ≤ 180 / (Real.pi * earth_radius_for_epsg3857) := by
      intro y
      obtain ⟨E, hE⟩ : ∃ E : ℝ, E = Real.exp (y / earth_radius_for_epsg3857) := ⟨_, rfl⟩
      have hE0 : 0 < E := by rw [hE]; exact Real.exp_pos _
      rw [← hE, Real.norm_eq_abs, abs_of_nonneg (by positivity)]
      have h1 : 2 * E ≤ 1 + E ^ 2 := by nlinarith [sq_nonneg (E - 1)]
      rw [div_le_div_iff₀ (by positivity) (by positivity)]
      have h2 : 2 * (1 / (1 + E ^ 2) * (E * (1 / earth_radius_for_epsg3857))) * 180 *
          (Real.pi * earth_radius_for_epsg3857) = 180 * Real.pi * (2 * E / (1 + E ^ 2)) := by
        field_simp
        ring
      rw [h2]
      have h3 : 2 * E / (1 + E ^ 2) ≤ 1 := by
        rw [div_le_one (by positivity)]; exact h1
      nlinarith
    have := Convex.norm_image_sub_le_of_norm_hasDerivWithin_le
      (fun y _ => (hderiv y).hasDerivWithinAt) (fun y _ => hbound y) convex_univ
      (Set.mem_univ b) (Set.mem_univ a)
    simpa [Real.norm_eq_abs] using this
  have hlo : -90 < lat := by unfold MERCATOR_MAX_LAT at h1; norm_num at h1; linarith
  have hhi : lat < 90 := by unfold MERCATOR_MAX_LAT at h2; norm_num at h2; linarith
  unfold mercator_to_lonlat lonlat_to_mercator
  dsimp only
  refine ⟨x_to_lon_lon_to_x lon, ?_, ?_⟩
  · have hL := y_to_lat_lipschitz (lat_to_y lat) (lat_to_y_with_tan lat)
    rw [y_to_lat_lat_to_y_with_tan lat hlo hhi] at hL
    have he := lat_to_y_error lat
    have hpi := Real.pi_gt_three
    have hc : 180 / (Real.pi * earth_radius_for_epsg3857) ≤ 1 / 100000 := by
      rw [div_le_div_iff₀ (by have := earth_radius_pos; positivity) (by norm_num)]
      unfold earth_radius_for_epsg3857
      norm_num
      linarith
    have h0 := abs_nonneg (lat_to_y lat - lat_to_y_with_tan lat)
    have : 180 / (Real.pi * earth_radius_for_epsg3857) * |lat_to_y lat - lat_to_y_with_tan lat|
        ≤ 1 / 100000 * |lat_to_y lat - lat_to_y_with_tan lat| :=
      mul_le_mul_of_nonneg_right hc h0
    norm_num at he ⊢
    linarith
  · intro h
    rw [lat_to_y_of_outside lat h, y_to_lat_lat_to_y_with_tan lat hlo hhi]

theorem C4_roundtrip_geodetic_witness :
    (-MERCATOR_MAX_LAT ≤ 73 ∧ (73 : ℝ) ≤ MERCATOR_MAX_LAT) ∧
    |(mercator_to_lonlat (lonlat_to_mercator { x := 0, y := 73 })).y - 73| < 1e-7 :=
  ⟨⟨by unfold MERCATOR_MAX_LAT; norm_num, by unfold MERCATOR_MAX_LAT; norm_num⟩,
    (C4_roundtrip_geodetic 0 73 (by unfold MERCATOR_MAX_LAT; norm_num)
      (by unfold MERCATOR_MAX_LAT; norm_num)).2.1⟩

/-- C5 (counterexample): the planar coordinate `(0, lat_to_y_with_tan 73)` is
within the precondition bounds, and the `y` that comes back from the round trip
is more than `1e-6` metres away from it. -/
theorem C5_roundtrip_counterexample :
    (|(0 : ℝ)| ≤ 20037508.34 ∧ |lat_to_y_with_tan 73| ≤ 20037508.34) ∧
    ¬ (|(lonlat_to_mercator (mercator_to_lonlat { x := 0, y := lat_to_y_with_tan 73 })).y
        - lat_to_y_with_tan 73| ≤ 1e-6) := by
  have h := with_tan_73_lt_fast_73
  have h0 : 0 < lat_to_y_with_tan 73 := by
    have := lat_to_y_with_tan_strictMonoOn (a := 0) (b := 73) (by norm_num) (by norm_num)
      (by norm_num)
    rwa [lat_to_y_with_tan_zero] at this
  have hf : lat_to_y_fast 73 ≤ 20037508 := by
    unfold lat_to_y_fast lat_to_y_num lat_to_y_den earth_radius_for_epsg3857
    norm_num
  refine ⟨⟨by norm_num, ?_⟩, ?_⟩
  · rw [abs_of_pos h0]; linarith
  · unfold mercator_to_lonlat lonlat_to_mercator
    dsimp only
    rw [y_to_lat_lat_to_y_with_tan _ (by norm_num) (by norm_num),
      lat_to_y_of_inside 73 (by norm_num) (by norm_num), not_le]
    exact lt_of_lt_of_le (by linarith) (le_abs_self _)

/-- C5 (amended): for every planar coordinate the round trip through
`mercator_to_lonlat` and `lonlat_to_mercator` reproduces `x` exactly and `y`
within 0.01 metres, and exactly when the latitude of `y` is below -78 or
above 78. -/
theorem C5_roundtrip_planar (x y : ℝ) :
    (lonlat_to_mercator (mercator_to_lonlat { x := x, y := y })).x = x ∧
    |(lonlat_to_mercator (mercator_to_lonlat { x := x, y := y })).y - y| < 0.01 ∧
    (y_to_lat y < -78 ∨ y_to_lat y > 78 →
      (lonlat_to_mercator (mercator_to_lonlat { x := x, y := y })).y = y) := by
  unfold mercator_to_lonlat lonlat_to_mercator
  dsimp only
  refine ⟨lon_to_x_x_to_lon x, ?_, ?_⟩
  · have := lat_to_y_error (y_to_lat y)
    rwa [lat_to_y_with_tan_y_to_lat] at this
  · intro h
    rw [lat_to_y_of_outside _ h, lat_to_y_with_tan_y_to_lat]

/-- C6 (counterexample): the latitudes `78 < 78 + 1e-12` are both in the valid
range, yet `lat_to_y` is larger at the first than at the second. -/
theorem C6_monotone_counterexample :
    (-MERCATOR_MAX_LAT ≤ 78 ∧ (78 : ℝ) < 78 + 1e-12 ∧ 78 + 1e-12 ≤ MERCATOR_MAX_LAT) ∧
    ¬ (lat_to_y 78 < lat_to_y (78 + 1e-12)) := by
  refine ⟨⟨by unfold MERCATOR_MAX_LAT; norm_num, by norm_num, by unfold MERCATOR_MAX_LAT; norm_num⟩, ?_⟩
  rw [lat_to_y_of_inside 78 (by norm_num) (by norm_num),
    lat_to_y_of_outside (78 + 1e-12) (Or.inr (by norm_num)), not_lt]
  exact le_of_lt with_tan_near_78_lt_fast_78

/-- C6 (amended): `lat_to_y` is strictly increasing over every pair of valid
latitudes `lat1 < lat2` except those that the switch point 78 separates while
they are less than `6e-11` degrees apart: it is increasing within the fast path
`[-78, 78]`, within each exact range, across the switch point -78, and across
the switch point 78 as soon as `lat2 - lat1 >= 6e-11`. -/
theorem C6_monotone (lat1 lat2 : ℝ) (h1 : -MERCATOR_MAX_LAT ≤ lat1)
    (h2 : lat2 ≤ MERCATOR_MAX_LAT) (h12 : lat1 < lat2)
    (h : lat2 ≤ 78 ∨ 78 < lat1 ∨ lat1 + 6e-11 ≤ lat2) :
    lat_to_y lat1 < lat_to_y lat2 := by
  have hlo : -90 < lat1 := by unfold MERCATOR_MAX_LAT at h1; norm_num at h1; linarith
  have hhi : lat2 < 90 := by unfold MERCATOR_MAX_LAT at h2; norm_num at h2; linarith
  rcases h with h | h | h
  · exact lat_to_y_lt lat1 lat2 hlo hhi h12 (Or.inl h)
  · exact lat_to_y_lt lat1 lat2 hlo hhi h12 (Or.inr h)
  · by_cases ha : lat1 ≤ 78
    · by_cases hb : lat2 ≤ 78
      · exact lat_to_y_lt lat1 lat2 hlo hhi h12 (Or.inl hb)
      · exact lat_to_y_lt_gap lat1 lat2 hlo hhi ha (not_le.mp hb) h
    · exact lat_to_y_lt lat1 lat2 hlo hhi h12 (Or.inr (not_le.mp ha))

theorem C6_monotone_witness :
    (-MERCATOR_MAX_LAT ≤ 78 ∧ (78 : ℝ) + 6e-11 ≤ MERCATOR_MAX_LAT ∧ (78 : ℝ) < 78 + 6e-11 ∧
      ((78 : ℝ) + 6e-11 ≤ 78 ∨ (78 : ℝ) < 78 ∨ (78 : ℝ) + 6e-11 ≤ 78 + 6e-11)) ∧
    lat_to_y 78 < lat_to_y (78 + 6e-11) :=
  ⟨⟨by unfold MERCATOR_MAX_LAT; norm_num, by unfold MERCATOR_MAX_LAT; norm_num, by norm_num,
      Or.inr (Or.inr le_rfl)⟩,
    C6_monotone 78 (78 + 6e-11) (by unfold MERCATOR_MAX_LAT; norm_num)
      (by unfold MERCATOR_MAX_LAT; norm_num) (by norm_num) (Or.inr (Or.inr le_rfl))⟩

/-- C7: `x_to_lon x` is `rad_to_deg (x / 6378137)`, and `x_to_lon` and `lon_to_x`
are inverse to each other. -/
theorem C7_x_to_lon_inverse (x lon : ℝ) :
    x_to_lon x = rad_to_deg (x / 6378137) ∧
    x_to_lon (lon_to_x lon) = lon ∧
    lon_to_x (x_to_lon x) = x := by
  refine ⟨?_, x_to_lon_lon_to_x lon, lon_to_x_x_to_lon x⟩
  unfold x_to_lon rad_to_deg earth_radius_for_epsg3857
  norm_num
  ring

/-- C8: `y_to_lat` is `rad_to_deg (2 * atan (exp (y / 6378137)) - pi / 2)`; it
inverts the exact formula on latitudes strictly between -90 and 90, and the
exact formula inverts it on every `y`. -/
theorem C8_y_to_lat_inverse (y : ℝ) :
    y_to_lat y = rad_to_deg (2 * Real.arctan (Real.exp (y / 6378137)) - Real.pi / 2) ∧
    (∀ lat : ℝ, -90 < lat → lat < 90 → y_to_lat (lat_to_y_with_tan lat) = lat) ∧
    lat_to_y_with_tan (y_to_lat y) = y := by
  refine ⟨?_, y_to_lat_lat_to_y_with_tan, lat_to_y_with_tan_y_to_lat y⟩
  unfold y_to_lat earth_radius_for_epsg3857 PI
  norm_num

theorem C8_y_to_lat_inverse_witness :
    (-90 : ℝ) < 45 ∧ (45 : ℝ) < 90 ∧ y_to_lat (lat_to_y_with_tan 45) = 45 :=
  ⟨by norm_num, by norm_num, (C8_y_to_lat_inverse 0).2.1 45 (by norm_num) (by norm_num)⟩

/-- C10: `lon_to_x lon` is `6378137 * pi * lon / 180`; it is additive and
strictly increasing. -/
theorem C10_lon_to_x_linear :
    (∀ lon : ℝ, lon_to_x lon = 6378137 * Real.pi * lon / 180) ∧
    (∀ a b : ℝ, lon_to_x (a + b) = lon_to_x a + lon_to_x b) ∧
    StrictMono lon_to_x := by
  have hpi : 0 < Real.pi := Real.pi_pos
  have h1 : ∀ lon : ℝ, lon_to_x lon = 6378137 * Real.pi * lon / 180 := by
    intro lon
    unfold lon_to_x deg_to_rad earth_radius_for_epsg3857 PI
    norm_num
    ring
  refine ⟨h1, ?_, ?_⟩
  · intro a b
    rw [h1, h1, h1]; ring
  · intro a b hab
    rw [h1, h1]
    have : 0 < 6378137 * Real.pi / 180 := by positivity
    nlinarith

end geom

end osmium
/-! ## The claims about the tag filter -/

namespace osmium

namespace tags

namespace Filter

variable {TKey TValue : Type} {TKeyComp : TKey → String → Bool}
  {TValueComp : TValue → String → Bool}

theorem scan_cons (d : Bool) (rule : Rule TKey TValue) (rest : List (Rule TKey TValue))
    (tag : Tag) :
    scan TKeyComp TValueComp d (rule :: rest) tag =
      if rule_matches TKeyComp TValueComp rule tag then rule.result
      else scan TKeyComp TValueComp d rest tag := rfl

/-- The scan returns the result of the first rule that matches. -/
theorem scan_first_match (d : Bool) (rules : List (Rule TKey TValue)) (tag : Tag) (i : ℕ)
    (hi : i < rules.length)
    (hm : rule_matches TKeyComp TValueComp (rules.get ⟨i, hi⟩) tag = true)
    (hfirst : ∀ j (hj : j < i),
      rule_matches TKeyComp TValueComp (rules.get ⟨j, hj.trans hi⟩) tag = false) :
    scan TKeyComp TValueComp d rules tag = (rules.get ⟨i, hi⟩).result := by
  induction rules generalizing i with
  | nil => exact absurd hi (Nat.not_lt_zero _)
  | cons rule rest ih =>
    rw [scan_cons]
    cases i with
    | zero =>
      simp only [List.get_eq_getElem, List.getElem_cons_zero] at hm ⊢
      rw [if_pos hm]
    | succ k =>
      have h0 := hfirst 0 (Nat.succ_pos k)
      simp only [List.get_eq_getElem, List.getElem_cons_zero] at h0
      rw [h0]
      simp only [Bool.false_eq_true, if_false, List.get_eq_getElem, List.getElem_cons_succ]
      have hk : k < rest.length := Nat.lt_of_succ_lt_succ hi
      refine ih k hk ?_ ?_
      · simpa using hm
      · intro j hj
        have := hfirst (j + 1) (Nat.succ_lt_succ hj)
        simpa using this

/-- The scan returns the default result when no rule matches. -/
theorem scan_no_match (d : Bool) (rules : List (Rule TKey TValue)) (tag : Tag)
    (h : ∀ rule ∈ rules, rule_matches TKeyComp TValueComp rule tag = false) :
    scan TKeyComp TValueComp d rules tag = d := by
  induction rules with
  | nil => rfl
  | cons rule rest ih =>
    rw [scan_cons, h rule (List.mem_cons_self _ _)]
    simp only [Bool.false_eq_true, if_false]
    exact ih (fun r hr => h r (List.mem_cons_of_mem _ hr))

/-- C9: `operator()` returns the result of the first rule, in the order the
rules were added, whose key is accepted and which either ignores the value or
accepts it, and the default result when there is no such rule; a filter
without rules returns the default, and the rule appended by `add(result, key)`
matches a tag exactly when its key is accepted, whatever the value. -/
theorem C9_first_match_wins (f : Filter TKey TValue TKeyComp TValueComp) (tag : Tag) :
    (∀ i (hi : i < f.m_rules.length),
      rule_matches TKeyComp TValueComp (f.m_rules.get ⟨i, hi⟩) tag = true →
      (∀ j (hj : j < i),
        rule_matches TKeyComp TValueComp (f.m_rules.get ⟨j, hj.trans hi⟩) tag = false) →
      f.call tag = (f.m_rules.get ⟨i, hi⟩).result) ∧
    ((∀ rule ∈ f.m_rules, rule_matches TKeyComp TValueComp rule tag = false) →
      f.call tag = f.m_default_result) ∧
    (∀ d : Bool, (mk_default TKeyComp TValueComp d).call tag = d) ∧
    (∀ [Inhabited TValue] (result : Bool) (key : TKey),
      ∃ rule, (f.add result key).m_rules = f.m_rules ++ [rule] ∧ rule.result = result ∧
        rule_matches TKeyComp TValueComp rule tag = TKeyComp key tag.key) := by
  refine ⟨fun i hi hm hfirst => scan_first_match _ _ tag i hi hm hfirst,
    fun h => scan_no_match _ _ tag h, fun d => rfl, ?_⟩
  intro _ result key
  exact ⟨_, rfl, rfl, by simp [rule_matches]⟩

theorem C9_first_match_wins_witness :
    example_filter.call { key := "highway", value := "primary" } = true :=
  (C9_first_match_wins example_filter { key := "highway", value := "primary" }).1 1
    (by decide) (by decide) (by decide)

end Filter

end tags

end osmium
/-! ## Further claims about the projection -/

namespace osmium

namespace geom

open detail

/-- C11 (counterexample): in the exact-only build, in binary64 arithmetic with
correctly rounded `tan` and `log`, `lonlat_to_mercator` applied to
`(lon = 0, lat = 0)` returns `y = -6378137 * 2^(-53)`, about `-7.08e-10`, not
`0.0`: `PI / 4` lies below a quarter of pi, so `tan(PI / 4)` is rounded to
`1 - 2^(-53)`. -/
theorem C11_origin_counterexample :
    (binary64.lonlat_to_mercator_slow { x := 0, y := 0 }).y = -(6378137 / 2 ^ 53) ∧
    ¬ (binary64.lonlat_to_mercator_slow { x := 0, y := 0 } = { x := 0, y := 0 }) := by
  have hy : (binary64.lonlat_to_mercator_slow { x := 0, y := 0 }).y = -(6378137 / 2 ^ 53) :=
    binary64.lat_to_y_with_tan_origin
  refine ⟨hy, ?_⟩
  intro h
  rw [h] at hy
  norm_num at hy

/-- C11 (amended): in the default build the origin maps to the origin exactly,
in binary64 arithmetic as well as over the reals; `lonlat_to_mercator` applied
to `(lon = 0, lat = 0)` returns `(x = 0.0, y = 0.0)`, because latitude 0 takes
the rational fast path, whose numerator has no constant term.  In the exact-only
build `x = 0.0`, and `y` is 0 over the reals but `-6378137 * 2^(-53)` in binary64
arithmetic. -/
theorem C11_origin :
    binary64.lonlat_to_mercator { x := 0, y := 0 } = { x := 0, y := 0 } ∧
    (binary64.lonlat_to_mercator_slow { x := 0, y := 0 }).x = 0 ∧
    (binary64.lonlat_to_mercator_slow { x := 0, y := 0 }).y = -(6378137 / 2 ^ 53) ∧
    lonlat_to_mercator { x := 0, y := 0 } = { x := 0, y := 0 } ∧
    lat_to_y_slow 0 = 0 ∧
    lat_to_y 0 = lat_to_y_fast 0 ∧ lat_to_y_num (0 : ℝ) = 0 := by
  have hx : lon_to_x 0 = 0 := by
    unfold lon_to_x deg_to_rad
    ring
  have hin : lat_to_y 0 = lat_to_y_fast 0 := lat_to_y_of_inside 0 (by norm_num) (by norm_num)
  have hn : lat_to_y_num (0 : ℝ) = 0 := by
    unfold lat_to_y_num
    ring
  have hy : lat_to_y 0 = 0 := by
    rw [hin]
    unfold lat_to_y_fast
    rw [hn, mul_zero, zero_div]
  refine ⟨?_, binary64.lon_to_x_origin, binary64.lat_to_y_with_tan_origin, ?_,
    lat_to_y_with_tan_zero, hin, hn⟩
  · show Coordinates.mk (binary64.lon_to_x 0) (binary64.lat_to_y 0) = Coordinates.mk 0 0
    rw [binary64.lon_to_x_origin, binary64.lat_to_y_origin]
  · show Coordinates.mk (lon_to_x 0) (lat_to_y 0) = Coordinates.mk 0 0
    rw [hx, hy]

/-- C12 (counterexample): the value of `lat_to_y` at `MERCATOR_MAX_LAT`
(85.0511288, on the exact path) is more than 0.01 away from 20037508.34. -/
theorem C12_reference_counterexample :
    lat_to_y 85.0511288 = lat_to_y_with_tan 85.0511288 ∧
    ¬ (|lat_to_y 85.0511288 - 20037508.34| < 0.01) := by
  have hout : lat_to_y 85.0511288 = lat_to_y_with_tan 85.0511288 :=
    lat_to_y_of_outside _ (Or.inr (by norm_num))
  refine ⟨hout, ?_⟩
  rw [hout, not_lt]
  have h := with_tan_max_lat_bounds.1
  unfold MERCATOR_MAX_LAT earth_radius_for_epsg3857 at h
  refine le_trans ?_ (le_abs_self _)
  norm_num at h ⊢
  linarith

/-- C12 (amended): reference values at the edge of the domain, over the reals;
`lon_to_x(180)` is `6378137 * pi` and lies within 0.01 of 20037508.34, and
`lat_to_y(MERCATOR_MAX_LAT)`, which takes the exact path, lies within 0.03 of
20037508.34. -/
theorem C12_reference_values :
    lon_to_x 180 = 6378137 * Real.pi ∧
    |lon_to_x 180 - 20037508.34| < 0.01 ∧
    lat_to_y MERCATOR_MAX_LAT = lat_to_y_with_tan MERCATOR_MAX_LAT ∧
    |lat_to_y MERCATOR_MAX_LAT - 20037508.34| < 0.03 := by
  have hx : lon_to_x 180 = 6378137 * Real.pi := by
    unfold lon_to_x deg_to_rad earth_radius_for_epsg3857 PI
    norm_num
  have hout : lat_to_y MERCATOR_MAX_LAT = lat_to_y_with_tan MERCATOR_MAX_LAT :=
    lat_to_y_of_outside _ (Or.inr (by unfold MERCATOR_MAX_LAT; norm_num))
  have h := with_tan_max_lat_bounds
  unfold earth_radius_for_epsg3857 at h
  refine ⟨hx, ?_, hout, ?_⟩
  · rw [hx, abs_lt]
    have h1 := Real.pi_gt_d20
    have h2 := Real.pi_lt_d20
    constructor <;> norm_num at h1 h2 ⊢ <;> linarith
  · rw [hout, abs_lt]
    obtain ⟨h1, h2⟩ := h
    constructor <;> norm_num at h1 h2 ⊢ <;> linarith

/-- C13: the projection functor is the forward transform applied to the
geodetic coordinates of the location; `MercatorProjection::operator()(location)`
equals `lonlat_to_mercator(Coordinates{lon, lat})`, component for component. -/
theorem C13_functor (p : MercatorProjection) (location : Location) :
    p.call location = lonlat_to_mercator { x := location.lon, y := location.lat } ∧
    (p.call location).x = lon_to_x location.lon ∧
    (p.call location).y = lat_to_y location.lat :=
  ⟨rfl, rfl, rfl⟩

/-- C14: the projection descriptor reports constants; for every
`MercatorProjection` object `epsg()` returns 3857 and `proj_string()` returns one
fixed string, the blank-separated list of its parameters, in which `+a` and `+b`
carry the same digits, the number they write is the earth radius 6378137 used by
the transform, and the units parameter is `+units=m`. -/
theorem C14_descriptor (p : MercatorProjection) :
    p.epsg = 3857 ∧
    ∃ digits : String,
      p.proj_string = String.intercalate " " ["+proj=merc", "+a=" ++ digits, "+b=" ++ digits,
        "+lat_ts=0.0", "+lon_0=0.0", "+x_0=0.0", "+y_0=0", "+k=1.0", "+units=m",
        "+nadgrids=@null", "+wktext", "+no_defs"] ∧
      ((digits.data.foldl (fun n c => 10 * n + (c.toNat - 48)) 0 : ℕ) : ℝ) =
        earth_radius_for_epsg3857 := by
  have h : ("6378137".data.foldl (fun n c => 10 * n + (c.toNat - 48)) 0 : ℕ) = 6378137 := by
    decide
  refine ⟨rfl, "6378137", rfl, ?_⟩
  rw [h]
  unfold earth_radius_for_epsg3857
  norm_num

/-- C15: the fast path is a degree-10 over degree-10 rational polynomial in the
latitude in degrees; for every latitude in `[-78, 78]` the nested expression of
`lat_to_y` equals `6378137 * N(lat) / D(lat)` with the polynomials `spec_N` (no
constant term) and `spec_D` (constant term 1) built from the constants of the
code. -/
theorem C15_rational_polynomial (lat : ℝ) (h1 : -78 ≤ lat) (h2 : lat ≤ 78) :
    lat_to_y lat = 6378137 * spec_N lat / spec_D lat ∧
    lat_to_y_num lat = spec_N lat ∧ lat_to_y_den lat = spec_D lat := by
  refine ⟨?_, lat_to_y_num_eq_spec_N lat, lat_to_y_den_eq_spec_D lat⟩
  rw [lat_to_y_of_inside lat h1 h2]
  unfold lat_to_y_fast earth_radius_for_epsg3857
  rw [lat_to_y_num_eq_spec_N, lat_to_y_den_eq_spec_D]
  norm_num

theorem C15_rational_polynomial_witness :
    ((-78 : ℝ) ≤ 1 ∧ (1 : ℝ) ≤ 78) ∧ lat_to_y 1 = 6378137 * spec_N 1 / spec_D 1 :=
  ⟨⟨by norm_num, by norm_num⟩, (C15_rational_polynomial 1 (by norm_num) (by norm_num)).1⟩

/-- C17: the division in the fast path is never by zero; for every latitude in
the closed interval `[-78, 78]`, where `lat_to_y` returns
`6378137 * numerator / denominator`, the denominator polynomial, in the nested
form of the source and in the form `spec_D`, is strictly positive. -/
theorem C17_denominator_pos (lat : ℝ) (h1 : -78 ≤ lat) (h2 : lat ≤ 78) :
    0 < lat_to_y_den lat ∧ 0 < spec_D lat ∧
    lat_to_y lat = earth_radius_for_epsg3857 * lat_to_y_num lat / lat_to_y_den lat := by
  have h := lat_to_y_den_pos lat h1 h2
  refine ⟨h, ?_, lat_to_y_of_inside lat h1 h2⟩
  rw [← lat_to_y_den_eq_spec_D]
  exact h

theorem C17_denominator_pos_witness :
    ((-78 : ℝ) ≤ 78 ∧ (78 : ℝ) ≤ 78) ∧ 0 < lat_to_y_den (78 : ℝ) :=
  ⟨⟨by norm_num, by norm_num⟩, (C17_denominator_pos 78 (by norm_num) (by norm_num)).1⟩

/-- C18 (counterexample): at `lon = 180`, `lat = MERCATOR_MAX_LAT`, inside the
valid geodetic range, both coordinates of `lonlat_to_mercator` exceed
`max_coordinate_epsg3857`. -/
theorem C18_range_counterexample :
    ((-180 : ℝ) ≤ 180 ∧ (180 : ℝ) ≤ 180 ∧ -MERCATOR_MAX_LAT ≤ MERCATOR_MAX_LAT ∧
      MERCATOR_MAX_LAT ≤ MERCATOR_MAX_LAT) ∧
    ¬ (|(lonlat_to_mercator { x := 180, y := MERCATOR_MAX_LAT }).x| ≤ max_coordinate_epsg3857) ∧
    ¬ (|(lonlat_to_mercator { x := 180, y := MERCATOR_MAX_LAT }).y| ≤ max_coordinate_epsg3857) := by
  have hM : (0 : ℝ) ≤ MERCATOR_MAX_LAT := by unfold MERCATOR_MAX_LAT; norm_num
  refine ⟨⟨by norm_num, le_rfl, by linarith, le_rfl⟩, ?_, ?_⟩
  · show ¬ (|lon_to_x 180| ≤ max_coordinate_epsg3857)
    rw [not_le]
    refine lt_of_lt_of_le ?_ (le_abs_self _)
    unfold lon_to_x deg_to_rad earth_radius_for_epsg3857 PI max_coordinate_epsg3857
    have h1 := Real.pi_gt_d20
    norm_num at h1 ⊢
    linarith
  · show ¬ (|lat_to_y MERCATOR_MAX_LAT| ≤ max_coordinate_epsg3857)
    rw [not_le, lat_to_y_of_outside _ (Or.inr (by unfold MERCATOR_MAX_LAT; norm_num))]
    refine lt_of_lt_of_le ?_ (le_abs_self _)
    have h := with_tan_max_lat_bounds.1
    unfold earth_radius_for_epsg3857 at h
    unfold max_coordinate_epsg3857
    norm_num at h ⊢
    linarith

/-- C18 (amended): for every `lon` in `[-180, 180]` and every `lat` in
`[-MERCATOR_MAX_LAT, MERCATOR_MAX_LAT]` the result `(x, y)` of
`lonlat_to_mercator` satisfies `|x| <= 6378137 * pi`, which is below
`max_coordinate_epsg3857 + 0.01`, and `|y| < max_coordinate_epsg3857 + 0.03`. -/
theorem C18_forward_range (lon lat : ℝ) (hlon1 : -180 ≤ lon) (hlon2 : lon ≤ 180)
    (hlat1 : -MERCATOR_MAX_LAT ≤ lat) (hlat2 : lat ≤ MERCATOR_MAX_LAT) :
    |(lonlat_to_mercator { x := lon, y := lat }).x| ≤ 6378137 * Real.pi ∧
    |(lonlat_to_mercator { x := lon, y := lat }).x| < max_coordinate_epsg3857 + 0.01 ∧
    |(lonlat_to_mercator { x := lon, y := lat }).y| < max_coordinate_epsg3857 + 0.03 := by
  have hpi := Real.pi_pos
  have hpi2 := Real.pi_lt_d20
  have hx : |lon_to_x lon| ≤ 6378137 * Real.pi := by
    unfold lon_to_x deg_to_rad earth_radius_for_epsg3857 PI
    rw [abs_le]
    constructor <;> norm_num <;> nlinarith
  have hM : MERCATOR_MAX_LAT < 90 := by unfold MERCATOR_MAX_LAT; norm_num
  have hM78 : (78 : ℝ) < MERCATOR_MAX_LAT := by unfold MERCATOR_MAX_LAT; norm_num
  obtain ⟨-, hU⟩ := with_tan_max_lat_bounds
  have hR := earth_radius_pos
  have hup : ∀ l : ℝ, 78 < l → l ≤ MERCATOR_MAX_LAT →
      0 < lat_to_y_with_tan l ∧ lat_to_y_with_tan l < earth_radius_for_epsg3857 * 3.1415926578 := by
    intro l hl1 hl2
    constructor
    · rw [← lat_to_y_with_tan_zero]
      exact lat_to_y_with_tan_strictMonoOn ⟨by norm_num, by norm_num⟩
        ⟨by linarith, by linarith⟩ (by linarith)
    · rcases eq_or_lt_of_le hl2 with e | hlt
      · rw [e]; exact hU
      · exact lt_trans (lat_to_y_with_tan_strictMonoOn ⟨by linarith, by linarith⟩
          ⟨by linarith, hM⟩ hlt) hU
  have hy : |lat_to_y lat| < earth_radius_for_epsg3857 * 3.1415926578 := by
    by_cases ha : lat < -78
    · rw [lat_to_y_of_outside lat (Or.inl ha)]
      have h := hup (-lat) (by linarith) (by linarith)
      rw [lat_to_y_with_tan_neg] at h
      rw [abs_lt]
      constructor <;> linarith [h.1, h.2]
    · by_cases hb : 78 < lat
      · rw [lat_to_y_of_outside lat (Or.inr hb)]
        have h := hup lat hb hlat2
        rw [abs_lt]
        constructor <;> linarith [h.1, h.2]
      · push_neg at ha hb
        rw [lat_to_y_of_inside lat ha hb]
        exact lt_trans (abs_lat_to_y_fast_lt lat ha hb) (by nlinarith)
  refine ⟨hx, ?_, ?_⟩
  · refine lt_of_le_of_lt hx ?_
    unfold max_coordinate_epsg3857
    norm_num at hpi2 ⊢
    linarith
  · refine lt_trans hy ?_
    unfold earth_radius_for_epsg3857 max_coordinate_epsg3857
    norm_num

theorem C18_forward_range_witness :
    ((-180 : ℝ) ≤ 180 ∧ (180 : ℝ) ≤ 180 ∧ -MERCATOR_MAX_LAT ≤ 0 ∧ (0 : ℝ) ≤ MERCATOR_MAX_LAT) ∧
    |(lonlat_to_mercator { x := 180, y := 0 }).x| < max_coordinate_epsg3857 + 0.01 :=
  ⟨⟨by norm_num, le_rfl, by unfold MERCATOR_MAX_LAT; norm_num,
      by unfold MERCATOR_MAX_LAT; norm_num⟩,
    (C18_forward_range 180 0 (by norm_num) le_rfl (by unfold MERCATOR_MAX_LAT; norm_num)
      (by unfold MERCATOR_MAX_LAT; norm_num)).2.1⟩

/-- C20 (counterexample): at latitude 60, on the rational fast path,
`lat_to_y(-60)` is not `-lat_to_y(60)`. -/
theorem C20_symmetry_counterexample :
    (-MERCATOR_MAX_LAT ≤ 60 ∧ (60 : ℝ) ≤ MERCATOR_MAX_LAT) ∧
    ¬ (lat_to_y (-60) = -lat_to_y 60) := by
  refine ⟨⟨by unfold MERCATOR_MAX_LAT; norm_num, by unfold MERCATOR_MAX_LAT; norm_num⟩, ?_⟩
  rw [lat_to_y_of_inside 60 (by norm_num) (by norm_num),
    lat_to_y_of_inside (-60) (by norm_num) (by norm_num)]
  unfold lat_to_y_fast lat_to_y_num lat_to_y_den earth_radius_for_epsg3857
  norm_num

/-- C20 (amended): north/south symmetry of the latitude to y step, for every
latitude in `[-MERCATOR_MAX_LAT, MERCATOR_MAX_LAT]`; on the exact path, that is
for `lat < -78` or `lat > 78`, `lat_to_y(-lat) = -lat_to_y(lat)`, and so it is
for every such latitude in the exact-only build; on the rational fast path the
symmetry holds only approximately, `|lat_to_y(-lat) + lat_to_y(lat)| < 0.00085`. -/
theorem C20_symmetry (lat : ℝ) (h1 : -MERCATOR_MAX_LAT ≤ lat) (h2 : lat ≤ MERCATOR_MAX_LAT) :
    (lat < -78 ∨ lat > 78 → lat_to_y (-lat) = -lat_to_y lat) ∧
    lat_to_y_slow (-lat) = -lat_to_y_slow lat ∧
    |lat_to_y (-lat) + lat_to_y lat| < 0.00085 := by
  have hlo : -90 < lat := by unfold MERCATOR_MAX_LAT at h1; norm_num at h1; linarith
  have hhi : lat < 90 := by unfold MERCATOR_MAX_LAT at h2; norm_num at h2; linarith
  have hout : lat < -78 ∨ lat > 78 → lat_to_y (-lat) = -lat_to_y lat := by
    intro h
    have h' : -lat < -78 ∨ -lat > 78 := by
      rcases h with h | h
      · right; linarith
      · left; linarith
    rw [lat_to_y_of_outside lat h, lat_to_y_of_outside (-lat) h', lat_to_y_with_tan_neg]
  refine ⟨hout, lat_to_y_with_tan_neg lat, ?_⟩
  by_cases h : lat < -78 ∨ lat > 78
  · rw [hout h, neg_add_cancel, abs_zero]
    norm_num
  · push_neg at h
    rw [lat_to_y_of_inside lat h.1 h.2, lat_to_y_of_inside (-lat) (by linarith) (by linarith)]
    exact abs_fast_add_fast_neg_lt lat h.1 h.2

theorem C20_symmetry_witness :
    (-MERCATOR_MAX_LAT ≤ 80 ∧ (80 : ℝ) ≤ MERCATOR_MAX_LAT ∧ ((80 : ℝ) < -78 ∨ (80 : ℝ) > 78)) ∧
    lat_to_y (-80) = -lat_to_y 80 :=
  ⟨⟨by unfold MERCATOR_MAX_LAT; norm_num, by unfold MERCATOR_MAX_LAT; norm_num,
      Or.inr (by norm_num)⟩,
    (C20_symmetry 80 (by unfold MERCATOR_MAX_LAT; norm_num)
      (by unfold MERCATOR_MAX_LAT; norm_num)).1 (Or.inr (by norm_num))⟩

end geom

end osmium
/-! ## Further claims about the tag filter -/

namespace osmium

namespace tags

/-- The comparison of two character ranges is zero exactly when they are equal. -/
theorem compare_ranges_eq_zero (a b : List Char) : compare_ranges a b = 0 ↔ a = b := by
  induction a generalizing b with
  | nil => cases b <;> simp [compare_ranges]
  | cons x xs ih =>
    cases b with
    | nil => simp [compare_ranges]
    | cons y ys =>
      simp only [compare_ranges, List.cons.injEq]
      by_cases h1 : x < y
      · simp only [if_pos h1]
        constructor
        · intro h; exact absurd h (by decide)
        · rintro ⟨e, -⟩; rw [e] at h1; exact absurd h1 (lt_irrefl _)
      · rw [if_neg h1]
        by_cases h2 : y < x
        · simp only [if_pos h2]
          constructor
          · intro h; exact absurd h (by decide)
          · rintro ⟨e, -⟩; rw [e] at h2; exact absurd h2 (lt_irrefl _)
        · rw [if_neg h2, ih]
          have e : x = y := le_antisymm (not_lt.mp h2) (not_lt.mp h1)
          simp [e]

/-- A C string without NUL is converted to the list of its characters. -/
theorem c_str_to_string_eq (t : String) (ht : Char.ofNat 0 ∉ t.data) :
    c_str_to_string t = t.data := by
  unfold c_str_to_string
  rw [List.takeWhile_eq_self_iff]
  intro c hc
  simp only [bne_iff_ne, ne_eq]
  rintro rfl
  exact ht hc

/-- C16: prefix comparison; for every rule key `r` (of a size that fits
`size_t`) and every tag key `t` without embedded NUL, `match_key_prefix()(r, t)`
is true if and only if `r` is a prefix of `t`; so a `KeyPrefixFilter` rule with
the empty key matches every tag, and a rule whose key is longer than the tag key
never matches. -/
theorem C16_prefix_comparison (r t : String) (hr : r.data.length ≤ npos)
    (ht : Char.ofNat 0 ∉ t.data) :
    ( match_key_prefix r t = true ↔ r.data <+: t.data) ∧
    (r = "" → match_key_prefix r t = true) ∧
    (t.data.length < r.data.length → match_key_prefix r t = false) ∧
    (∀ (rule : Rule String Bool) (tag : Tag), rule.key = r → tag.key = t →
      Filter.rule_matches match_key_prefix match_value_void rule tag = match_key_prefix r t) := by
  have key : match_key_prefix r t = true ↔ r.data <+: t.data := by
    unfold match_key_prefix string_compare
    rw [beq_iff_eq, compare_ranges_eq_zero, c_str_to_string_eq t ht, List.drop_zero,
      List.drop_zero, List.take_of_length_le hr, List.prefix_iff_eq_take]
  refine ⟨key, ?_, ?_, ?_⟩
  · intro e
    rw [key, e]
    exact List.nil_prefix
  · intro hlen
    rw [Bool.eq_false_iff, ne_eq, key]
    intro hp
    exact absurd hp.length_le (not_le.mpr hlen)
  · intro rule tag hk ht2
    unfold Filter.rule_matches match_value_void
    rw [hk, ht2, Bool.or_true, Bool.and_true]

theorem C16_prefix_comparison_witness :
    ("addr:".data.length ≤ npos ∧ Char.ofNat 0 ∉ "addr:street".data ∧
      "addr:".data <+: "addr:street".data) ∧
    match_key_prefix "addr:" "addr:street" = true :=
  ⟨⟨by decide, by decide, by decide⟩,
    (C16_prefix_comparison "addr:" "addr:street" (by decide) (by decide)).1.2 (by decide)⟩

namespace Filter

variable {TKey TValue : Type} {TKeyComp : TKey → String → Bool}
  {TValueComp : TValue → String → Bool}

/-- Rules appended after a matching rule do not change the result of the scan. -/
theorem scan_append_of_match (d : Bool) (l l2 : List (Rule TKey TValue)) (tag : Tag)
    (h : ∃ rule ∈ l, rule_matches TKeyComp TValueComp rule tag = true) :
    scan TKeyComp TValueComp d (l ++ l2) tag = scan TKeyComp TValueComp d l tag := by
  induction l with
  | nil =>
    obtain ⟨r, hr, -⟩ := h
    exact absurd hr (List.not_mem_nil r)
  | cons rule rest ih =>
    rw [List.cons_append, scan_cons, scan_cons]
    by_cases hm : rule_matches TKeyComp TValueComp rule tag = true
    · rw [if_pos hm, if_pos hm]
    · rw [if_neg hm, if_neg hm]
      obtain ⟨r, hr, hrm⟩ := h
      rcases List.mem_cons.mp hr with e | hr2
      · rw [e] at hrm; exact absurd hrm hm
      · exact ih ⟨r, hr2, hrm⟩

/-- C19: appending a rule never overrides an earlier one; for every filter `f`,
every new rule `(result, key[, value])` and every tag matched by at least one
rule already in `f`, the filter obtained by `add` returns the same result for
the tag as `f` did; `add` only appends (the count grows by exactly one, the
existing rules and the default result are unchanged), so the new rule changes
the outcome only for tags that no rule of `f` matches. -/
theorem C19_add_never_overrides [Inhabited TValue]
    (f : Filter TKey TValue TKeyComp TValueComp) (result : Bool) (key : TKey)
    (value : TValue) (tag : Tag)
    (h : ∃ rule ∈ f.m_rules, rule_matches TKeyComp TValueComp rule tag = true) :
    (f.add_value result key value).call tag = f.call tag ∧
    (f.add result key).call tag = f.call tag ∧
    (f.add_value result key value).count = f.count + 1 ∧
    (f.add result key).count = f.count + 1 ∧
    (∃ rule, (f.add_value result key value).m_rules = f.m_rules ++ [rule]) ∧
    (∃ rule, (f.add result key).m_rules = f.m_rules ++ [rule]) ∧
    (f.add_value result key value).m_default_result = f.m_default_result ∧
    (f.add result key).m_default_result = f.m_default_result ∧
    (∀ tag2 : Tag, (f.add result key).call tag2 ≠ f.call tag2 →
      ∀ rule ∈ f.m_rules, rule_matches TKeyComp TValueComp rule tag2 = false) := by
  refine ⟨scan_append_of_match _ _ _ tag h, scan_append_of_match _ _ _ tag h,
    List.length_append _ _, List.length_append _ _, ⟨_, rfl⟩, ⟨_, rfl⟩, rfl, rfl, ?_⟩
  intro tag2 hne rule hrule
  by_contra hm
  rw [Bool.not_eq_false] at hm
  exact hne (scan_append_of_match _ _ _ tag2 ⟨rule, hrule, hm⟩)

theorem C19_add_never_overrides_witness :
    (∃ rule ∈ example_filter.m_rules,
      rule_matches (fun a b => a == b) (fun a b => a == b) rule
        { key := "highway", value := "footway" } = true) ∧
    (example_filter.add true "name").call { key := "highway", value := "footway" } =
      example_filter.call { key := "highway", value := "footway" } :=
  ⟨⟨_, List.mem_cons_self _ _, by decide⟩,
    (C19_add_never_overrides example_filter true "name" "" { key := "highway", value := "footway" }
      ⟨_, List.mem_cons_self _ _, by decide⟩).2.1⟩

end Filter

end tags

end osmium
